import Mathlib

/-!
# Verification of the B+ tree engine (`b+tree.ts` and its persistence layer)

Shallow embedding of the tree engine.  Conventions used throughout:

* The source is written in async style where every node method returns a
  promise that is immediately awaited by its caller; the embedding models the
  synchronous dataflow, treating each `await` as plain sequencing and each
  promise as its underlying value.
* JavaScript keys are modelled by `Key`: the `sort` field is what the default
  comparator observes (the finite-number fast path `a - b`), while `tag`
  models data that does not affect the sort order (cf. the `BTree.set`
  documentation: overwriting replaces the stored key, which only matters when
  the new key carries data that does not affect ordering).
* JavaScript values are modelled by `JSV` (`undef` models `undefined`,
  `jnull` models `null`, `num n` a number).
* In-place mutation of a node is modelled by returning the updated node;
  mutation of the tree (its root, its size) by returning the updated tree.
* Recursion over the tree uses an explicit `fuel` argument; every theorem
  assumes fuel exceeding the height of the tree, and the fuel branch that can
  never be reached returns an inert default.
-/

/-- A key: `sort` is the component the comparator observes, `tag` is inert
payload that does not affect the sort order. -/
structure Key where
  sort : Int
  tag : Int
deriving DecidableEq, Repr

/-- A JavaScript value as stored in leaves: `undefined`, `null` or a number. -/
inductive JSV where
  | undef
  | jnull
  | num (n : Int)
deriving DecidableEq, Repr

/-- The default comparator restricted to its finite-number fast path:
`return (a as number) - (b as number)`. -/
def cmpK (a b : Key) : Int := a.sort - b.sort

/-- A node of the B+ tree: a leaf holds `keys` and `values` (with `none`
modelling the all-absent `undefVals` sentinel), an internal node holds
`keys` (each `keys[i]` caching `children[i].maxKey()`) and `children`.
`shared` models the `_isShared` flag. -/
inductive BNode where
  | leaf (keys : List Key) (vals : Option (List JSV)) (shared : Bool)
  | internal (keys : List Key) (children : List BNode) (shared : Bool)
deriving Repr

namespace BNode

/-- `getKeys()`. -/
def getKeys : BNode → List Key
  | leaf ks _ _ => ks
  | internal ks _ _ => ks

/-- `isNodeShared()`. -/
def isNodeShared : BNode → Bool
  | leaf _ _ s => s
  | internal _ _ s => s

/-- `setShared(value)`. -/
def setSharedB : BNode → Bool → BNode
  | leaf ks vs _, b => leaf ks vs b
  | internal ks cs _, b => internal ks cs b

/-- `isLeafNode()`. -/
def isLeafNode : BNode → Bool
  | leaf _ _ _ => true
  | internal _ _ _ => false

/-- `maxKey()`: `keys[keys.length - 1]`, i.e. `undefined` on an empty node. -/
def maxKey (n : BNode) : Option Key := n.getKeys.getLast?

/-- `maxKey()` at call sites where the node is known to be nonempty (the
JavaScript value would be the last key; the default is never read). -/
def maxKeyD (n : BNode) : Key := n.maxKey.getD ⟨0, 0⟩

end BNode

/-- Reading the value array of a leaf through the `undefVals` sentinel:
a sentinel slot reads as `undefined`. -/
def valsList (vals : Option (List JSV)) (len : Nat) : List JSV :=
  match vals with
  | none => List.replicate len JSV.undef
  | some l => l

mutual

/-- The key/value pairs of a subtree in tree order (the contents reported by
a full range scan). -/
def BNode.toList : BNode → List (Key × JSV)
  | .leaf ks vs _ => ks.zip (valsList vs ks.length)
  | .internal _ cs _ => toListL cs

/-- Concatenated contents of a list of children. -/
def toListL : List BNode → List (Key × JSV)
  | [] => []
  | c :: cs => c.toList ++ toListL cs

end

mutual

/-- Height of a node: 0 for a leaf, one more than the tallest child. -/
def BNode.height : BNode → Nat
  | .leaf _ _ _ => 0
  | .internal _ cs _ => 1 + heightL cs

/-- Maximum height over a list of children. -/
def heightL : List BNode → Nat
  | [] => 0
  | c :: cs => max c.height (heightL cs)

end

/-- The sort components of a pair list. -/
def sortsOf (l : List (Key × JSV)) : List Int := l.map (fun p => p.1.sort)

/-- Strictly ascending (the per-node invariant I1 lifted to a pair list). -/
def sortedB : List Int → Bool
  | [] => true
  | [_] => true
  | a :: b :: t => a < b && sortedB (b :: t)

mutual

/-- Well-formedness of a node, as established by the engine after every
completed operation: keys strictly ascending, value arrays aligned (a merge
of a sentinel leaf with a materialized sibling can leave extra value slots,
hence `≤`), no node over `max` keys, internal nodes nonempty with one cached
max-key per child, each cache entry agreeing with `children[i].maxKey()`
under the comparator. -/
def wfB (max : Nat) : BNode → Bool
  | .leaf ks vs _ =>
    sortedB (ks.map Key.sort) && ks.length ≤ max &&
      (match vs with
       | none => true
       | some l => ks.length ≤ l.length)
  | .internal ks cs _ =>
    !cs.isEmpty && ks.length = cs.length && cs.length ≤ max &&
      cacheOkL ks cs && wfL max cs &&
      sortedB (sortsOf (toListL cs))

/-- `keys[i]` caches `children[i].maxKey()` (comparator equality) and every
child is nonempty. -/
def cacheOkL : List Key → List BNode → Bool
  | [], [] => true
  | k :: ks, c :: cs =>
    !c.getKeys.isEmpty && k.sort = (BNode.maxKeyD c).sort && cacheOkL ks cs
  | _, _ => false

/-- All children well-formed. -/
def wfL (max : Nat) : List BNode → Bool
  | [] => true
  | c :: cs => wfB max c && wfL max cs

end

/-- A default node for list lookups whose index is in range at every call
site (`c[i]` in JavaScript). -/
def dfltNode : BNode := .leaf [] none false

/-- A default key for reads of a key slot known to be present. -/
def dfltKey : Key := ⟨0, 0⟩

/-! ## `BNode.indexOf` — the binary search of lines 1377-1404

`indexOf(key, failXor, cmp)` returns the match index, or the insertion index
`i` encoded as `i ^ failXor` (callers pass `failXor ∈ {0, -1}`; in 32-bit
JavaScript arithmetic `i ^ -1 = -(i+1)` and `i ^ 0 = i`).  The loop is
modelled with the interval `[lo, hi)` and fuel `hi - lo` is always enough. -/

/-- One run of the binary-search loop: `.inl m` models `return mid` on a
match, `.inr m` models falling out of the loop with `lo = hi = m`.  The
interval shrinks every iteration, so any fuel of at least `hi - lo`
(callers pass `keys.length + 1`) preserves the loop semantics. -/
def indexOfAux (keys : List Key) (key : Key) : Nat → Nat → Nat → Nat ⊕ Nat
  | 0, lo, _ => .inr lo
  | fuel + 1, lo, hi =>
    if lo < hi then
      if cmpK (keys.getD ((lo + hi) / 2) dfltKey) key < 0 then
        indexOfAux keys key fuel ((lo + hi) / 2 + 1) hi
      else if 0 < cmpK (keys.getD ((lo + hi) / 2) dfltKey) key then
        indexOfAux keys key fuel lo ((lo + hi) / 2)
      else .inl ((lo + hi) / 2)
    else .inr lo

/-- `indexOf(key, 0, cmp)`: insertion index with `failXor = 0`. -/
def indexOf0 (keys : List Key) (key : Key) : Nat :=
  match indexOfAux keys key (keys.length + 1) 0 keys.length with
  | .inl m => m
  | .inr m => m

/-- `indexOf(key, -1, cmp)`: a match is returned as is, a miss is encoded as
`i ^ -1 = -(i+1)`. -/
def indexOfM (keys : List Key) (key : Key) : Int :=
  match indexOfAux keys key (keys.length + 1) 0 keys.length with
  | .inl m => (m : Int)
  | .inr m => -(m + 1)

/-! ## Leaf mutation primitives (lines 1568-1668) -/

/-- `reifyValues()`: materialize the sentinel as `keys.length` copies of
`undefined`, otherwise keep the concrete array. -/
def reifyValues (vals : Option (List JSV)) (len : Nat) : List JSV :=
  match vals with
  | none => List.replicate len JSV.undef
  | some l => l

/-- `insertInLeaf(i, key, value, tree)`: splice the key in; a leaf still on
the sentinel stays on it when inserting `undefined`, otherwise materializes
first (`undefVals.slice(0, keys.length - 1)` after the key splice, i.e. one
`undefined` per pre-existing key). -/
def insertInLeaf (ks : List Key) (vs : Option (List JSV)) (i : Nat)
    (key : Key) (value : JSV) : List Key × Option (List JSV) :=
  let ks' := ks.insertIdx i key
  match vs with
  | none =>
    if value = JSV.undef then (ks', none)
    else (ks', some ((List.replicate ks.length JSV.undef).insertIdx i value))
  | some l => (ks', some (l.insertIdx i value))

/-- `BNode.splitOffRightSide()`: keep `keys.splice(half)`'s complement (the
low half) in place and return the high half as a fresh right sibling; the
sentinel is not split. -/
def splitOffRightSide (ks : List Key) (vs : Option (List JSV)) :
    (List Key × Option (List JSV)) × (List Key × Option (List JSV)) :=
  let half := ks.length / 2
  ((ks.take half, vs.map (List.take half)),
   (ks.drop half, vs.map (List.drop half)))

/-- `other.takeFromRight(rhs)`: this node gains `rhs`'s first key (and value),
`rhs` loses it.  Both call sites pair siblings of the same kind with a
nonempty (indeed full) `rhs`; other shapes are returned unchanged. -/
def takeFromRight : BNode → BNode → BNode × BNode
  | .leaf tk tv ts, .leaf (rk0 :: rks) rv rs =>
    (match rv with
     | none =>
       (.leaf (tk ++ [rk0]) (tv.map (fun l => l ++ [JSV.undef])) ts,
        .leaf rks none rs)
     | some rvl =>
       let v0 := rvl.headD JSV.undef
       (.leaf (tk ++ [rk0]) (some (reifyValues tv tk.length ++ [v0])) ts,
        .leaf rks (some rvl.tail) rs))
  | .internal tk tcs ts, .internal (rk0 :: rks) (rc0 :: rcs) rs =>
    (.internal (tk ++ [rk0]) (tcs ++ [rc0]) ts, .internal rks rcs rs)
  | a, b => (a, b)

/-- `other.takeFromLeft(lhs)`: this node gains `lhs`'s last key (and value)
at its front, `lhs` loses it.  Call sites pair same-kind siblings with a
nonempty `lhs`. -/
def takeFromLeft : BNode → BNode → BNode × BNode
  | .leaf tk tv ts, .leaf lk lv ls =>
    (match lv with
     | none =>
       (.leaf (lk.getLast?.getD dfltKey :: tk) (tv.map (fun l => JSV.undef :: l)) ts,
        .leaf lk.dropLast none ls)
     | some lvl =>
       (.leaf (lk.getLast?.getD dfltKey :: tk)
          (some (lvl.getLast?.getD JSV.undef :: reifyValues tv tk.length)) ts,
        .leaf lk.dropLast (some lvl.dropLast) ls))
  | .internal tk tcs ts, .internal lk lcs ls =>
    (.internal (lk.getLast?.getD dfltKey :: tk) (lcs.getLast?.getD dfltNode :: tcs) ts,
     .internal lk.dropLast lcs.dropLast ls)
  | a, b => (a, b)

/-- `BNodeInternal.applyMaxKeys()`: rebuild the cached max-keys only when the
key array's length disagrees with the child count. -/
def applyMaxKeys (ks : List Key) (cs : List BNode) : List Key :=
  if ks.length = cs.length then ks else cs.map BNode.maxKeyD

/-- `clone()`: a leaf clone copies keys and values (a fresh unshared node);
an internal clone marks every child shared and copies the key cache
(`applyMaxKeys` finds equal lengths and keeps it). -/
def cloneNode : BNode → BNode
  | .leaf ks vs _ => .leaf ks vs false
  | .internal ks cs _ =>
    let cs' := cs.map (fun c => c.setSharedB true)
    .internal (applyMaxKeys ks cs') cs' false

/-- Result of `BNode.set`: a boolean, or a new right sibling after a split. -/
inductive SetRes where
  | done (b : Bool)
  | split (right : BNode)
deriving Repr

/-- `BNode.set` on a leaf (lines 1571-1607).  The third component reports
whether `tree.incSize()` ran (the key was absent). -/
def setLeaf (ks : List Key) (vs : Option (List JSV)) (s : Bool)
    (key : Key) (value : JSV) (ow : Option Bool) (max : Nat) :
    BNode × SetRes × Bool :=
  let i := indexOfM ks key
  if i < 0 then
    let j := (-i - 1).toNat
    if ks.length < max then
      let (k', v') := insertInLeaf ks vs j key value
      (.leaf k' v' s, .done true, true)
    else
      let ((lk, lv), (rk, rv)) := splitOffRightSide ks vs
      if j > lk.length then
        let (rk', rv') := insertInLeaf rk rv (j - lk.length) key value
        (.leaf lk lv s, .split (.leaf rk' rv' false), true)
      else
        let (lk', lv') := insertInLeaf lk lv j key value
        (.leaf lk' lv' s, .split (.leaf rk rv false), true)
  else
    let j := i.toNat
    if ow ≠ some false then
      let vs' :=
        if value ≠ JSV.undef then some ((reifyValues vs ks.length).set j value)
        else vs.map (fun l => l.set j value)
      (.leaf (ks.set j key) vs' s, .done false, false)
    else (.leaf ks vs s, .done false, false)

/-- `BNodeInternal.insert(i, child)`: splice the child and its max-key in at
index `i`. -/
def insertN (ks : List Key) (cs : List BNode) (i : Nat) (child : BNode) :
    List Key × List BNode :=
  (ks.insertIdx i child.maxKeyD, cs.insertIdx i child)

/-- The sibling-shift block of `BNodeInternal.set` (lines 1972-1997): when
the located child is full, try to move one item into the left neighbor
(`other.takeFromRight(child)`, guarded by `cmp(child.keys[0], key) < 0`),
else into the right neighbor (`other.takeFromLeft(child)`, guarded by
`cmp(child.maxKey(), key) < 0`); a shared neighbor is cloned first. -/
def shiftStep (ks : List Key) (cs : List BNode) (child : BNode) (i : Nat)
    (key : Key) (max : Nat) : List Key × List BNode × BNode :=
  if max ≤ child.getKeys.length then
    if 0 < i ∧ (cs.getD (i-1) dfltNode).getKeys.length < max ∧
        cmpK (child.getKeys.headD dfltKey) key < 0 then
      let other0 := cs.getD (i-1) dfltNode
      let other1 := if other0.isNodeShared then cloneNode other0 else other0
      let (other2, child2) := takeFromRight other1 child
      (ks.set (i-1) other2.maxKeyD, (cs.set (i-1) other2).set i child2, child2)
    else if i+1 < cs.length ∧ (cs.getD (i+1) dfltNode).getKeys.length < max ∧
        cmpK child.maxKeyD key < 0 then
      let other0 := cs.getD (i+1) dfltNode
      let other1 := if other0.isNodeShared then cloneNode other0 else other0
      let (other2, child2) := takeFromLeft other1 child
      (ks.set i child2.maxKeyD, (cs.set (i+1) other2).set i child2, child2)
    else (ks, cs, child)
  else (ks, cs, child)

/-- `BNodeInternal.set` (lines 1959-2022): locate the child, clone it when
shared, attempt a sibling shift, recurse (`recurse` is the recursive call
with the same key/value/overwrite/fanout), refresh the cached max-key, and
place a returned right sibling at `i + 1`, splitting this node if it is
full. -/
def setInternal (recurse : BNode → BNode × SetRes × Bool)
    (ks : List Key) (cs : List BNode) (s : Bool) (key : Key) (max : Nat) :
    BNode × SetRes × Bool :=
  let i := min (indexOf0 ks key) (cs.length - 1)
  let child0 := cs.getD i dfltNode
  let child1 := if child0.isNodeShared then cloneNode child0 else child0
  let cs1 := cs.set i child1
  let (ks2, cs2, child2) := shiftStep ks cs1 child1 i key max
  let (child', res, inc) := recurse child2
  let cs3 := cs2.set i child'
  match res with
  | .done false => (.internal ks2 cs3 s, .done false, false)
  | .done true => (.internal (ks2.set i child'.maxKeyD) cs3 s, .done true, inc)
  | .split sib =>
    let ks3 := ks2.set i child'.maxKeyD
    if ks3.length < max then
      let (ks4, cs4) := insertN ks3 cs3 (i + 1) sib
      (.internal ks4 cs4 s, .done true, inc)
    else
      let half := cs3.length / 2
      let lks := ks3.take half
      let lcs := cs3.take half
      let rks := ks3.drop half
      let rcs := cs3.drop half
      if 0 < cmpK sib.maxKeyD (lks.getLast?.getD dfltKey) then
        let (rks', rcs') := insertN rks rcs (i + 1 - lks.length) sib
        (.internal lks lcs s, .split (.internal rks' rcs' false), inc)
      else
        let (lks', lcs') := insertN lks lcs (i + 1) sib
        (.internal lks' lcs' s, .split (.internal rks rcs false), inc)

/-- `BNode.set` (leaf dispatch) and `BNodeInternal.set`, driven by explicit
fuel (any bound above the height works; the fuel-exhausted branch is
unreachable under the theorems' hypotheses). -/
def setNode : Nat → BNode → Key → JSV → Option Bool → Nat → BNode × SetRes × Bool
  | 0, n, _, _, _, _ => (n, .done false, false)
  | _ + 1, .leaf ks vs s, key, value, ow, max => setLeaf ks vs s key value ow max
  | fuel + 1, .internal ks cs s, key, value, ow, max =>
    setInternal (fun c => setNode fuel c key value ow max) ks cs s key max

/-- The tree: root node, pair count and fanout (`_maxNodeSize`). -/
structure TreeS where
  root : BNode
  size : Nat
  maxNodeSize : Nat
deriving Repr

/-- The module-level `EmptyLeaf`, permanently marked shared. -/
def EmptyLeaf : BNode := .leaf [] none true

/-- `BTree.set` (lines 366-375): clone a shared root, delegate, and on a
split grow a new root over the old root and the new sibling. -/
def treeSet (fuel : Nat) (t : TreeS) (key : Key) (value : JSV) (ow : Option Bool) :
    TreeS × Bool :=
  let root0 := if t.root.isNodeShared then cloneNode t.root else t.root
  let (root1, res, inc) := setNode fuel root0 key value ow t.maxNodeSize
  let sz := if inc then t.size + 1 else t.size
  match res with
  | .done b => ({ t with root := root1, size := sz }, b)
  | .split sib =>
    let cs := [root1, sib]
    ({ t with root := .internal (applyMaxKeys [] cs) cs false, size := sz }, true)

/-! ## Binary-search correctness on sorted key arrays -/

theorem sortedB_iff_chain (l : List Int) : sortedB l = true ↔ l.Chain' (· < ·) := by
  induction l with
  | nil => simp [sortedB]
  | cons a t ih =>
    cases t with
    | nil => simp [sortedB]
    | cons b t2 =>
      rw [sortedB, List.chain'_cons, ← ih]
      simp

theorem sortedB_iff (l : List Int) : sortedB l = true ↔ l.Pairwise (· < ·) := by
  rw [sortedB_iff_chain, List.chain'_iff_pairwise]

theorem getD_map_sort (keys : List Key) (j : Nat) (h : j < keys.length) :
    (keys.map Key.sort).getD j 0 = (keys.getD j dfltKey).sort := by
  rw [List.getD_eq_getElem _ _ (by simpa using h), List.getD_eq_getElem _ _ h]
  simp

theorem sorted_getD_le (keys : List Key) (hs : (keys.map Key.sort).Pairwise (· < ·))
    {i j : Nat} (hij : i ≤ j) (hj : j < keys.length) :
    (keys.getD i dfltKey).sort ≤ (keys.getD j dfltKey).sort := by
  rcases Nat.eq_or_lt_of_le hij with rfl | hlt
  · exact le_refl _
  · have hi' : i < keys.length := lt_trans hlt hj
    have h1 : keys.getD i dfltKey = keys[i] := List.getD_eq_getElem _ _ hi'
    have h2 : keys.getD j dfltKey = keys[j] := List.getD_eq_getElem _ _ hj
    have hp := List.pairwise_iff_getElem.mp hs i j (by simpa using hi')
      (by simpa using hj) hlt
    have hi2 : i < (List.map Key.sort keys).length := by simpa using hi'
    have hj2 : j < (List.map Key.sort keys).length := by simpa using hj
    have e1 : (List.map Key.sort keys)[i] = (keys[i]).sort := by simp
    have e2 : (List.map Key.sort keys)[j] = (keys[j]).sort := by simp
    rw [e1, e2] at hp
    rw [h1, h2]
    exact le_of_lt hp

theorem sorted_getD_lt (keys : List Key) (hs : (keys.map Key.sort).Pairwise (· < ·))
    {i j : Nat} (hij : i < j) (hj : j < keys.length) :
    (keys.getD i dfltKey).sort < (keys.getD j dfltKey).sort := by
  have hi' : i < keys.length := lt_trans hij hj
  have h1 : keys.getD i dfltKey = keys[i] := List.getD_eq_getElem _ _ hi'
  have h2 : keys.getD j dfltKey = keys[j] := List.getD_eq_getElem _ _ hj
  have hp := List.pairwise_iff_getElem.mp hs i j (by simpa using hi')
    (by simpa using hj) hij
  have hi2 : i < (List.map Key.sort keys).length := by simpa using hi'
  have hj2 : j < (List.map Key.sort keys).length := by simpa using hj
  have e1 : (List.map Key.sort keys)[i] = (keys[i]).sort := by simp
  have e2 : (List.map Key.sort keys)[j] = (keys[j]).sort := by simp
  rw [e1, e2] at hp
  rw [h1, h2]
  exact hp

theorem indexOfAux_spec (keys : List Key) (key : Key)
    (hs : (keys.map Key.sort).Pairwise (· < ·)) :
    ∀ fuel lo hi, hi - lo ≤ fuel → lo ≤ hi → hi ≤ keys.length →
    (∀ j, j < lo → (keys.getD j dfltKey).sort < key.sort) →
    (∀ j, hi ≤ j → j < keys.length → key.sort < (keys.getD j dfltKey).sort) →
    (match indexOfAux keys key fuel lo hi with
     | .inl m => m < keys.length ∧ (keys.getD m dfltKey).sort = key.sort
     | .inr m => m ≤ keys.length ∧ (∀ j, j < m → (keys.getD j dfltKey).sort < key.sort) ∧
                 (∀ j, m ≤ j → j < keys.length → key.sort < (keys.getD j dfltKey).sort)) := by
  intro fuel
  induction fuel with
  | zero =>
    intro lo hi hn hle hhi hlow hhigh
    have : lo = hi := by omega
    subst this
    exact ⟨by omega, hlow, hhigh⟩
  | succ f ih =>
    intro lo hi hn hle hhi hlow hhigh
    rw [indexOfAux]
    by_cases h : lo < hi
    · rw [if_pos h]
      have hmid1 : lo ≤ (lo + hi) / 2 := by omega
      have hmid2 : (lo + hi) / 2 < hi := by omega
      set mid := (lo + hi) / 2 with hmiddef
      by_cases hc1 : cmpK (keys.getD mid dfltKey) key < 0
      · rw [if_pos hc1]
        have hmidlt : (keys.getD mid dfltKey).sort < key.sort := by
          unfold cmpK at hc1; omega
        refine ih (mid + 1) hi (by omega) (by omega) hhi ?_ hhigh
        intro j hj
        rcases Nat.lt_or_ge j lo with hjlo | hjlo
        · exact hlow j hjlo
        · exact lt_of_le_of_lt (sorted_getD_le keys hs (by omega) (by omega)) hmidlt
      · rw [if_neg hc1]
        by_cases hc2 : 0 < cmpK (keys.getD mid dfltKey) key
        · rw [if_pos hc2]
          have hmidgt : key.sort < (keys.getD mid dfltKey).sort := by
            unfold cmpK at hc2; omega
          refine ih lo mid (by omega) (by omega) (by omega) hlow ?_
          intro j hj1 hj2
          exact lt_of_lt_of_le hmidgt (sorted_getD_le keys hs hj1 hj2)
        · rw [if_neg hc2]
          have : (keys.getD mid dfltKey).sort = key.sort := by
            unfold cmpK at hc1 hc2; omega
          exact ⟨by omega, this⟩
    · rw [if_neg h]
      have : lo = hi := by omega
      subst this
      exact ⟨by omega, hlow, hhigh⟩

/-- The number of keys whose sort component is below the search key. -/
def ltCount (keys : List Key) (key : Key) : Nat :=
  keys.countP (fun a => a.sort < key.sort)

theorem countP_eq_of_split {α : Type} (dflt : α) (p : α → Bool) (l : List α) (m : Nat)
    (hm : m ≤ l.length)
    (h1 : ∀ j, j < m → p (l.getD j dflt) = true)
    (h2 : ∀ j, m ≤ j → j < l.length → p (l.getD j dflt) = false) :
    l.countP p = m := by
  induction l generalizing m with
  | nil =>
    simp only [List.length_nil, Nat.le_zero] at hm
    simp [hm]
  | cons a t ih =>
    cases m with
    | zero =>
      rw [List.countP_cons]
      have h0 : p a = false := by simpa using h2 0 (by omega) (by simp)
      have : t.countP p = 0 := by
        rw [List.countP_eq_zero]
        intro x hx
        rcases List.getElem_of_mem hx with ⟨j, hj, rfl⟩
        have := h2 (j + 1) (by omega) (by simpa using by omega)
        simp only [List.getD_cons_succ] at this
        rw [List.getD_eq_getElem _ _ hj] at this
        simp [this]
      simp [h0, this]
    | succ m' =>
      rw [List.countP_cons]
      have h0 : p a = true := by simpa using h1 0 (by omega)
      have ht : t.countP p = m' := by
        refine ih m' (by simpa using hm) ?_ ?_
        · intro j hj
          have := h1 (j + 1) (by omega)
          simpa using this
        · intro j hj1 hj2
          have := h2 (j + 1) (by omega) (by simpa using by omega)
          simpa using this
      simp [h0, ht]

theorem indexOfAux_top (keys : List Key) (key : Key)
    (hs : sortedB (keys.map Key.sort) = true) :
    (match indexOfAux keys key (keys.length + 1) 0 keys.length with
     | .inl m => m = ltCount keys key ∧ m < keys.length ∧
                 (keys.getD m dfltKey).sort = key.sort ∧ key.sort ∈ keys.map Key.sort
     | .inr m => m = ltCount keys key ∧ m ≤ keys.length ∧ key.sort ∉ keys.map Key.sort) := by
  have hp := (sortedB_iff _).mp hs
  have h := indexOfAux_spec keys key hp (keys.length + 1) 0 keys.length (by omega) (by omega)
    (le_refl _) (by omega) (by omega)
  revert h
  cases hres : indexOfAux keys key (keys.length + 1) 0 keys.length with
  | inl m =>
    rintro ⟨hm, heq⟩
    have hlt : ∀ j, j < m → (keys.getD j dfltKey).sort < key.sort := by
      intro j hj
      exact lt_of_lt_of_le (by
        have := List.pairwise_iff_getElem.mp hp j m (by simpa using lt_trans hj hm)
          (by simpa using hm) hj
        rw [List.getD_eq_getElem _ _ (lt_trans hj hm), List.getD_eq_getElem _ _ hm]
        simpa using this) (le_of_eq heq)
    have hge : ∀ j, m ≤ j → j < keys.length → ¬ (keys.getD j dfltKey).sort < key.sort := by
      intro j hj1 hj2
      have := sorted_getD_le keys hp hj1 hj2
      omega
    refine ⟨?_, hm, heq, ?_⟩
    · symm
      refine countP_eq_of_split dfltKey _ keys m (le_of_lt hm) ?_ ?_
      · intro j hj; simpa using hlt j hj
      · intro j hj1 hj2; simpa using hge j hj1 hj2
    · rw [← heq]
      rw [List.getD_eq_getElem _ _ hm]
      exact List.mem_map_of_mem Key.sort (by simp)
  | inr m =>
    rintro ⟨hm, hlow, hhigh⟩
    refine ⟨?_, hm, ?_⟩
    · symm
      refine countP_eq_of_split dfltKey _ keys m hm ?_ ?_
      · intro j hj; simpa using hlow j hj
      · intro j hj1 hj2
        have := hhigh j hj1 hj2
        simp only [decide_eq_false_iff_not]
        omega
    · intro hmem
      rcases List.mem_map.mp hmem with ⟨a, ha, hasort⟩
      rcases List.getElem_of_mem ha with ⟨j, hj, rfl⟩
      rcases Nat.lt_or_ge j m with hjm | hjm
      · have := hlow j hjm
        rw [List.getD_eq_getElem _ _ hj] at this
        omega
      · have := hhigh j hjm hj
        rw [List.getD_eq_getElem _ _ hj] at this
        omega

theorem indexOf0_eq (keys : List Key) (key : Key)
    (hs : sortedB (keys.map Key.sort) = true) :
    indexOf0 keys key = ltCount keys key := by
  have := indexOfAux_top keys key hs
  revert this
  unfold indexOf0
  cases indexOfAux keys key (keys.length + 1) 0 keys.length with
  | inl m => rintro ⟨h, -⟩; exact h
  | inr m => rintro ⟨h, -⟩; exact h

theorem indexOfM_found (keys : List Key) (key : Key)
    (hs : sortedB (keys.map Key.sort) = true) (hmem : key.sort ∈ keys.map Key.sort) :
    indexOfM keys key = (ltCount keys key : Int) ∧ ltCount keys key < keys.length ∧
    (keys.getD (ltCount keys key) dfltKey).sort = key.sort := by
  have := indexOfAux_top keys key hs
  revert this
  unfold indexOfM
  cases indexOfAux keys key (keys.length + 1) 0 keys.length with
  | inl m => rintro ⟨h, h2, h3, -⟩; subst h; exact ⟨rfl, h2, h3⟩
  | inr m => rintro ⟨-, -, h⟩; exact absurd hmem h

theorem indexOfM_miss (keys : List Key) (key : Key)
    (hs : sortedB (keys.map Key.sort) = true) (hmem : key.sort ∉ keys.map Key.sort) :
    indexOfM keys key = -((ltCount keys key : Int) + 1) ∧ ltCount keys key ≤ keys.length := by
  have := indexOfAux_top keys key hs
  revert this
  unfold indexOfM
  cases indexOfAux keys key (keys.length + 1) 0 keys.length with
  | inl m => rintro ⟨-, -, -, h⟩; exact absurd h hmem
  | inr m => rintro ⟨h, h2, -⟩; subst h; exact ⟨rfl, h2⟩

theorem indexOfM_neg_iff (keys : List Key) (key : Key)
    (hs : sortedB (keys.map Key.sort) = true) :
    indexOfM keys key < 0 ↔ key.sort ∉ keys.map Key.sort := by
  by_cases hmem : key.sort ∈ keys.map Key.sort
  · have h1 := (indexOfM_found keys key hs hmem).1
    constructor
    · intro h; omega
    · intro h; exact absurd hmem h
  · have h1 := (indexOfM_miss keys key hs hmem).1
    constructor
    · intro _; exact hmem
    · intro _; omega

/-! ## The constructor's fanout clamp (lines 236-245) -/

/-- `this._maxNodeSize = maxNodeSize! >= 4 ? Math.min(maxNodeSize!, 256) : 32`;
`none` models an omitted argument (`undefined >= 4` is false in JavaScript). -/
def ctorMaxNodeSize (m : Option Int) : Int :=
  match m with
  | some v => if 4 ≤ v then min v 256 else 32
  | none => 32

/-- C9 counterexample: the claim says a fanout below 4 yields 4, but the
constructor falls back to the default 32: `new BTree(_, _, 2)` has
`_maxNodeSize = 32 ≠ 4`. -/
theorem C9_counterexample :
    ctorMaxNodeSize (some 2) = 32 ∧ ¬ ctorMaxNodeSize (some 2) = 4 := by decide

/-- C9 (amended): the fanout always lands in `[4, 256]` and defaults to 32;
a fanout above 256 is clamped to 256, one in `[4, 256]` is kept, but one
below 4 falls back to the default 32 (it is not clamped up to 4). -/
theorem C9_fanout_clamp (v : Int) :
    4 ≤ ctorMaxNodeSize (some v) ∧ ctorMaxNodeSize (some v) ≤ 256 ∧
    ctorMaxNodeSize none = 32 ∧
    (256 < v → ctorMaxNodeSize (some v) = 256) ∧
    (v < 4 → ctorMaxNodeSize (some v) = 32) ∧
    (4 ≤ v → v ≤ 256 → ctorMaxNodeSize (some v) = v) := by
  simp only [ctorMaxNodeSize]
  by_cases h : 4 ≤ v
  · rw [if_pos h]
    refine ⟨?_, ?_, trivial, ?_, ?_, ?_⟩ <;> simp only [min_def] <;> split <;>
      first | omega | (intros; omega)
  · rw [if_neg h]
    refine ⟨by omega, by omega, trivial, ?_, ?_, ?_⟩ <;> intros <;> omega

/-- C9 witness: the clamp evaluated at 300 and at 2. -/
theorem C9_fanout_clamp_witness :
    ctorMaxNodeSize (some 300) = 256 ∧ ctorMaxNodeSize (some 2) = 32 :=
  ⟨(C9_fanout_clamp 300).2.2.2.1 (by decide), (C9_fanout_clamp 2).2.2.2.2.1 (by decide)⟩

/-! ## C8: the sibling-shift guard, and C7: leaf split geometry -/

/-- C8 counterexample: with fanout 4, an internal node over the leaves
`[1,2]` and `[3,4,5,6]` and insertion key 7 routed to the full child (index
1): the left neighbor has room (2 < 4) and the claim's guard — shift only
when "key > neighbor.max_key()" does NOT hold — is false here since
`7 > 2`; yet the engine performs `left.takeFromRight(child)`, moving key 3
into the left neighbor and updating its cached max-key. -/
theorem C8_counterexample :
    ((BNode.leaf [⟨1, 0⟩, ⟨2, 0⟩] (some [JSV.num 1, JSV.num 2]) false).getKeys.length < 4 ∧
     0 < cmpK ⟨7, 0⟩
       (BNode.maxKeyD (.leaf [⟨1, 0⟩, ⟨2, 0⟩] (some [JSV.num 1, JSV.num 2]) false))) ∧
    shiftStep [⟨2, 0⟩, ⟨6, 0⟩]
      [.leaf [⟨1, 0⟩, ⟨2, 0⟩] (some [JSV.num 1, JSV.num 2]) false,
       .leaf [⟨3, 0⟩, ⟨4, 0⟩, ⟨5, 0⟩, ⟨6, 0⟩]
         (some [JSV.num 3, JSV.num 4, JSV.num 5, JSV.num 6]) false]
      (.leaf [⟨3, 0⟩, ⟨4, 0⟩, ⟨5, 0⟩, ⟨6, 0⟩]
         (some [JSV.num 3, JSV.num 4, JSV.num 5, JSV.num 6]) false)
      1 ⟨7, 0⟩ 4 =
      ([⟨3, 0⟩, ⟨6, 0⟩],
       [.leaf [⟨1, 0⟩, ⟨2, 0⟩, ⟨3, 0⟩] (some [JSV.num 1, JSV.num 2, JSV.num 3]) false,
        .leaf [⟨4, 0⟩, ⟨5, 0⟩, ⟨6, 0⟩] (some [JSV.num 4, JSV.num 5, JSV.num 6]) false],
       .leaf [⟨4, 0⟩, ⟨5, 0⟩, ⟨6, 0⟩] (some [JSV.num 4, JSV.num 5, JSV.num 6]) false) := by
  constructor
  · exact ⟨by decide, by decide⟩
  · rfl

/-- C8 (amended): the complete shift decision on the insert path with a
full target child, for an arbitrary child (leaf or internal) and arbitrary
(possibly shared, hence first cloned) neighbors: the node shifts into the
left neighbor exactly when `i > 0`, the left neighbor has room and
`cmp(child.keys[0], key) < 0`; failing that, it shifts into the right
neighbor exactly when that neighbor exists (`i + 1 < children.length`), has
room and `cmp(child.maxKey(), key) < 0`; otherwise nothing is shifted.  The
two trailing clauses record that the key the left neighbor takes —
`child.keys[0]` — becomes that neighbor's new max-key, both for leaf and
for internal siblings, so the left guard compares the key against the
neighbor's *new* max-key, not (as the original claim says) its old one. -/
theorem C8_shift_guard (ks : List Key) (cs : List BNode) (child : BNode)
    (i : Nat) (key : Key) (max : Nat)
    (hfull : max ≤ child.getKeys.length) :
    shiftStep ks cs child i key max =
      (if 0 < i ∧ (cs.getD (i - 1) dfltNode).getKeys.length < max ∧
          cmpK (child.getKeys.headD dfltKey) key < 0 then
        (ks.set (i - 1)
          (takeFromRight
            (if (cs.getD (i - 1) dfltNode).isNodeShared then
              cloneNode (cs.getD (i - 1) dfltNode) else cs.getD (i - 1) dfltNode)
            child).1.maxKeyD,
         (cs.set (i - 1)
          (takeFromRight
            (if (cs.getD (i - 1) dfltNode).isNodeShared then
              cloneNode (cs.getD (i - 1) dfltNode) else cs.getD (i - 1) dfltNode)
            child).1).set i
          (takeFromRight
            (if (cs.getD (i - 1) dfltNode).isNodeShared then
              cloneNode (cs.getD (i - 1) dfltNode) else cs.getD (i - 1) dfltNode)
            child).2,
         (takeFromRight
            (if (cs.getD (i - 1) dfltNode).isNodeShared then
              cloneNode (cs.getD (i - 1) dfltNode) else cs.getD (i - 1) dfltNode)
            child).2)
      else if i + 1 < cs.length ∧ (cs.getD (i + 1) dfltNode).getKeys.length < max ∧
          cmpK child.maxKeyD key < 0 then
        (ks.set i
          (takeFromLeft
            (if (cs.getD (i + 1) dfltNode).isNodeShared then
              cloneNode (cs.getD (i + 1) dfltNode) else cs.getD (i + 1) dfltNode)
            child).2.maxKeyD,
         (cs.set (i + 1)
          (takeFromLeft
            (if (cs.getD (i + 1) dfltNode).isNodeShared then
              cloneNode (cs.getD (i + 1) dfltNode) else cs.getD (i + 1) dfltNode)
            child).1).set i
          (takeFromLeft
            (if (cs.getD (i + 1) dfltNode).isNodeShared then
              cloneNode (cs.getD (i + 1) dfltNode) else cs.getD (i + 1) dfltNode)
            child).2,
         (takeFromLeft
            (if (cs.getD (i + 1) dfltNode).isNodeShared then
              cloneNode (cs.getD (i + 1) dfltNode) else cs.getD (i + 1) dfltNode)
            child).2)
      else (ks, cs, child)) ∧
    (∀ tk tv ts rk0 rks rv rs,
      (takeFromRight (.leaf tk tv ts) (.leaf (rk0 :: rks) rv rs)).1.maxKeyD = rk0) ∧
    (∀ tk tcs ts rk0 rks rc0 rcs rs,
      (takeFromRight (.internal tk tcs ts)
        (.internal (rk0 :: rks) (rc0 :: rcs) rs)).1.maxKeyD = rk0) := by
  refine ⟨?_, ?_, ?_⟩
  · unfold shiftStep
    rw [if_pos hfull]
  · intro tk tv ts rk0 rks rv rs
    cases rv with
    | none =>
      simp [takeFromRight, BNode.maxKeyD, BNode.maxKey, BNode.getKeys]
    | some rvl =>
      simp [takeFromRight, BNode.maxKeyD, BNode.maxKey, BNode.getKeys]
  · intro tk tcs ts rk0 rks rc0 rcs rs
    simp [takeFromRight, BNode.maxKeyD, BNode.maxKey, BNode.getKeys]

/-- C8 witness: the shift decision applied at the counterexample state
(left shift taken, key 3 moved and cached as the neighbor's new max), at
the same state with a small key (both guards fail, nothing shifted), and
the new-max clause at the concrete leaf pair. -/
theorem C8_shift_guard_witness :
    ((4 : Nat) ≤ (BNode.leaf [⟨3, 0⟩, ⟨4, 0⟩, ⟨5, 0⟩, ⟨6, 0⟩]
      (some [JSV.num 3, JSV.num 4, JSV.num 5, JSV.num 6]) false).getKeys.length) ∧
    shiftStep [⟨2, 0⟩, ⟨6, 0⟩]
      [.leaf [⟨1, 0⟩, ⟨2, 0⟩] (some [JSV.num 1, JSV.num 2]) false,
       .leaf [⟨3, 0⟩, ⟨4, 0⟩, ⟨5, 0⟩, ⟨6, 0⟩]
         (some [JSV.num 3, JSV.num 4, JSV.num 5, JSV.num 6]) false]
      (.leaf [⟨3, 0⟩, ⟨4, 0⟩, ⟨5, 0⟩, ⟨6, 0⟩]
         (some [JSV.num 3, JSV.num 4, JSV.num 5, JSV.num 6]) false)
      1 ⟨7, 0⟩ 4 =
      ([⟨3, 0⟩, ⟨6, 0⟩],
       [.leaf [⟨1, 0⟩, ⟨2, 0⟩, ⟨3, 0⟩] (some [JSV.num 1, JSV.num 2, JSV.num 3]) false,
        .leaf [⟨4, 0⟩, ⟨5, 0⟩, ⟨6, 0⟩] (some [JSV.num 4, JSV.num 5, JSV.num 6]) false],
       .leaf [⟨4, 0⟩, ⟨5, 0⟩, ⟨6, 0⟩] (some [JSV.num 4, JSV.num 5, JSV.num 6]) false) ∧
    shiftStep [⟨2, 0⟩, ⟨6, 0⟩]
      [.leaf [⟨1, 0⟩, ⟨2, 0⟩] (some [JSV.num 1, JSV.num 2]) false,
       .leaf [⟨3, 0⟩, ⟨4, 0⟩, ⟨5, 0⟩, ⟨6, 0⟩]
         (some [JSV.num 3, JSV.num 4, JSV.num 5, JSV.num 6]) false]
      (.leaf [⟨3, 0⟩, ⟨4, 0⟩, ⟨5, 0⟩, ⟨6, 0⟩]
         (some [JSV.num 3, JSV.num 4, JSV.num 5, JSV.num 6]) false)
      1 ⟨0, 0⟩ 4 =
      ([⟨2, 0⟩, ⟨6, 0⟩],
       [.leaf [⟨1, 0⟩, ⟨2, 0⟩] (some [JSV.num 1, JSV.num 2]) false,
        .leaf [⟨3, 0⟩, ⟨4, 0⟩, ⟨5, 0⟩, ⟨6, 0⟩]
          (some [JSV.num 3, JSV.num 4, JSV.num 5, JSV.num 6]) false],
       .leaf [⟨3, 0⟩, ⟨4, 0⟩, ⟨5, 0⟩, ⟨6, 0⟩]
         (some [JSV.num 3, JSV.num 4, JSV.num 5, JSV.num 6]) false) ∧
    (takeFromRight (.leaf [⟨1, 0⟩, ⟨2, 0⟩] (some [JSV.num 1, JSV.num 2]) false)
      (.leaf [⟨3, 0⟩, ⟨4, 0⟩, ⟨5, 0⟩, ⟨6, 0⟩]
        (some [JSV.num 3, JSV.num 4, JSV.num 5, JSV.num 6]) false)).1.maxKeyD =
      ⟨3, 0⟩ := by
  refine ⟨by decide, ?_, ?_, ?_⟩
  · exact ((C8_shift_guard [⟨2, 0⟩, ⟨6, 0⟩]
      [.leaf [⟨1, 0⟩, ⟨2, 0⟩] (some [JSV.num 1, JSV.num 2]) false,
       .leaf [⟨3, 0⟩, ⟨4, 0⟩, ⟨5, 0⟩, ⟨6, 0⟩]
         (some [JSV.num 3, JSV.num 4, JSV.num 5, JSV.num 6]) false]
      (.leaf [⟨3, 0⟩, ⟨4, 0⟩, ⟨5, 0⟩, ⟨6, 0⟩]
         (some [JSV.num 3, JSV.num 4, JSV.num 5, JSV.num 6]) false)
      1 ⟨7, 0⟩ 4 (by decide)).1).trans rfl
  · exact ((C8_shift_guard [⟨2, 0⟩, ⟨6, 0⟩]
      [.leaf [⟨1, 0⟩, ⟨2, 0⟩] (some [JSV.num 1, JSV.num 2]) false,
       .leaf [⟨3, 0⟩, ⟨4, 0⟩, ⟨5, 0⟩, ⟨6, 0⟩]
         (some [JSV.num 3, JSV.num 4, JSV.num 5, JSV.num 6]) false]
      (.leaf [⟨3, 0⟩, ⟨4, 0⟩, ⟨5, 0⟩, ⟨6, 0⟩]
         (some [JSV.num 3, JSV.num 4, JSV.num 5, JSV.num 6]) false)
      1 ⟨0, 0⟩ 4 (by decide)).1).trans rfl
  · exact (C8_shift_guard [⟨2, 0⟩, ⟨6, 0⟩]
      [.leaf [⟨1, 0⟩, ⟨2, 0⟩] (some [JSV.num 1, JSV.num 2]) false,
       .leaf [⟨3, 0⟩, ⟨4, 0⟩, ⟨5, 0⟩, ⟨6, 0⟩]
         (some [JSV.num 3, JSV.num 4, JSV.num 5, JSV.num 6]) false]
      (.leaf [⟨3, 0⟩, ⟨4, 0⟩, ⟨5, 0⟩, ⟨6, 0⟩]
         (some [JSV.num 3, JSV.num 4, JSV.num 5, JSV.num 6]) false)
      1 ⟨7, 0⟩ 4 (by decide)).2.1 [⟨1, 0⟩, ⟨2, 0⟩] (some [JSV.num 1, JSV.num 2])
      false ⟨3, 0⟩ [⟨4, 0⟩, ⟨5, 0⟩, ⟨6, 0⟩]
      (some [JSV.num 3, JSV.num 4, JSV.num 5, JSV.num 6]) false
theorem insertInLeaf_keys (ks : List Key) (vs : Option (List JSV)) (i : Nat)
    (key : Key) (value : JSV) :
    (insertInLeaf ks vs i key value).1 = ks.insertIdx i key := by
  unfold insertInLeaf
  cases vs with
  | none =>
    by_cases h : value = JSV.undef <;> simp [h]
  | some l => rfl

/-- C7: (1) `splitOffRightSide` on a leaf of length `L` keeps the low
`⌊L/2⌋` keys in place and hands the high `⌈L/2⌉` keys to a fresh right
sibling; (2) an insertion reaching a full leaf takes the split path,
producing exactly those two halves with the new key spliced into one of
them; (3) the parent (`BNodeInternal.set`) inserts the returned right
sibling at index `i + 1`, `i` being the index of the child that split,
whenever this node still has room. -/
theorem C7_split :
    (∀ ks : List Key, ∀ vs : Option (List JSV),
      (splitOffRightSide ks vs).1.1 = ks.take (ks.length / 2) ∧
      (splitOffRightSide ks vs).2.1 = ks.drop (ks.length / 2) ∧
      (splitOffRightSide ks vs).1.1.length = ks.length / 2 ∧
      (splitOffRightSide ks vs).2.1.length = (ks.length + 1) / 2) ∧
    (∀ ks vs s key value ow max, indexOfM ks key < 0 → max ≤ ks.length →
      ∃ n' sib j, setLeaf ks vs s key value ow max = (n', .split sib, true) ∧
        ((n'.getKeys = ks.take (ks.length / 2) ∧
          sib.getKeys = (ks.drop (ks.length / 2)).insertIdx j key) ∨
         (n'.getKeys = (ks.take (ks.length / 2)).insertIdx j key ∧
          sib.getKeys = ks.drop (ks.length / 2)))) ∧
    (∀ (rec : BNode → BNode × SetRes × Bool) ks cs s key max child' sib inc
        i child1 ks2 cs2 child2,
      i = min (indexOf0 ks key) (cs.length - 1) →
      child1 = (if (cs.getD i dfltNode).isNodeShared then
        cloneNode (cs.getD i dfltNode) else cs.getD i dfltNode) →
      (ks2, cs2, child2) = shiftStep ks (cs.set i child1) child1 i key max →
      rec child2 = (child', .split sib, inc) →
      (ks2.set i child'.maxKeyD).length < max →
      setInternal rec ks cs s key max =
        (.internal ((ks2.set i child'.maxKeyD).insertIdx (i + 1) sib.maxKeyD)
           ((cs2.set i child').insertIdx (i + 1) sib) s, .done true, inc)) := by
  refine ⟨?_, ?_, ?_⟩
  · intro ks vs
    refine ⟨rfl, rfl, ?_, ?_⟩
    · simp [splitOffRightSide]
      omega
    · simp [splitOffRightSide]
      omega
  · intro ks vs s key value ow max hmiss hfull
    simp only [setLeaf, splitOffRightSide]
    rw [if_pos hmiss, if_neg (by omega)]
    by_cases hj : (-(indexOfM ks key) - 1).toNat > (ks.take (ks.length / 2)).length
    · rw [if_pos hj]
      refine ⟨_, _, (-(indexOfM ks key) - 1).toNat - (ks.take (ks.length / 2)).length,
        rfl, Or.inl ⟨rfl, ?_⟩⟩
      simp [BNode.getKeys, insertInLeaf_keys]
    · rw [if_neg hj]
      refine ⟨_, _, (-(indexOfM ks key) - 1).toNat, rfl, Or.inr ⟨?_, rfl⟩⟩
      simp [BNode.getKeys, insertInLeaf_keys]
  · intro rec ks cs s key max child' sib inc i child1 ks2 cs2 child2
    intro hi hc1 hsh hrec hlen
    subst hi hc1
    simp only [setInternal]
    rw [← hsh, hrec]
    simp only [insertN]
    rw [if_pos hlen]

/-- C7 witness: a full leaf `[1,2,3,4]` (fanout 4) receiving key 5 splits
into `[1,2]` and `[3,4,5]`; a parent with room receiving the split sibling
of its child at index 1 splices it in at index 2. -/
theorem C7_split_witness :
    (∃ n' sib j,
      setLeaf [⟨1, 0⟩, ⟨2, 0⟩, ⟨3, 0⟩, ⟨4, 0⟩]
          (some [JSV.num 1, JSV.num 2, JSV.num 3, JSV.num 4]) false
          ⟨5, 0⟩ (JSV.num 5) none 4 = (n', .split sib, true) ∧
        ((n'.getKeys = ([⟨1, 0⟩, ⟨2, 0⟩, ⟨3, 0⟩, ⟨4, 0⟩] : List Key).take
            (([⟨1, 0⟩, ⟨2, 0⟩, ⟨3, 0⟩, ⟨4, 0⟩] : List Key).length / 2) ∧
          sib.getKeys = (([⟨1, 0⟩, ⟨2, 0⟩, ⟨3, 0⟩, ⟨4, 0⟩] : List Key).drop
            (([⟨1, 0⟩, ⟨2, 0⟩, ⟨3, 0⟩, ⟨4, 0⟩] : List Key).length / 2)).insertIdx j ⟨5, 0⟩) ∨
         (n'.getKeys = (([⟨1, 0⟩, ⟨2, 0⟩, ⟨3, 0⟩, ⟨4, 0⟩] : List Key).take
            (([⟨1, 0⟩, ⟨2, 0⟩, ⟨3, 0⟩, ⟨4, 0⟩] : List Key).length / 2)).insertIdx j ⟨5, 0⟩ ∧
          sib.getKeys = ([⟨1, 0⟩, ⟨2, 0⟩, ⟨3, 0⟩, ⟨4, 0⟩] : List Key).drop
            (([⟨1, 0⟩, ⟨2, 0⟩, ⟨3, 0⟩, ⟨4, 0⟩] : List Key).length / 2)))) ∧
    setInternal (fun c => setNode 1 c ⟨9, 0⟩ (JSV.num 9) none 4)
      [⟨4, 0⟩, ⟨8, 0⟩]
      [.leaf [⟨1, 0⟩, ⟨2, 0⟩, ⟨3, 0⟩, ⟨4, 0⟩]
         (some [JSV.num 1, JSV.num 2, JSV.num 3, JSV.num 4]) false,
       .leaf [⟨5, 0⟩, ⟨6, 0⟩, ⟨7, 0⟩, ⟨8, 0⟩]
         (some [JSV.num 5, JSV.num 6, JSV.num 7, JSV.num 8]) false]
      false ⟨9, 0⟩ 4 =
      (.internal [⟨4, 0⟩, ⟨6, 0⟩, ⟨9, 0⟩]
        [.leaf [⟨1, 0⟩, ⟨2, 0⟩, ⟨3, 0⟩, ⟨4, 0⟩]
           (some [JSV.num 1, JSV.num 2, JSV.num 3, JSV.num 4]) false,
         .leaf [⟨5, 0⟩, ⟨6, 0⟩] (some [JSV.num 5, JSV.num 6]) false,
         .leaf [⟨7, 0⟩, ⟨8, 0⟩, ⟨9, 0⟩] (some [JSV.num 7, JSV.num 8, JSV.num 9]) false]
        false, .done true, true) := by
  constructor
  · exact C7_split.2.1 [⟨1, 0⟩, ⟨2, 0⟩, ⟨3, 0⟩, ⟨4, 0⟩]
      (some [JSV.num 1, JSV.num 2, JSV.num 3, JSV.num 4]) false
      ⟨5, 0⟩ (JSV.num 5) none 4 (by decide) (by decide)
  · have h := C7_split.2.2 (fun c => setNode 1 c ⟨9, 0⟩ (JSV.num 9) none 4)
      [⟨4, 0⟩, ⟨8, 0⟩]
      [.leaf [⟨1, 0⟩, ⟨2, 0⟩, ⟨3, 0⟩, ⟨4, 0⟩]
         (some [JSV.num 1, JSV.num 2, JSV.num 3, JSV.num 4]) false,
       .leaf [⟨5, 0⟩, ⟨6, 0⟩, ⟨7, 0⟩, ⟨8, 0⟩]
         (some [JSV.num 5, JSV.num 6, JSV.num 7, JSV.num 8]) false]
      false ⟨9, 0⟩ 4
      (.leaf [⟨5, 0⟩, ⟨6, 0⟩] (some [JSV.num 5, JSV.num 6]) false)
      (.leaf [⟨7, 0⟩, ⟨8, 0⟩, ⟨9, 0⟩] (some [JSV.num 7, JSV.num 8, JSV.num 9]) false)
      true 1
      (.leaf [⟨5, 0⟩, ⟨6, 0⟩, ⟨7, 0⟩, ⟨8, 0⟩]
         (some [JSV.num 5, JSV.num 6, JSV.num 7, JSV.num 8]) false)
      [⟨4, 0⟩, ⟨8, 0⟩]
      [.leaf [⟨1, 0⟩, ⟨2, 0⟩, ⟨3, 0⟩, ⟨4, 0⟩]
         (some [JSV.num 1, JSV.num 2, JSV.num 3, JSV.num 4]) false,
       .leaf [⟨5, 0⟩, ⟨6, 0⟩, ⟨7, 0⟩, ⟨8, 0⟩]
         (some [JSV.num 5, JSV.num 6, JSV.num 7, JSV.num 8]) false]
      (.leaf [⟨5, 0⟩, ⟨6, 0⟩, ⟨7, 0⟩, ⟨8, 0⟩]
         (some [JSV.num 5, JSV.num 6, JSV.num 7, JSV.num 8]) false)
      rfl rfl rfl rfl (by decide)
    exact h

/-! ## C5: unorderable keys (`indexOf`, lines 1377-1404)

Keys are JavaScript numbers here: `none` models NaN.  A numeric comparator
in the style the spec calls "a default numeric order" (`(a, b) => a - b`)
returns NaN (`none`) whenever an operand is NaN. -/

/-- A JavaScript number key: `none` is NaN. -/
abbrev JNum := Option Int

/-- The plain numeric comparator `(a, b) => a - b`: NaN-poisoned. -/
def cmpNum : JNum → JNum → Option Int
  | some a, some b => some (a - b)
  | _, _ => none

/-- `a[i] = x` on a JavaScript array: writing at index `length` appends
(indexes beyond `length` do not occur at the modelled call sites). -/
def jsArrSet {α : Type} (l : List α) (i : Nat) (a : α) : List α :=
  if i = l.length then l ++ [a] else l.set i a

/-- The binary-search loop of `indexOf` under a NaN-capable comparator: when
the comparison `c` satisfies none of `c < 0`, `c > 0`, `c === 0` (i.e. it is
NaN), the code returns `keys.length` as-is if the *search key* is not NaN
(`key === key`), and throws `"BTree: NaN was used as a key"` otherwise. -/
def indexOfNaNAux (keys : List JNum) (key : JNum) :
    Nat → Nat → Nat → Except String (Nat ⊕ Nat)
  | 0, lo, _ => .ok (.inr lo)
  | fuel + 1, lo, hi =>
    if lo < hi then
      match cmpNum (keys.getD ((lo + hi) / 2) none) key with
      | some c =>
        if c < 0 then indexOfNaNAux keys key fuel ((lo + hi) / 2 + 1) hi
        else if 0 < c then indexOfNaNAux keys key fuel lo ((lo + hi) / 2)
        else .ok (.inl ((lo + hi) / 2))
      | none =>
        if key ≠ none then .ok (.inl keys.length)
        else .error "BTree: NaN was used as a key"
    else .ok (.inr lo)

/-- `indexOf(key, -1, cmp)` over NaN-capable numbers, with the miss encoded
as `i ^ -1 = -(i+1)`.  Note the NaN fallback `return keys.length` is *not*
xored, so it reads as a match at index `keys.length`. -/
def indexOfNaNM (keys : List JNum) (key : JNum) : Except String Int :=
  match indexOfNaNAux keys key (keys.length + 1) 0 keys.length with
  | .error e => .error e
  | .ok (.inl m) => .ok (m : Int)
  | .ok (.inr m) => .ok (-(m + 1))

/-- `BNode.set` on a leaf over NaN-capable numeric keys (values kept as a
plain materialized array).  The third result component reports whether a new
pair was added (`tree.incSize()`). -/
def setLeafNum (ks : List JNum) (vs : List Int) (key : JNum) (value : Int)
    (ow : Option Bool) (max : Nat) :
    Except String (List JNum × List Int × Bool) :=
  match indexOfNaNM ks key with
  | .error e => .error e
  | .ok i =>
    if i < 0 then
      let j := (-i - 1).toNat
      if ks.length < max then
        .ok (ks.insertIdx j key, vs.insertIdx j value, true)
      else
        let half := ks.length / 2
        if j > half then
          .ok (ks.take half ++ (ks.drop half).insertIdx (j - half) key,
               vs.take half ++ (vs.drop half).insertIdx (j - half) value, true)
        else
          .ok ((ks.take half).insertIdx j key ++ ks.drop half,
               (vs.take half).insertIdx j value ++ vs.drop half, true)
    else
      let j := i.toNat
      if ow ≠ some false then .ok (jsArrSet ks j key, jsArrSet vs j value, false)
      else .ok (ks, vs, false)

/-- C5 counterexample: inserting NaN into an *empty* tree performs no
comparison, so no "unorderable key" error is raised: the pair is silently
inserted (the structure changes and the size grows), refuting the claim
that every operation on an unorderable key aborts without structural
change. -/
theorem C5_counterexample :
    setLeafNum [] [] none 7 none 32 = .ok ([none], [7], true) := by rfl

/-- C5 (amended): the NaN guard fires only when a comparison is actually
performed and the search key itself is NaN: on any *nonempty* leaf, setting
a NaN key aborts with "BTree: NaN was used as a key" before any structural
change; but on an empty leaf the NaN key is silently inserted, and when the
comparator returns NaN against a non-NaN search key (e.g. the probed slot
holds NaN), `indexOf` returns `keys.length`, which the set path treats as
an existing-key match: the pair is silently written at the end of the leaf
and the call reports no addition. -/
theorem C5_unorderable_key (ks : List JNum) (vs : List Int) (value : Int)
    (ow : Option Bool) (max : Nat) :
    (ks ≠ [] → setLeafNum ks vs none value ow max =
      .error "BTree: NaN was used as a key") ∧
    (∀ key : JNum, ks ≠ [] → key ≠ none → ks.getD (ks.length / 2) none = none →
      ow ≠ some false →
      setLeafNum ks vs key value ow max =
        .ok (ks ++ [key], jsArrSet vs ks.length value, false)) := by
  constructor
  · intro hne
    have hlen : 0 < ks.length := List.length_pos.mpr hne
    unfold setLeafNum indexOfNaNM indexOfNaNAux
    rw [if_pos (by omega : 0 < ks.length)]
    have : cmpNum (ks.getD ((0 + ks.length) / 2) none) none = none := by
      unfold cmpNum
      cases ks.getD ((0 + ks.length) / 2) none <;> rfl
    rw [this]
    simp
  · intro key hne hkey hmid how
    have hlen : 0 < ks.length := List.length_pos.mpr hne
    have hcmp : cmpNum (ks.getD ((0 + ks.length) / 2) none) key = none := by
      rw [Nat.zero_add, hmid]
      cases key <;> rfl
    have h1 : ¬ ((ks.length : Int) < 0) := by omega
    simp only [setLeafNum, indexOfNaNM, indexOfNaNAux, if_pos hlen, hcmp, if_pos hkey,
      if_neg h1, if_pos how]
    simp [jsArrSet]

/-- C5 witness: the amended behavior on the leaf `[1]` with a NaN key, and
on the leaf `[NaN]` with the ordinary key 5. -/
theorem C5_unorderable_key_witness :
    setLeafNum [some 1] [1] none 7 none 32 = .error "BTree: NaN was used as a key" ∧
    setLeafNum [none] [7] (some 5) 5 none 32 = .ok ([none, some 5], [7, 5], false) := by
  constructor
  · exact (C5_unorderable_key [some 1] [1] 7 none 32).1 (by decide)
  · exact (C5_unorderable_key [none] [7] 5 none 32).2 (some 5) (by decide) (by decide)
      (by decide) (by decide)

/-! ## Structural facts about contents and well-formedness -/

theorem toListL_cons (c : BNode) (cs : List BNode) :
    toListL (c :: cs) = c.toList ++ toListL cs := by
  rw [toListL]

theorem toList_leaf (ks : List Key) (vs : Option (List JSV)) (s : Bool) :
    (BNode.leaf ks vs s).toList = ks.zip (valsList vs ks.length) := by
  rw [BNode.toList]

theorem toList_internal (ks : List Key) (cs : List BNode) (s : Bool) :
    (BNode.internal ks cs s).toList = toListL cs := by
  rw [BNode.toList]

theorem sortsOf_append (a b : List (Key × JSV)) :
    sortsOf (a ++ b) = sortsOf a ++ sortsOf b := by
  simp [sortsOf]

theorem wfB_leaf_iff (max : Nat) (ks : List Key) (vs : Option (List JSV)) (s : Bool) :
    wfB max (.leaf ks vs s) = true ↔
      sortedB (ks.map Key.sort) = true ∧ ks.length ≤ max ∧
      (∀ l, vs = some l → ks.length ≤ l.length) := by
  rw [wfB.eq_def]
  cases vs with
  | none => simp
  | some l =>
    simp only [Bool.and_eq_true, decide_eq_true_eq]
    constructor
    · rintro ⟨⟨h1, h2⟩, h3⟩
      exact ⟨h1, h2, fun l' hl => by cases hl; exact h3⟩
    · rintro ⟨h1, h2, h3⟩
      exact ⟨⟨h1, h2⟩, h3 l rfl⟩

theorem wfB_internal_iff (max : Nat) (ks : List Key) (cs : List BNode) (s : Bool) :
    wfB max (.internal ks cs s) = true ↔
      cs ≠ [] ∧ ks.length = cs.length ∧ cs.length ≤ max ∧
      cacheOkL ks cs = true ∧ wfL max cs = true ∧
      sortedB (sortsOf (toListL cs)) = true := by
  rw [wfB.eq_def]
  simp only [Bool.and_eq_true, Bool.not_eq_true', List.isEmpty_eq_false,
    decide_eq_true_eq]
  tauto

theorem wfL_iff (max : Nat) (cs : List BNode) :
    wfL max cs = true ↔ ∀ c ∈ cs, wfB max c = true := by
  induction cs with
  | nil => rw [wfL.eq_def]; simp
  | cons c rest ih =>
    rw [wfL.eq_def]
    simp [Bool.and_eq_true, ih]

theorem cacheOkL_iff (ks : List Key) (cs : List BNode) :
    cacheOkL ks cs = true ↔ ks.length = cs.length ∧
      ∀ j, j < cs.length → (cs.getD j dfltNode).getKeys ≠ [] ∧
        (ks.getD j dfltKey).sort = (BNode.maxKeyD (cs.getD j dfltNode)).sort := by
  induction ks generalizing cs with
  | nil =>
    cases cs with
    | nil => rw [cacheOkL.eq_def]; simp
    | cons c rest => rw [cacheOkL.eq_def]; simp
  | cons k ks ih =>
    cases cs with
    | nil => rw [cacheOkL.eq_def]; simp
    | cons c rest =>
      rw [cacheOkL.eq_def]
      simp only [Bool.and_eq_true, Bool.not_eq_true', List.isEmpty_eq_false,
        decide_eq_true_eq, ih, List.length_cons]
      constructor
      · rintro ⟨⟨h1, h2⟩, h3, h4⟩
        refine ⟨by omega, ?_⟩
        intro j hj
        cases j with
        | zero => exact ⟨h1, h2⟩
        | succ j' => simpa using h4 j' (by omega)
      · rintro ⟨h1, h2⟩
        have h0 := h2 0 (by omega)
        simp only [List.getD_cons_zero] at h0
        refine ⟨⟨h0.1, h0.2⟩, by omega, ?_⟩
        intro j hj
        simpa using h2 (j + 1) (by omega)

theorem heightL_ge (c : BNode) (cs : List BNode) (h : c ∈ cs) : c.height ≤ heightL cs := by
  induction cs with
  | nil => cases h
  | cons a rest ih =>
    rw [heightL]
    rcases List.mem_cons.mp h with rfl | h2
    · exact le_max_left _ _
    · exact le_trans (ih h2) (le_max_right _ _)

theorem height_child_lt (c : BNode) (ks : List Key) (cs : List BNode) (s : Bool)
    (h : c ∈ cs) : c.height < (BNode.internal ks cs s).height := by
  rw [BNode.height]
  have := heightL_ge c cs h
  omega

theorem getD_mem (l : List BNode) (j : Nat) (hj : j < l.length) :
    l.getD j dfltNode ∈ l := by
  rw [List.getD_eq_getElem _ _ hj]
  simp

theorem valsList_length (ks : List Key) (vs : Option (List JSV))
    (h : ∀ l, vs = some l → ks.length ≤ l.length) :
    ks.length ≤ (valsList vs ks.length).length := by
  cases vs with
  | none => simp [valsList]
  | some l => simpa [valsList] using h l rfl

theorem sortsOf_toList_leaf (ks : List Key) (vs : Option (List JSV)) (s : Bool)
    (h : ∀ l, vs = some l → ks.length ≤ l.length) :
    sortsOf (BNode.leaf ks vs s).toList = ks.map Key.sort := by
  rw [toList_leaf, sortsOf]
  have hlen := valsList_length ks vs h
  calc List.map (fun p => p.1.sort) (ks.zip (valsList vs ks.length))
      = List.map Key.sort (List.map Prod.fst (ks.zip (valsList vs ks.length))) := by
        rw [List.map_map]; rfl
    _ = ks.map Key.sort := by rw [List.map_fst_zip _ _ hlen]

theorem toList_sorted (n : BNode) (max : Nat) (hwf : wfB max n = true) :
    sortedB (sortsOf n.toList) = true := by
  cases n with
  | leaf ks vs s =>
    rw [sortsOf_toList_leaf ks vs s ((wfB_leaf_iff max ks vs s).mp hwf).2.2]
    exact ((wfB_leaf_iff max ks vs s).mp hwf).1
  | internal ks cs s =>
    rw [toList_internal]
    exact ((wfB_internal_iff max ks cs s).mp hwf).2.2.2.2.2

theorem toList_ne_nil : ∀ (H : Nat) (n : BNode) (max : Nat), n.height < H →
    wfB max n = true → n.getKeys ≠ [] → n.toList ≠ [] := by
  intro H
  induction H with
  | zero => intro n max h; omega
  | succ H ih =>
    intro n max hh hwf hne
    cases n with
    | leaf ks vs s =>
      rw [toList_leaf]
      have hlen := valsList_length ks vs ((wfB_leaf_iff max ks vs s).mp hwf).2.2
      have : (ks.zip (valsList vs ks.length)).length = ks.length := by
        rw [List.length_zip]; omega
      intro hc
      rw [hc] at this
      simp only [BNode.getKeys] at hne
      simp only [List.length_nil] at this
      exact hne (List.length_eq_zero.mp this.symm)
    | internal ks cs s =>
      obtain ⟨hcs, hlen, hmax, hcache, hwl, hsorted⟩ := (wfB_internal_iff max ks cs s).mp hwf
      cases cs with
      | nil => exact absurd rfl hcs
      | cons c rest =>
        rw [toList_internal, toListL_cons]
        have hc := (cacheOkL_iff ks (c :: rest)).mp hcache
        have hck : c.getKeys ≠ [] := by simpa using (hc.2 0 (by simp)).1
        have hcw : wfB max c = true := (wfL_iff max (c :: rest)).mp hwl c (by simp)
        have hch : c.height < H := by
          have := height_child_lt c ks (c :: rest) s (by simp)
          omega
        have := ih c max hch hcw hck
        simp [this]

theorem getLast?_of_ne_nil {α : Type} (l : List α) (h : l ≠ []) :
    ∃ p, l.getLast? = some p := by
  cases hq : l.getLast? with
  | none => exact absurd (List.getLast?_eq_none_iff.mp hq) h
  | some p => exact ⟨p, rfl⟩

theorem maxKeyD_leaf (ks : List Key) (vs : Option (List JSV)) (s : Bool) :
    BNode.maxKeyD (.leaf ks vs s) = ks.getLast?.getD dfltKey := rfl

theorem maxKeyD_internal (ks : List Key) (cs : List BNode) (s : Bool) :
    BNode.maxKeyD (.internal ks cs s) = ks.getLast?.getD dfltKey := rfl

theorem getLast?_toListL (cs : List BNode) (c : BNode) (h : c ∈ cs)
    (hlast : ∀ c' ∈ cs, c'.toList ≠ [])
    (hc : cs.getLast? = some c) :
    (toListL cs).getLast? = c.toList.getLast? := by
  induction cs with
  | nil => cases h
  | cons a rest ih =>
    rw [toListL_cons, List.getLast?_append]
    cases rest with
    | nil =>
      simp only [List.getLast?_singleton] at hc
      cases hc
      simp [toListL]
    | cons b rest2 =>
      have hrec := ih (by
          have : (b :: rest2).getLast? = some c := by
            rw [← hc]; rfl
          exact List.mem_of_mem_getLast? this)
        (fun c' hc' => hlast c' (List.mem_cons_of_mem a hc'))
        (by rw [← hc]; rfl)
      rw [hrec]
      have hne : c.toList ≠ [] := hlast c h
      rcases getLast?_of_ne_nil _ hne with ⟨p, hp⟩
      rw [hp]
      rfl

theorem maxKey_last : ∀ (H : Nat) (n : BNode) (max : Nat), n.height < H →
    wfB max n = true → n.getKeys ≠ [] →
    (sortsOf n.toList).getLast? = some (BNode.maxKeyD n).sort := by
  intro H
  induction H with
  | zero => intro n max h; omega
  | succ H ih =>
    intro n max hh hwf hne
    cases n with
    | leaf ks vs s =>
      rw [sortsOf_toList_leaf ks vs s ((wfB_leaf_iff max ks vs s).mp hwf).2.2]
      rw [List.getLast?_map, maxKeyD_leaf]
      simp only [BNode.getKeys] at hne
      rcases getLast?_of_ne_nil _ hne with ⟨k, hk⟩
      rw [hk]
      rfl
    | internal ks cs s =>
      obtain ⟨hcs, hlen, hmax, hcache, hwl, hsorted⟩ := (wfB_internal_iff max ks cs s).mp hwf
      have hcac := (cacheOkL_iff ks cs).mp hcache
      -- the last child
      have hcslen : 0 < cs.length := List.length_pos.mpr hcs
      set c := cs.getD (cs.length - 1) dfltNode with hcdef
      have hcmem : c ∈ cs := getD_mem cs (cs.length - 1) (by omega)
      have hcwf : wfB max c = true := (wfL_iff max cs).mp hwl c hcmem
      have hck : c.getKeys ≠ [] := (hcac.2 (cs.length - 1) (by omega)).1
      have hch : c.height < H := by
        have := height_child_lt c ks cs s hcmem
        omega
      have hall : ∀ c' ∈ cs, c'.toList ≠ [] := by
        intro c' hc'
        rcases List.getElem_of_mem hc' with ⟨j, hj, rfl⟩
        refine toList_ne_nil H _ max ?_ ((wfL_iff max cs).mp hwl _ hc') ?_
        · have := height_child_lt cs[j] ks cs s hc'
          omega
        · have := (hcac.2 j (by omega)).1
          rwa [List.getD_eq_getElem _ _ hj] at this
      have hlast : cs.getLast? = some c := by
        rw [List.getLast?_eq_getElem?, hcdef, List.getD_eq_getElem _ _ (by omega)]
        exact List.getElem?_eq_getElem (by omega)
      rw [toList_internal]
      rw [show sortsOf (toListL cs) = (toListL cs).map (fun p => p.1.sort) from rfl]
      rw [List.getLast?_map]
      rw [getLast?_toListL cs c hcmem hall hlast]
      have hih := ih c max hch hcwf hck
      have hmap : (sortsOf c.toList).getLast? = (c.toList.getLast?).map (fun p => p.1.sort) := by
        rw [show sortsOf c.toList = c.toList.map (fun p => p.1.sort) from rfl]
        rw [List.getLast?_map]
      rw [hmap] at hih
      rw [hih]
      -- maxKeyD of internal = ks.getLast, whose sort is the cache of the last child
      have hlt : ks.length - 1 < ks.length := by omega
      have hklast : (BNode.maxKeyD (.internal ks cs s)).sort = (BNode.maxKeyD c).sort := by
        rw [maxKeyD_internal]
        have hcch := (hcac.2 (cs.length - 1) (by omega)).2
        have h1 : ks.getLast?.getD dfltKey = ks[ks.length - 1] := by
          rw [List.getLast?_eq_getElem?, List.getElem?_eq_getElem hlt]
          rfl
        have h2 : ks.getD (cs.length - 1) dfltKey = ks[ks.length - 1] := by
          rw [← hlen]
          exact List.getD_eq_getElem _ _ hlt
        rw [h1, ← h2, hcch]
      rw [hklast]

theorem sorted_le_getLast (l : List Int) (m : Int) (hp : l.Pairwise (· < ·))
    (hl : l.getLast? = some m) : ∀ s ∈ l, s ≤ m := by
  intro s hs
  rcases List.getElem_of_mem hs with ⟨j, hj, rfl⟩
  have hn : l.length - 1 < l.length := by omega
  have hlast : l[l.length - 1] = m := by
    rw [List.getLast?_eq_getElem?] at hl
    rw [List.getElem?_eq_getElem (by omega : l.length - 1 < l.length)] at hl
    simpa using hl
  rcases Nat.lt_or_ge j (l.length - 1) with hj2 | hj2
  · have := List.pairwise_iff_getElem.mp hp j (l.length - 1) hj (by omega) hj2
    rw [hlast] at this
    exact le_of_lt this
  · have : j = l.length - 1 := by omega
    subst this
    rw [hlast]

theorem mem_toList_le_max (H : Nat) (n : BNode) (max : Nat) (hh : n.height < H)
    (hwf : wfB max n = true) (hne : n.getKeys ≠ []) :
    ∀ s ∈ sortsOf n.toList, s ≤ (BNode.maxKeyD n).sort := by
  exact sorted_le_getLast _ _ ((sortedB_iff _).mp (toList_sorted n max hwf))
    (maxKey_last H n max hh hwf hne)

theorem maxKey_mem_sorts (H : Nat) (n : BNode) (max : Nat) (hh : n.height < H)
    (hwf : wfB max n = true) (hne : n.getKeys ≠ []) :
    (BNode.maxKeyD n).sort ∈ sortsOf n.toList := by
  have := maxKey_last H n max hh hwf hne
  exact List.mem_of_mem_getLast? (by rw [this]; simp)

theorem toListL_append (a b : List BNode) :
    toListL (a ++ b) = toListL a ++ toListL b := by
  induction a with
  | nil => simp [toListL]
  | cons c rest ih => simp [toListL_cons, ih]

theorem toListL_decompose (cs : List BNode) (j : Nat) (hj : j < cs.length) :
    toListL cs = toListL (cs.take j) ++ (cs.getD j dfltNode).toList ++
      toListL (cs.drop (j + 1)) := by
  conv_lhs => rw [show cs = cs.take j ++ cs.drop j from (List.take_append_drop j cs).symm]
  rw [toListL_append]
  have hdrop : cs.drop j = cs.getD j dfltNode :: cs.drop (j + 1) := by
    rw [List.getD_eq_getElem _ _ hj]
    exact (List.drop_eq_getElem_cons hj)
  rw [hdrop, toListL_cons]
  simp

theorem cross_lt (cs : List BNode) (hp : (sortsOf (toListL cs)).Pairwise (· < ·))
    (j1 j2 : Nat) (h12 : j1 < j2) (hj2 : j2 < cs.length) :
    ∀ s1 ∈ sortsOf (cs.getD j1 dfltNode).toList,
    ∀ s2 ∈ sortsOf (cs.getD j2 dfltNode).toList, s1 < s2 := by
  intro s1 hs1 s2 hs2
  have hd1 := toListL_decompose cs j1 (by omega)
  -- decompose the tail further at j2
  have hdrop : cs.drop (j1 + 1) = (cs.drop (j1 + 1)).take (j2 - j1 - 1) ++
      (cs.getD j2 dfltNode) :: (cs.drop (j2 + 1)) := by
    have h1 : (cs.drop (j1 + 1)).drop (j2 - j1 - 1) = cs.drop j2 := by
      rw [List.drop_drop]
      congr 1
      omega
    conv_lhs => rw [show cs.drop (j1 + 1) = (cs.drop (j1 + 1)).take (j2 - j1 - 1) ++
      (cs.drop (j1 + 1)).drop (j2 - j1 - 1) from (List.take_append_drop _ _).symm]
    rw [h1]
    congr 1
    rw [List.getD_eq_getElem _ _ hj2]
    exact List.drop_eq_getElem_cons hj2
  have hsub : List.Sublist
      (sortsOf (cs.getD j1 dfltNode).toList ++ sortsOf (cs.getD j2 dfltNode).toList)
      (sortsOf (toListL cs)) := by
    rw [hd1, hdrop, toListL_append, toListL_cons]
    rw [sortsOf_append, sortsOf_append, sortsOf_append, sortsOf_append,
      List.append_assoc]
    refine List.Sublist.trans ?_ (List.sublist_append_right
      (sortsOf (toListL (List.take j1 cs))) _)
    refine List.Sublist.append (List.Sublist.refl _) ?_
    refine List.Sublist.trans ?_ (List.sublist_append_right
      (sortsOf (toListL (List.take (j2 - j1 - 1) (List.drop (j1 + 1) cs)))) _)
    exact List.sublist_append_left _ _
  have hpair := List.Pairwise.sublist hsub hp
  rcases List.pairwise_append.mp hpair with ⟨-, -, hcross⟩
  exact hcross s1 hs1 s2 hs2

theorem ks_sorted_of_wf (H : Nat) (max : Nat) (ks : List Key) (cs : List BNode) (s : Bool)
    (hh : (BNode.internal ks cs s).height < H)
    (hwf : wfB max (.internal ks cs s) = true) :
    sortedB (ks.map Key.sort) = true := by
  obtain ⟨hcs, hlen, hmax, hcache, hwl, hsorted⟩ := (wfB_internal_iff max ks cs s).mp hwf
  have hcac := (cacheOkL_iff ks cs).mp hcache
  rw [sortedB_iff]
  rw [List.pairwise_iff_getElem]
  intro a b ha hb hab
  simp only [List.length_map] at ha hb
  have ha2 : a < (List.map Key.sort ks).length := by simpa using ha
  have hb2 : b < (List.map Key.sort ks).length := by simpa using hb
  have hga : (List.map Key.sort ks)[a] = (ks.getD a dfltKey).sort := by
    rw [List.getD_eq_getElem _ _ ha]; simp
  have hgb : (List.map Key.sort ks)[b] = (ks.getD b dfltKey).sort := by
    rw [List.getD_eq_getElem _ _ hb]; simp
  rw [hga, hgb, (hcac.2 a (by omega)).2, (hcac.2 b (by omega)).2]
  -- the two cache entries are the max-keys of distinct children
  have hma : (BNode.maxKeyD (cs.getD a dfltNode)).sort ∈
      sortsOf (cs.getD a dfltNode).toList := by
    refine maxKey_mem_sorts H _ max ?_ ((wfL_iff max cs).mp hwl _ (getD_mem cs a (by omega))) 
      (hcac.2 a (by omega)).1
    have := height_child_lt (cs.getD a dfltNode) ks cs s (getD_mem cs a (by omega))
    omega
  have hmb : (BNode.maxKeyD (cs.getD b dfltNode)).sort ∈
      sortsOf (cs.getD b dfltNode).toList := by
    refine maxKey_mem_sorts H _ max ?_ ((wfL_iff max cs).mp hwl _ (getD_mem cs b (by omega)))
      (hcac.2 b (by omega)).1
    have := height_child_lt (cs.getD b dfltNode) ks cs s (getD_mem cs b (by omega))
    omega
  exact cross_lt cs ((sortedB_iff _).mp hsorted) a b hab (by omega) _ hma _ hmb

theorem ltCount_bounds (keys : List Key) (key : Key)
    (hs : sortedB (keys.map Key.sort) = true) :
    ltCount keys key ≤ keys.length ∧
    (∀ j, j < ltCount keys key → (keys.getD j dfltKey).sort < key.sort) ∧
    (∀ j, ltCount keys key ≤ j → j < keys.length → key.sort ≤ (keys.getD j dfltKey).sort) := by
  have hp := (sortedB_iff _).mp hs
  have hspec := indexOfAux_spec keys key hp (keys.length + 1) 0 keys.length (by omega)
    (by omega) (le_refl _) (by omega) (by omega)
  have htop := indexOfAux_top keys key hs
  revert hspec htop
  cases indexOfAux keys key (keys.length + 1) 0 keys.length with
  | inl m =>
    rintro ⟨hlt, heq⟩ ⟨hm, -, -, -⟩
    subst hm
    refine ⟨by omega, ?_, ?_⟩
    · intro j hj
      rw [← heq]
      exact sorted_getD_lt keys hp hj hlt
    · intro j hj1 hj2
      rw [← heq]
      exact sorted_getD_le keys hp hj1 hj2
  | inr m =>
    rintro ⟨hmlen, hlow, hhigh⟩ ⟨hm, -, -⟩
    subst hm
    exact ⟨hmlen, hlow, fun j hj1 hj2 => le_of_lt (hhigh j hj1 hj2)⟩

theorem mem_sortsOf_toListL (x : Int) (cs : List BNode) :
    x ∈ sortsOf (toListL cs) ↔
      ∃ j, j < cs.length ∧ x ∈ sortsOf (cs.getD j dfltNode).toList := by
  induction cs with
  | nil => simp [toListL, sortsOf]
  | cons c rest ih =>
    rw [toListL_cons, sortsOf_append]
    simp only [List.mem_append, ih]
    constructor
    · rintro (h | ⟨j, hj, hp⟩)
      · exact ⟨0, by simp, by simpa using h⟩
      · exact ⟨j + 1, by simp; omega, by simpa using hp⟩
    · rintro ⟨j, hj, hp⟩
      cases j with
      | zero => exact Or.inl (by simpa using hp)
      | succ j' =>
        right
        exact ⟨j', by simpa using hj, by simpa using hp⟩

theorem child_window (H max : Nat) (ks : List Key) (cs : List BNode) (s : Bool) (key : Key)
    (hh : (BNode.internal ks cs s).height < H)
    (hwf : wfB max (.internal ks cs s) = true) :
    (∀ j, j < min (indexOf0 ks key) (cs.length - 1) →
      ∀ x ∈ sortsOf (cs.getD j dfltNode).toList, x < key.sort) ∧
    (∀ j, min (indexOf0 ks key) (cs.length - 1) < j → j < cs.length →
      ∀ x ∈ sortsOf (cs.getD j dfltNode).toList, key.sort < x) := by
  obtain ⟨hcs, hlen, hmax, hcache, hwl, hsorted⟩ := (wfB_internal_iff max ks cs s).mp hwf
  have hcac := (cacheOkL_iff ks cs).mp hcache
  have hks := ks_sorted_of_wf H max ks cs s hh hwf
  have hbounds := ltCount_bounds ks key hks
  rw [indexOf0_eq ks key hks]
  have hcsne : 0 < cs.length := List.length_pos.mpr hcs
  have hchildfacts : ∀ j, j < cs.length →
      (∀ x ∈ sortsOf (cs.getD j dfltNode).toList,
        x ≤ (BNode.maxKeyD (cs.getD j dfltNode)).sort) ∧
      (BNode.maxKeyD (cs.getD j dfltNode)).sort ∈ sortsOf (cs.getD j dfltNode).toList := by
    intro j hj
    have hmem := getD_mem cs j hj
    have hwfc := (wfL_iff max cs).mp hwl _ hmem
    have hhc : (cs.getD j dfltNode).height < H := by
      have := height_child_lt (cs.getD j dfltNode) ks cs s hmem
      omega
    exact ⟨mem_toList_le_max H _ max hhc hwfc (hcac.2 j hj).1,
      maxKey_mem_sorts H _ max hhc hwfc (hcac.2 j hj).1⟩
  constructor
  · intro j hj x hx
    have hjlt : j < cs.length := by omega
    have h1 := (hchildfacts j hjlt).1 x hx
    have h2 := hbounds.2.1 j (by omega)
    rw [(hcac.2 j hjlt).2] at h2
    omega
  · intro j hij hj x hx
    have himin : min (ltCount ks key) (cs.length - 1) = ltCount ks key := by
      rcases Nat.lt_or_ge (ltCount ks key) (cs.length - 1) with h | h
      · omega
      · -- i = cs.length - 1, but then j cannot exceed it
        have : min (ltCount ks key) (cs.length - 1) = cs.length - 1 := by omega
        rw [this] at hij
        omega
    rw [himin] at hij
    have hj1 : ltCount ks key ≤ j - 1 := by omega
    have hj1len : j - 1 < ks.length := by omega
    have h2 := hbounds.2.2 (j - 1) hj1 hj1len
    rw [(hcac.2 (j - 1) (by omega)).2] at h2
    have hcross := cross_lt cs ((sortedB_iff _).mp hsorted) (j - 1) j (by omega) hj
      _ ((hchildfacts (j - 1) (by omega)).2) x hx
    omega

/-! ## Read-only range scans: `forRange` (lines 1673-1720, 2075-2107) and
`getRange` (lines 1070-1082) -/

/-- `EditRangeResult`: an optional `value` field (which may itself hold
`undefined`), a `delete` flag and an optional `break` payload. -/
structure ERR (R : Type) where
  value : Option JSV
  del : Bool
  br : Option R
deriving Repr

/-- The module-level `Break` object `{break: true}` used by `getRange`. -/
def BreakU : ERR Unit := ⟨none, false, some ()⟩

/-- The visiting loop of a leaf `forRange` in read-only mode, iterating the
selected key/value window in order: each visit calls `onFound` (modelled
with explicit state `S`), and a directive with a `break` field stops the
scan immediately. -/
def roPairs {S R : Type} (f : S → Key → JSV → Nat → S × Option (ERR R)) :
    List (Key × JSV) → Nat → S → S × (Nat ⊕ ERR R)
  | [], count, st => (st, .inl count)
  | (k, v) :: rest, count, st =>
    match f st k v count with
    | (st', none) => roPairs f rest (count + 1) st'
    | (st', some r) =>
      if r.br.isSome then (st', .inr r) else roPairs f rest (count + 1) st'

/-- The `iLow`/`iHigh` window of a leaf `forRange` (lines 1682-1693); the
early `return count` paths are modelled as the empty window `(0, 0)`. -/
def leafRangeWindow (ks : List Key) (low high : Key) (includeHigh : Bool) : Nat × Nat :=
  if high = low then
    if !includeHigh then (0, 0)
    else
      let iLow := indexOfM ks low
      if iLow < 0 then (0, 0) else (iLow.toNat, iLow.toNat + 1)
  else
    let iLow := indexOf0 ks low
    let iHigh0 := indexOfM ks high
    (iLow, if iHigh0 < 0 then (-iHigh0 - 1).toNat
           else if includeHigh then iHigh0.toNat + 1 else iHigh0.toNat)

/-- The loop `for (; i <= iHigh; i++)` of the internal read-only `forRange`,
iterating the selected children window in order; a non-numeric child result
propagates immediately. -/
def roChildren {S R : Type} (recurse : BNode → Nat → S → S × (Nat ⊕ ERR R)) :
    List BNode → Nat → S → S × (Nat ⊕ ERR R)
  | [], count, st => (st, .inl count)
  | c :: rest, count, st =>
    match recurse c count st with
    | (st', .inl cnt') => roChildren recurse rest cnt' st'
    | (st', .inr r) => (st', .inr r)

/-- `BNode.forRange` / `BNodeInternal.forRange` with `editMode = false`. -/
def nodeForRangeRO {S R : Type} (low high : Key) (includeHigh : Bool)
    (f : S → Key → JSV → Nat → S × Option (ERR R)) :
    Nat → BNode → Nat → S → S × (Nat ⊕ ERR R)
  | 0, _, count, st => (st, .inl count)
  | _ + 1, .leaf ks vs _, count, st =>
    let w := leafRangeWindow ks low high includeHigh
    roPairs f (((ks.zip (valsList vs ks.length)).drop w.1).take (w.2 - w.1)) count st
  | fuel + 1, .internal ks cs _, count, st =>
    let iLow := indexOf0 ks low
    let iHigh := min (if high = low then iLow else indexOf0 ks high) (ks.length - 1)
    roChildren (nodeForRangeRO low high includeHigh f fuel)
      ((cs.drop iLow).take (iHigh + 1 - iLow)) count st

/-- The `getRange` visitor: push the pair, and stop once
`results.length > maxLength`. -/
def pushVisitor (maxLength : Nat) :
    List (Key × JSV) → Key → JSV → Nat → List (Key × JSV) × Option (ERR Unit) :=
  fun results k v _ =>
    (results ++ [(k, v)],
     if maxLength < (results ++ [(k, v)]).length then some BreakU else none)

/-- `BTree.getRange(low, high, includeHigh, maxLength)`. -/
def getRangeT (fuel : Nat) (t : TreeS) (low high : Key) (includeHigh : Bool)
    (maxLength : Nat) : List (Key × JSV) :=
  (nodeForRangeRO low high includeHigh (pushVisitor maxLength) fuel t.root 0 []).1

/-- Membership of a sort value in the scanned range. -/
def inRange (low high : Key) (incH : Bool) (s : Int) : Bool :=
  low.sort ≤ s && (s < high.sort || (incH && s = high.sort))

/-- The pairs of a content list that fall inside the range. -/
def rangePairs (l : List (Key × JSV)) (low high : Key) (incH : Bool) :
    List (Key × JSV) :=
  l.filter (fun p => inRange low high incH p.1.sort)

/-- The shape of a `getRange` scan outcome over a window of pairs `rp`:
either everything fit (continue with the count advanced), or the scan broke
right after exceeding `maxLength` elements. -/
def pushSpec (maxLength : Nat) (out : List (Key × JSV) × (Nat ⊕ ERR Unit))
    (st : List (Key × JSV)) (count : Nat) (rp : List (Key × JSV)) : Prop :=
  if rp.length < maxLength + 1 - st.length then
    out = (st ++ rp, .inl (count + rp.length))
  else
    out = (st ++ rp.take (maxLength + 1 - st.length), .inr BreakU)

theorem roPairs_push (maxLength : Nat) :
    ∀ (l : List (Key × JSV)) (count : Nat) (st : List (Key × JSV)),
    st.length ≤ maxLength →
    pushSpec maxLength (roPairs (pushVisitor maxLength) l count st) st count l := by
  intro l
  induction l with
  | nil =>
    intro count st hcap
    unfold pushSpec roPairs
    rw [if_pos (by simp; omega)]
    simp
  | cons p rest ih =>
    intro count st hcap
    obtain ⟨k, v⟩ := p
    have hlen1 : (st ++ [(k, v)]).length = st.length + 1 := by simp
    unfold roPairs
    have hv : pushVisitor maxLength st k v count =
        (st ++ [(k, v)], if maxLength < st.length + 1 then some BreakU else none) := by
      unfold pushVisitor
      rw [hlen1]
    rw [hv]
    rcases Nat.lt_or_ge st.length maxLength with hst | hst
    · rw [if_neg (by omega)]
      dsimp only
      have hrec := ih (count + 1) (st ++ [(k, v)]) (by rw [hlen1]; omega)
      unfold pushSpec at hrec ⊢
      rw [hlen1] at hrec
      simp only [List.length_cons]
      rcases Nat.lt_or_ge rest.length (maxLength + 1 - (st.length + 1)) with h | h
      · rw [if_pos h] at hrec
        rw [if_pos (by omega)]
        rw [hrec]
        have h1 : st ++ [(k, v)] ++ rest = st ++ (k, v) :: rest := by simp
        have h2 : count + 1 + rest.length = count + (rest.length + 1) := by omega
        rw [h1, h2]
      · rw [if_neg (by omega)] at hrec
        rw [if_neg (by omega)]
        rw [hrec]
        have htake : maxLength + 1 - st.length = (maxLength + 1 - (st.length + 1)) + 1 := by
          omega
        rw [htake]
        have h1 : ((k, v) :: rest).take ((maxLength + 1 - (st.length + 1)) + 1) =
            (k, v) :: rest.take (maxLength + 1 - (st.length + 1)) := by
          simp [List.take_succ_cons]
        rw [h1]
        simp
    · rw [if_pos (by omega)]
      dsimp only
      have hbr : (BreakU).br.isSome = true := rfl
      rw [if_pos hbr]
      unfold pushSpec
      simp only [List.length_cons]
      rw [if_neg (by omega)]
      have h1 : maxLength + 1 - st.length = 1 := by omega
      rw [h1]
      simp

theorem roChildren_spec (maxLength : Nat)
    (recurse : BNode → Nat → List (Key × JSV) → List (Key × JSV) × (Nat ⊕ ERR Unit))
    (rpOf : BNode → List (Key × JSV)) :
    ∀ (csw : List BNode),
    (∀ c ∈ csw, ∀ count st, st.length ≤ maxLength →
      pushSpec maxLength (recurse c count st) st count (rpOf c)) →
    ∀ count st, st.length ≤ maxLength →
    pushSpec maxLength (roChildren recurse csw count st) st count
      ((csw.map rpOf).flatten) := by
  intro csw
  induction csw with
  | nil =>
    intro _ count st hcap
    unfold pushSpec roChildren
    rw [if_pos (by simp; omega)]
    simp
  | cons c rest ih =>
    intro hspec count st hcap
    unfold roChildren
    have hc := hspec c (by simp) count st hcap
    unfold pushSpec at hc
    simp only [List.map_cons, List.flatten_cons]
    rcases Nat.lt_or_ge (rpOf c).length (maxLength + 1 - st.length) with h | h
    · rw [if_pos h] at hc
      rw [hc]
      have hrest := ih (fun c' hc' count' st' hcap' =>
        hspec c' (by simp [hc']) count' st' hcap')
        (count + (rpOf c).length) (st ++ rpOf c) (by simp; omega)
      unfold pushSpec at hrest ⊢
      simp only [List.length_append] at hrest
      simp only [List.length_append]
      rcases Nat.lt_or_ge ((rest.map rpOf).flatten).length
          (maxLength + 1 - (st.length + (rpOf c).length)) with h2 | h2
      · rw [if_pos h2] at hrest
        rw [if_pos (by omega), hrest]
        have h1 : st ++ rpOf c ++ (rest.map rpOf).flatten =
            st ++ (rpOf c ++ (rest.map rpOf).flatten) := by simp
        have h3 : count + (rpOf c).length + ((rest.map rpOf).flatten).length =
            count + ((rpOf c).length + ((rest.map rpOf).flatten).length) := by omega
        rw [h1, h3]
      · rw [if_neg (by omega)] at hrest
        rw [if_neg (by omega), hrest]
        have htake : (rpOf c ++ (rest.map rpOf).flatten).take (maxLength + 1 - st.length) =
            rpOf c ++ ((rest.map rpOf).flatten).take
              (maxLength + 1 - st.length - (rpOf c).length) := by
          rw [List.take_append_eq_append_take, List.take_of_length_le (by omega)]
        rw [htake]
        have h4 : maxLength + 1 - st.length - (rpOf c).length =
            maxLength + 1 - (st.length + (rpOf c).length) := by omega
        rw [h4]
        simp
    · rw [if_neg (by omega)] at hc
      rw [hc]
      unfold pushSpec
      simp only [List.length_append]
      rw [if_neg (by omega)]
      have htake : (rpOf c ++ (rest.map rpOf).flatten).take (maxLength + 1 - st.length) =
          (rpOf c).take (maxLength + 1 - st.length) := by
        rw [List.take_append_eq_append_take]
        have h0 : maxLength + 1 - st.length - (rpOf c).length = 0 := by omega
        rw [h0]
        simp
      rw [htake]

/-! ## The leaf window is exactly the in-range slice -/

theorem countP_fst_sort (l : List (Key × JSV)) (pred : Int → Bool) :
    l.countP (fun p => pred p.1.sort) = (sortsOf l).countP pred := by
  rw [sortsOf, List.countP_map]
  rfl

theorem ltCount_eq_sorts (ks : List Key) (key : Key) :
    ltCount ks key = (ks.map Key.sort).countP (fun s => s < key.sort) := by
  rw [ltCount, List.countP_map]
  rfl

theorem sorted_getD_int (xs : List Int) (hp : xs.Pairwise (· < ·)) {i j : Nat}
    (hij : i < j) (hj : j < xs.length) : xs.getD i 0 < xs.getD j 0 := by
  rw [List.getD_eq_getElem _ _ (lt_trans hij hj), List.getD_eq_getElem _ _ hj]
  exact List.pairwise_iff_getElem.mp hp i j (lt_trans hij hj) hj hij

theorem countP_le_eq_lt_add_one (xs : List Int) (x : Int) (hp : xs.Pairwise (· < ·))
    (hmem : x ∈ xs) :
    xs.countP (fun s => decide (s ≤ x)) = xs.countP (fun s => decide (s < x)) + 1 := by
  rcases List.getElem_of_mem hmem with ⟨m, hm, hx⟩
  have hgm : xs.getD m 0 = x := by rw [List.getD_eq_getElem _ _ hm]; exact hx
  have hlt : xs.countP (fun s => decide (s < x)) = m := by
    refine countP_eq_of_split 0 _ xs m (by omega) ?_ ?_
    · intro j hj
      have h := sorted_getD_int xs hp hj hm
      rw [hgm] at h
      show decide (xs.getD j 0 < x) = true
      rw [decide_eq_true_eq]
      exact h
    · intro j hj1 hj2
      show decide (xs.getD j 0 < x) = false
      rw [decide_eq_false_iff_not]
      rcases Nat.eq_or_lt_of_le hj1 with rfl | hj1'
      · rw [hgm]; omega
      · have h := sorted_getD_int xs hp hj1' hj2
        rw [hgm] at h
        omega
  have hle : xs.countP (fun s => decide (s ≤ x)) = m + 1 := by
    refine countP_eq_of_split 0 _ xs (m + 1) (by omega) ?_ ?_
    · intro j hj
      show decide (xs.getD j 0 ≤ x) = true
      rw [decide_eq_true_eq]
      rcases Nat.lt_or_ge j m with hj' | hj'
      · have h := sorted_getD_int xs hp hj' hm
        rw [hgm] at h
        omega
      · have : j = m := by omega
        subst this
        rw [hgm]
    · intro j hj1 hj2
      show decide (xs.getD j 0 ≤ x) = false
      rw [decide_eq_false_iff_not]
      have h := sorted_getD_int xs hp (by omega : m < j) hj2
      rw [hgm] at h
      omega
  omega

theorem sorted_slice_filter (P Q : Int → Bool)
    (hPQ : ∀ x, P x = true → Q x = true)
    (hPd : ∀ x y, x ≤ y → P y = true → P x = true)
    (hQd : ∀ x y, x ≤ y → Q y = true → Q x = true) :
    ∀ (l : List (Key × JSV)), (sortsOf l).Pairwise (· < ·) →
    ((l.drop (l.countP (fun p => P p.1.sort))).take
      (l.countP (fun p => Q p.1.sort) - l.countP (fun p => P p.1.sort))) =
    l.filter (fun p => !P p.1.sort && Q p.1.sort) := by
  intro l
  induction l with
  | nil => simp
  | cons p t ih =>
    intro hs
    have hst : (sortsOf t).Pairwise (· < ·) := by
      rw [sortsOf] at hs ⊢
      simpa using hs.tail
    have hhead : ∀ q ∈ t, p.1.sort < q.1.sort := by
      intro q hq
      rw [sortsOf, List.map_cons] at hs
      exact (List.pairwise_cons.mp hs).1 _ (List.mem_map_of_mem _ hq)
    rcases hP : P p.1.sort with hPf | hPt
    · -- P p = false: no later element satisfies P either
      have hPt0 : t.countP (fun q => P q.1.sort) = 0 := by
        rw [List.countP_eq_zero]
        intro q hq
        rcases h : P q.1.sort with h2 | h2
        · simp
        · exact absurd (hPd _ _ (le_of_lt (hhead q hq)) h) (by rw [hP]; simp)
      have hPc : (p :: t).countP (fun q => P q.1.sort) = 0 := by
        rw [List.countP_cons, hPt0, hP]
        simp
      rcases hQ : Q p.1.sort with hQf | hQt
      · -- Q p = false: nothing qualifies at all
        have hQt0 : t.countP (fun q => Q q.1.sort) = 0 := by
          rw [List.countP_eq_zero]
          intro q hq
          rcases h : Q q.1.sort with h2 | h2
          · simp
          · exact absurd (hQd _ _ (le_of_lt (hhead q hq)) h) (by rw [hQ]; simp)
        have hQc : (p :: t).countP (fun q => Q q.1.sort) = 0 := by
          rw [List.countP_cons, hQt0, hQ]
          simp
        rw [hPc, hQc]
        simp only [Nat.sub_zero, List.drop_zero, List.take_zero]
        symm
        rw [List.filter_eq_nil_iff]
        intro q hq
        rcases List.mem_cons.mp hq with rfl | hq2
        · simp [hQ]
        · have : Q q.1.sort = false := by
            rcases h : Q q.1.sort with h2 | h2
            · rfl
            · exact absurd (hQd _ _ (le_of_lt (hhead q hq2)) h) (by rw [hQ]; simp)
          simp [this]
      · -- P p = false, Q p = true: p is in range
        have hQc : (p :: t).countP (fun q => Q q.1.sort) =
            t.countP (fun q => Q q.1.sort) + 1 := by
          rw [List.countP_cons, hQ]
          simp
        rw [hPc, hQc]
        simp only [Nat.sub_zero, List.drop_zero]
        rw [List.take_succ_cons, List.filter_cons_of_pos (by simp [hP, hQ])]
        congr 1
        have := ih hst
        rw [hPt0] at this
        simpa using this
    · -- P p = true
      have hQp := hPQ _ hP
      have hPc : (p :: t).countP (fun q => P q.1.sort) =
          t.countP (fun q => P q.1.sort) + 1 := by
        rw [List.countP_cons, hP]
        simp
      have hQc : (p :: t).countP (fun q => Q q.1.sort) =
          t.countP (fun q => Q q.1.sort) + 1 := by
        rw [List.countP_cons, hQp]
        simp
      rw [hPc, hQc, List.filter_cons_of_neg (by simp [hP])]
      simp only [List.drop_succ_cons]
      have harith : t.countP (fun q => Q q.1.sort) + 1 - (t.countP (fun q => P q.1.sort) + 1) =
          t.countP (fun q => Q q.1.sort) - t.countP (fun q => P q.1.sort) := by omega
      rw [harith]
      exact ih hst

theorem filter_of_all_false {α : Type} (p : α → Bool) (l : List α)
    (h : ∀ a ∈ l, p a = false) : l.filter p = [] := by
  rw [List.filter_eq_nil_iff]
  intro a ha
  simp [h a ha]


theorem leaf_window_filter (max : Nat) (ks : List Key) (vs : Option (List JSV)) (sh : Bool)
    (low high : Key) (incH : Bool)
    (hwf : wfB max (.leaf ks vs sh) = true) :
    (((ks.zip (valsList vs ks.length)).drop (leafRangeWindow ks low high incH).1).take
      ((leafRangeWindow ks low high incH).2 - (leafRangeWindow ks low high incH).1)) =
    rangePairs (BNode.leaf ks vs sh).toList low high incH := by
  obtain ⟨hss, hmaxlen, hvs⟩ := (wfB_leaf_iff max ks vs sh).mp hwf
  have hsz : sortsOf (ks.zip (valsList vs ks.length)) = ks.map Key.sort := by
    have hz : sortsOf (BNode.leaf ks vs sh).toList = ks.map Key.sort :=
      sortsOf_toList_leaf ks vs sh hvs
    rw [toList_leaf] at hz
    exact hz
  have hzp : (sortsOf (ks.zip (valsList vs ks.length))).Pairwise (· < ·) := by
    rw [hsz]
    exact (sortedB_iff _).mp hss
  have hc : ∀ pred : Int → Bool,
      (ks.zip (valsList vs ks.length)).countP (fun p => pred p.1.sort) =
        (ks.map Key.sort).countP pred := by
    intro pred
    rw [countP_fst_sort, hsz]
  have eLow : (ks.zip (valsList vs ks.length)).countP
      (fun p => decide (p.1.sort < low.sort)) = ltCount ks low :=
    (hc (fun x => decide (x < low.sort))).trans (ltCount_eq_sorts ks low).symm
  have eHighLt : (ks.zip (valsList vs ks.length)).countP
      (fun p => decide (p.1.sort < high.sort)) = ltCount ks high :=
    (hc (fun x => decide (x < high.sort))).trans (ltCount_eq_sorts ks high).symm
  have eHighLe : high.sort ∈ ks.map Key.sort →
      (ks.zip (valsList vs ks.length)).countP
        (fun p => decide (p.1.sort ≤ high.sort)) = ltCount ks high + 1 := by
    intro hmem
    refine (hc (fun x => decide (x ≤ high.sort))).trans ?_
    rw [countP_le_eq_lt_add_one _ _ ((sortedB_iff _).mp hss) hmem, ← ltCount_eq_sorts]
  rw [rangePairs, toList_leaf]
  by_cases hhl : high = low
  · subst hhl
    unfold leafRangeWindow
    rw [if_pos rfl]
    by_cases hinc : incH
    · rw [if_neg (by simp [hinc])]
      by_cases hmiss : indexOfM ks high < 0
      · rw [if_pos hmiss]
        dsimp only
        simp only [List.drop_zero, Nat.sub_zero, List.take_zero]
        symm
        refine filter_of_all_false _ _ ?_
        intro p hp
        have hpm : p.1.sort ∈ ks.map Key.sort := by
          rw [← hsz]
          exact List.mem_map_of_mem _ hp
        have hnk := (indexOfM_neg_iff ks high hss).mp hmiss
        have hne : p.1.sort ≠ high.sort := fun h => hnk (h ▸ hpm)
        unfold inRange
        rw [Bool.eq_false_iff]
        simp only [ne_eq, Bool.and_eq_true, Bool.or_eq_true, decide_eq_true_eq, not_and,
          not_or]
        intro hle
        constructor
        · omega
        · intro _
          exact hne
      · rw [if_neg hmiss]
        have hmem : high.sort ∈ ks.map Key.sort := by
          by_contra hnk
          exact hmiss (by
            have h := (indexOfM_miss ks high hss hnk).1
            rw [h]; omega)
        have hfound := indexOfM_found ks high hss hmem
        rw [hfound.1]
        have htn : ((ltCount ks high : Int)).toNat = ltCount ks high := by omega
        rw [htn]
        dsimp only
        have hgen :
            (((ks.zip (valsList vs ks.length)).drop
                ((ks.zip (valsList vs ks.length)).countP
                  (fun p => decide (p.1.sort < high.sort)))).take
              ((ks.zip (valsList vs ks.length)).countP
                  (fun p => decide (p.1.sort ≤ high.sort)) -
                (ks.zip (valsList vs ks.length)).countP
                  (fun p => decide (p.1.sort < high.sort)))) =
            (ks.zip (valsList vs ks.length)).filter
              (fun p => !decide (p.1.sort < high.sort) && decide (p.1.sort ≤ high.sort)) :=
          sorted_slice_filter (fun x => decide (x < high.sort))
            (fun x => decide (x ≤ high.sort))
            (fun x h => by simp at h ⊢; omega)
            (fun x y hxy h => by simp at h ⊢; omega)
            (fun x y hxy h => by simp at h ⊢; omega)
            (ks.zip (valsList vs ks.length)) hzp
        rw [eHighLt, eHighLe hmem] at hgen
        rw [hgen]
        refine List.filter_congr ?_
        intro p hp
        unfold inRange
        rw [Bool.eq_iff_iff]
        simp only [Bool.and_eq_true, Bool.or_eq_true, decide_eq_true_eq,
          Bool.not_eq_true', decide_eq_false_iff_not, hinc]
        constructor
        · rintro ⟨h1, h2⟩
          refine ⟨by omega, ?_⟩
          rcases Int.lt_or_le p.1.sort high.sort with h3 | h3
          · left; exact h3
          · right; exact ⟨by simp, by omega⟩
        · rintro ⟨h1, h2⟩
          rcases h2 with h2 | ⟨-, h2⟩ <;> constructor <;> omega
    · rw [if_pos (by simp [hinc])]
      dsimp only
      simp only [List.drop_zero, Nat.sub_zero, List.take_zero]
      symm
      refine filter_of_all_false _ _ ?_
      intro p hp
      unfold inRange
      rw [Bool.eq_false_iff]
      simp only [ne_eq, Bool.and_eq_true, Bool.or_eq_true, decide_eq_true_eq, not_and,
        not_or]
      intro hle
      constructor
      · omega
      · simp [hinc]
  · unfold leafRangeWindow
    rw [if_neg hhl]
    dsimp only
    rcases Int.lt_or_le high.sort low.sort with hcmp | hcmp
    · -- degenerate range: both sides empty
      have hrhs : List.filter (fun p => inRange low high incH p.1.sort)
          (ks.zip (valsList vs ks.length)) = [] := by
        refine filter_of_all_false _ _ ?_
        intro p hp
        unfold inRange
        rw [Bool.eq_false_iff]
        simp only [ne_eq, Bool.and_eq_true, Bool.or_eq_true, decide_eq_true_eq, not_and,
          not_or]
        intro hle
        constructor
        · omega
        · intro _
          omega
      rw [hrhs]
      rw [indexOf0_eq ks low hss]
      have hbl := ltCount_bounds ks low hss
      have hwin : ∀ ih2 : Nat, ih2 ≤ ltCount ks low →
          ((ks.zip (valsList vs ks.length)).drop (ltCount ks low)).take
            (ih2 - ltCount ks low) = [] := by
        intro ih2 hih
        have h0 : ih2 - ltCount ks low = 0 := by omega
        rw [h0, List.take_zero]
      by_cases hmiss : indexOfM ks high < 0
      · rw [if_pos hmiss]
        by_cases hmem : high.sort ∈ ks.map Key.sort
        · exact absurd (indexOfM_found ks high hss hmem).1 (by intro h; rw [h] at hmiss; omega)
        · have hm := (indexOfM_miss ks high hss hmem).1
          rw [hm]
          have htn : (-(-((ltCount ks high : Int) + 1)) - 1).toNat = ltCount ks high := by
            omega
          rw [htn]
          refine hwin _ ?_
          rw [ltCount_eq_sorts, ltCount_eq_sorts]
          refine List.countP_mono_left ?_
          intro x hx h
          simp at h ⊢
          omega
      · rw [if_neg hmiss]
        have hmem : high.sort ∈ ks.map Key.sort := by
          by_contra hnk
          exact hmiss (by rw [(indexOfM_miss ks high hss hnk).1]; omega)
        have hfound := indexOfM_found ks high hss hmem
        rw [hfound.1]
        have htn : ((ltCount ks high : Int)).toNat = ltCount ks high := by omega
        rw [htn]
        have hlthi : ltCount ks high < ltCount ks low := by
          by_contra hcon
          push_neg at hcon
          have h := hbl.2.2 (ltCount ks high) hcon hfound.2.1
          rw [hfound.2.2] at h
          omega
        by_cases hinc : incH
        · rw [if_pos hinc]
          exact hwin _ (by omega)
        · rw [if_neg hinc]
          exact hwin _ (by omega)
    · -- genuine range
      have hgen :
          (((ks.zip (valsList vs ks.length)).drop
              ((ks.zip (valsList vs ks.length)).countP
                (fun p => decide (p.1.sort < low.sort)))).take
            ((ks.zip (valsList vs ks.length)).countP
                (fun p => decide (p.1.sort < high.sort) ||
                  (incH && decide (p.1.sort = high.sort))) -
              (ks.zip (valsList vs ks.length)).countP
                (fun p => decide (p.1.sort < low.sort)))) =
          (ks.zip (valsList vs ks.length)).filter
            (fun p => !decide (p.1.sort < low.sort) &&
              (decide (p.1.sort < high.sort) || (incH && decide (p.1.sort = high.sort)))) :=
        sorted_slice_filter (fun x => decide (x < low.sort))
          (fun x => decide (x < high.sort) || (incH && decide (x = high.sort)))
          (fun x h => by
            simp only [decide_eq_true_eq] at h
            simp only [Bool.or_eq_true, decide_eq_true_eq]
            left; omega)
          (fun x y hxy h => by simp at h ⊢; omega)
          (fun x y hxy h => by
            simp only [Bool.or_eq_true, Bool.and_eq_true, decide_eq_true_eq] at h ⊢
            rcases h with h | ⟨h1, h2⟩
            · left; omega
            · rcases Int.lt_or_le x high.sort with h3 | h3
              · left; exact h3
              · right; exact ⟨h1, by omega⟩)
          (ks.zip (valsList vs ks.length)) hzp
      rw [eLow] at hgen
      have hfilter : (ks.zip (valsList vs ks.length)).filter
          (fun p => !decide (p.1.sort < low.sort) &&
            (decide (p.1.sort < high.sort) || (incH && decide (p.1.sort = high.sort)))) =
          (ks.zip (valsList vs ks.length)).filter
            (fun p => inRange low high incH p.1.sort) := by
        refine List.filter_congr ?_
        intro p hp
        unfold inRange
        rw [Bool.eq_iff_iff]
        simp only [Bool.and_eq_true, Bool.or_eq_true, decide_eq_true_eq,
          Bool.not_eq_true', decide_eq_false_iff_not]
        constructor
        · rintro ⟨h1, h2⟩
          exact ⟨by omega, h2⟩
        · rintro ⟨h1, h2⟩
          exact ⟨by omega, h2⟩
      rw [hfilter] at hgen
      rw [indexOf0_eq ks low hss]
      by_cases hmiss : indexOfM ks high < 0
      · rw [if_pos hmiss]
        by_cases hmem : high.sort ∈ ks.map Key.sort
        · exact absurd (indexOfM_found ks high hss hmem).1 (by intro h; rw [h] at hmiss; omega)
        · have hm := (indexOfM_miss ks high hss hmem).1
          rw [hm]
          have htn : (-(-((ltCount ks high : Int) + 1)) - 1).toNat = ltCount ks high := by
            omega
          rw [htn]
          have eQ : (ks.zip (valsList vs ks.length)).countP
              (fun p => decide (p.1.sort < high.sort) ||
                (incH && decide (p.1.sort = high.sort))) = ltCount ks high := by
            refine (hc (fun x => decide (x < high.sort) ||
              (incH && decide (x = high.sort)))).trans ?_
            rw [ltCount_eq_sorts]
            refine List.countP_congr ?_
            intro x hx
            have hne : x ≠ high.sort := fun h => hmem (h ▸ hx)
            simp only [Bool.or_eq_true, Bool.and_eq_true, decide_eq_true_eq]
            constructor
            · rintro (h | ⟨-, h⟩)
              · exact h
              · exact absurd h hne
            · intro h; left; exact h
          rw [eQ] at hgen
          exact hgen
      · rw [if_neg hmiss]
        have hmem : high.sort ∈ ks.map Key.sort := by
          by_contra hnk
          exact hmiss (by rw [(indexOfM_miss ks high hss hnk).1]; omega)
        have hfound := indexOfM_found ks high hss hmem
        rw [hfound.1]
        have htn : ((ltCount ks high : Int)).toNat = ltCount ks high := by omega
        rw [htn]
        by_cases hinc : incH
        · rw [if_pos hinc]
          have eQ : (ks.zip (valsList vs ks.length)).countP
              (fun p => decide (p.1.sort < high.sort) ||
                (incH && decide (p.1.sort = high.sort))) = ltCount ks high + 1 := by
            refine (hc (fun x => decide (x < high.sort) ||
              (incH && decide (x = high.sort)))).trans ?_
            have hle := countP_le_eq_lt_add_one (ks.map Key.sort) high.sort
              ((sortedB_iff _).mp hss) hmem
            rw [← ltCount_eq_sorts] at hle
            rw [← hle]
            refine List.countP_congr ?_
            intro x hx
            simp only [Bool.or_eq_true, Bool.and_eq_true, decide_eq_true_eq, hinc]
            constructor
            · rintro (h | ⟨-, h⟩) <;> omega
            · intro h
              rcases Int.lt_or_le x high.sort with h2 | h2
              · left; exact h2
              · right; exact ⟨by simp, by omega⟩
          rw [eQ] at hgen
          exact hgen
        · rw [if_neg hinc]
          have eQ : (ks.zip (valsList vs ks.length)).countP
              (fun p => decide (p.1.sort < high.sort) ||
                (incH && decide (p.1.sort = high.sort))) = ltCount ks high := by
            refine (hc (fun x => decide (x < high.sort) ||
              (incH && decide (x = high.sort)))).trans ?_
            rw [ltCount_eq_sorts]
            refine List.countP_congr ?_
            intro x hx
            simp only [Bool.or_eq_true, Bool.and_eq_true, decide_eq_true_eq, hinc,
              Bool.false_and, or_false]
            simp
          rw [eQ] at hgen
          exact hgen

theorem toListL_eq_flatten (cs : List BNode) :
    toListL cs = (cs.map BNode.toList).flatten := by
  induction cs with
  | nil => rw [toListL]; simp
  | cons c rest ih => rw [toListL_cons, ih]; simp

theorem child_window_left (H max : Nat) (ks : List Key) (cs : List BNode) (s : Bool)
    (key : Key)
    (hh : (BNode.internal ks cs s).height < H)
    (hwf : wfB max (.internal ks cs s) = true) :
    ∀ j, j < indexOf0 ks key → j < cs.length →
      ∀ x ∈ sortsOf (cs.getD j dfltNode).toList, x < key.sort := by
  obtain ⟨hcs, hlen, hmax, hcache, hwl, hsorted⟩ := (wfB_internal_iff max ks cs s).mp hwf
  have hcac := (cacheOkL_iff ks cs).mp hcache
  have hks := ks_sorted_of_wf H max ks cs s hh hwf
  have hbounds := ltCount_bounds ks key hks
  rw [indexOf0_eq ks key hks]
  intro j hj hjlen x hx
  have hmem := getD_mem cs j hjlen
  have hwfc := (wfL_iff max cs).mp hwl _ hmem
  have hhc : (cs.getD j dfltNode).height < H := by
    have h := height_child_lt (cs.getD j dfltNode) ks cs s hmem
    omega
  have h1 := mem_toList_le_max H _ max hhc hwfc (hcac.2 j hjlen).1 x hx
  have h2 := hbounds.2.1 j hj
  rw [(hcac.2 j hjlen).2] at h2
  omega

theorem flatten_window {α β : Type} (dflt : α) (F : α → List β) (l : List α) (a b : Nat)
    (hA : ∀ j, j < a → j < l.length → F (l.getD j dflt) = [])
    (hB : ∀ j, b ≤ j → j < l.length → F (l.getD j dflt) = []) :
    (((l.drop a).take (b - a)).map F).flatten = (l.map F).flatten := by
  rcases Nat.lt_or_ge a b with hab | hab
  · have h2 : (l.drop a).drop (b - a) = l.drop b := by
      rw [List.drop_drop]
      congr 1
      omega
    have hsplit : l = l.take a ++ ((l.drop a).take (b - a) ++ l.drop b) := by
      rw [← h2, List.take_append_drop, List.take_append_drop]
    conv_rhs => rw [hsplit]
    rw [List.map_append, List.map_append, List.flatten_append, List.flatten_append]
    have hAnil : ((l.take a).map F).flatten = [] := by
      rw [List.flatten_eq_nil_iff]
      intro x hx
      rw [List.mem_map] at hx
      obtain ⟨c, hc, hfc⟩ := hx
      rw [List.mem_iff_getElem] at hc
      obtain ⟨i, hi, hci⟩ := hc
      have hia : i < a := by
        have h3 := hi
        simp at h3
        omega
      have hil : i < l.length := by
        have h3 := hi
        simp at h3
        omega
      have hcd : c = l.getD i dflt := by
        rw [List.getD_eq_getElem _ _ hil, ← hci, List.getElem_take]
      rw [← hfc, hcd]
      exact hA i hia hil
    have hBnil : ((l.drop b).map F).flatten = [] := by
      rw [List.flatten_eq_nil_iff]
      intro x hx
      rw [List.mem_map] at hx
      obtain ⟨c, hc, hfc⟩ := hx
      rw [List.mem_iff_getElem] at hc
      obtain ⟨i, hi, hci⟩ := hc
      have hil : b + i < l.length := by
        have h3 := hi
        simp at h3
        omega
      have hcd : c = l.getD (b + i) dflt := by
        rw [List.getD_eq_getElem _ _ hil, ← hci, List.getElem_drop]
      rw [← hfc, hcd]
      exact hB (b + i) (by omega) hil
    rw [hAnil, hBnil]
    simp
  · have hempty : b - a = 0 := by omega
    rw [hempty]
    simp only [List.take_zero, List.map_nil, List.flatten_nil]
    symm
    rw [List.flatten_eq_nil_iff]
    intro x hx
    rw [List.mem_map] at hx
    obtain ⟨c, hc, hfc⟩ := hx
    rw [List.mem_iff_getElem] at hc
    obtain ⟨i, hi, hci⟩ := hc
    have hcd : c = l.getD i dflt := by rw [List.getD_eq_getElem _ _ hi, ← hci]
    rcases Nat.lt_or_ge i a with hia | hia
    · rw [← hfc, hcd]
      exact hA i hia hi
    · rw [← hfc, hcd]
      exact hB i (by omega) hi

theorem window_rangePairs (H max : Nat) (ks : List Key) (cs : List BNode) (s : Bool)
    (low high : Key) (incH : Bool)
    (hh : (BNode.internal ks cs s).height < H)
    (hwf : wfB max (.internal ks cs s) = true) :
    ((((cs.drop (indexOf0 ks low)).take
        (min (if high = low then indexOf0 ks low else indexOf0 ks high) (ks.length - 1) + 1
          - indexOf0 ks low)).map
      (fun c => rangePairs c.toList low high incH)).flatten) =
    rangePairs (toListL cs) low high incH := by
  obtain ⟨hcs, hlen, hmax, hcache, hwl, hsorted⟩ := (wfB_internal_iff max ks cs s).mp hwf
  have hifh : (if high = low then indexOf0 ks low else indexOf0 ks high) =
      indexOf0 ks high := by
    by_cases h : high = low
    · rw [if_pos h, h]
    · rw [if_neg h]
  rw [hifh, hlen]
  have hA : ∀ j, j < indexOf0 ks low → j < cs.length →
      (fun c => rangePairs c.toList low high incH) (cs.getD j dfltNode) = [] := by
    intro j hj hjl
    have hlt := child_window_left H max ks cs s low hh hwf j hj hjl
    refine filter_of_all_false _ _ ?_
    intro p hp
    have hps : p.1.sort ∈ sortsOf (cs.getD j dfltNode).toList :=
      List.mem_map_of_mem _ hp
    have h1 := hlt _ hps
    unfold inRange
    rw [Bool.eq_false_iff]
    simp only [ne_eq, Bool.and_eq_true, Bool.or_eq_true, decide_eq_true_eq, not_and,
      not_or]
    intro hle
    omega
  have hB : ∀ j, min (indexOf0 ks high) (cs.length - 1) + 1 ≤ j → j < cs.length →
      (fun c => rangePairs c.toList low high incH) (cs.getD j dfltNode) = [] := by
    intro j hj hjl
    have hgt := (child_window H max ks cs s high hh hwf).2 j (by omega) hjl
    refine filter_of_all_false _ _ ?_
    intro p hp
    have hps : p.1.sort ∈ sortsOf (cs.getD j dfltNode).toList :=
      List.mem_map_of_mem _ hp
    have h1 := hgt _ hps
    unfold inRange
    rw [Bool.eq_false_iff]
    simp only [ne_eq, Bool.and_eq_true, Bool.or_eq_true, decide_eq_true_eq, not_and,
      not_or]
    intro hle
    constructor
    · omega
    · intro _
      omega
  have hgoal := flatten_window dfltNode (fun c => rangePairs c.toList low high incH) cs
    (indexOf0 ks low) (min (indexOf0 ks high) (cs.length - 1) + 1) hA hB
  rw [hgoal]
  rw [rangePairs, toListL_eq_flatten, List.filter_flatten, List.map_map]
  congr 1

theorem nodeRO_push (maxLength max : Nat) (low high : Key) (incH : Bool) :
    ∀ (fuel : Nat) (n : BNode), wfB max n = true → n.height < fuel →
    ∀ (count : Nat) (st : List (Key × JSV)), st.length ≤ maxLength →
    pushSpec maxLength
      (nodeForRangeRO low high incH (pushVisitor maxLength) fuel n count st) st count
      (rangePairs n.toList low high incH) := by
  intro fuel
  induction fuel with
  | zero =>
    intro n hwf hh
    omega
  | succ fuel ih =>
    intro n hwf hh count st hcap
    cases n with
    | leaf ks vs sh =>
      simp only [nodeForRangeRO]
      rw [← leaf_window_filter max ks vs sh low high incH hwf, ← toList_leaf ks vs sh]
      exact roPairs_push maxLength _ count st hcap
    | internal ks cs sh =>
      simp only [nodeForRangeRO]
      rw [toList_internal,
        ← window_rangePairs (fuel + 1) max ks cs sh low high incH hh hwf]
      refine roChildren_spec maxLength _ (fun c => rangePairs c.toList low high incH)
        _ ?_ count st hcap
      intro c hc count' st' hcap'
      have hcmem : c ∈ cs := List.mem_of_mem_drop (List.mem_of_mem_take hc)
      obtain ⟨hcs, hlen, hmax, hcache, hwl, hsorted⟩ :=
        (wfB_internal_iff max ks cs sh).mp hwf
      have hwfc := (wfL_iff max cs).mp hwl _ hcmem
      have hhc : c.height < fuel := by
        have h := height_child_lt c ks cs sh hcmem
        omega
      exact ih c hwfc hhc count' st' hcap'

/-- C10: for every (well-formed) tree and every key range containing strictly
more than `maxLength` pairs, `getRange(low, high, includeHigh, maxLength)`
returns exactly `maxLength + 1` pairs — the first `maxLength + 1` in-range
pairs in order: the scan stops only once the result array's length exceeds
`maxLength`, so the returned list exceeds the requested limit by one. -/
theorem C10_getRange_overshoot (fuel max maxLength : Nat) (t : TreeS) (low high : Key)
    (incH : Bool)
    (hwf : wfB max t.root = true)
    (hfuel : t.root.height < fuel)
    (hover : maxLength < (rangePairs t.root.toList low high incH).length) :
    getRangeT fuel t low high incH maxLength =
      (rangePairs t.root.toList low high incH).take (maxLength + 1) ∧
    (getRangeT fuel t low high incH maxLength).length = maxLength + 1 := by
  have h := nodeRO_push maxLength max low high incH fuel t.root hwf hfuel 0 []
    (by simp)
  unfold pushSpec at h
  rw [if_neg (by simp; omega)] at h
  unfold getRangeT
  rw [h]
  simp only [List.nil_append, List.length_nil, Nat.sub_zero, List.length_take]
  exact ⟨by trivial, by omega⟩

theorem C10_getRange_overshoot_witness :
    wfB 32 (BNode.leaf [⟨1,0⟩, ⟨2,0⟩, ⟨3,0⟩]
      (some [.num 1, .num 2, .num 3]) false) = true ∧
    (BNode.leaf [⟨1,0⟩, ⟨2,0⟩, ⟨3,0⟩]
      (some [.num 1, .num 2, .num 3]) false : BNode).height < 1 ∧
    1 < (rangePairs (BNode.leaf [⟨1,0⟩, ⟨2,0⟩, ⟨3,0⟩]
      (some [.num 1, .num 2, .num 3]) false : BNode).toList ⟨1,0⟩ ⟨3,0⟩ true).length ∧
    getRangeT 1 ⟨BNode.leaf [⟨1,0⟩, ⟨2,0⟩, ⟨3,0⟩]
        (some [.num 1, .num 2, .num 3]) false, 3, 32⟩ ⟨1,0⟩ ⟨3,0⟩ true 1 =
      [(⟨1,0⟩, .num 1), (⟨2,0⟩, .num 2)] ∧
    (getRangeT 1 ⟨BNode.leaf [⟨1,0⟩, ⟨2,0⟩, ⟨3,0⟩]
        (some [.num 1, .num 2, .num 3]) false, 3, 32⟩ ⟨1,0⟩ ⟨3,0⟩ true 1).length =
      1 + 1 := by
  have h := C10_getRange_overshoot 1 32 1
    ⟨BNode.leaf [⟨1,0⟩, ⟨2,0⟩, ⟨3,0⟩] (some [.num 1, .num 2, .num 3]) false, 3, 32⟩
    ⟨1,0⟩ ⟨3,0⟩ true (by decide) (by decide) (by decide)
  exact ⟨by decide, by decide, by decide, h.1.trans rfl, h.2⟩

/-! ## C1: functional specification of `set` -/

/-- Spec-side definition (from the claim's words): add the pair at its
sorted position. -/
def insertKV (l : List (Key × JSV)) (key : Key) (value : JSV) :
    List (Key × JSV) :=
  l.take (l.countP (fun p => decide (p.1.sort < key.sort))) ++ (key, value) ::
    l.drop (l.countP (fun p => decide (p.1.sort < key.sort)))

/-- Spec-side definition (from the claim's words): replace both the stored
key and the stored value of every pair whose key is comparator-equal to
`key` (on a duplicate-free list, of the unique such pair). -/
def replaceKV (l : List (Key × JSV)) (key : Key) (value : JSV) :
    List (Key × JSV) :=
  l.map (fun p => if p.1.sort = key.sort then (key, value) else p)

theorem insertIdx_eq_split {α : Type} (x : α) :
    ∀ (l : List α) (j : Nat), j ≤ l.length →
    l.insertIdx j x = l.take j ++ x :: l.drop j := by
  intro l
  induction l with
  | nil =>
    intro j hj
    have h0 : j = 0 := by simpa using hj
    subst h0
    rfl
  | cons a t ih =>
    intro j hj
    cases j with
    | zero => rfl
    | succ j' =>
      rw [List.insertIdx_succ_cons, ih j' (by simpa using hj)]
      rfl

theorem zip_insertIdx {α β : Type} (x : α) (y : β) :
    ∀ (xs : List α) (ys : List β) (j : Nat), xs.length ≤ ys.length →
    j ≤ xs.length →
    (xs.insertIdx j x).zip (ys.insertIdx j y) = (xs.zip ys).insertIdx j (x, y) := by
  intro xs
  induction xs with
  | nil =>
    intro ys j hlen hj
    have h0 : j = 0 := by simpa using hj
    subst h0
    cases ys with
    | nil => rfl
    | cons b bs => rfl
  | cons a t ih =>
    intro ys j hlen hj
    cases ys with
    | nil => simp at hlen
    | cons b bs =>
      cases j with
      | zero => rfl
      | succ j' =>
        simp only [List.insertIdx_succ_cons, List.zip_cons_cons]
        rw [ih bs j' (by simpa using hlen) (by simpa using hj)]

theorem replicate_insertIdx {α : Type} (u : α) (n j : Nat) (hj : j ≤ n) :
    (List.replicate n u).insertIdx j u = List.replicate (n + 1) u := by
  rw [insertIdx_eq_split u _ j (by simpa using hj)]
  rw [List.take_replicate, List.drop_replicate]
  have h1 : min j n = j := by omega
  rw [h1]
  have h2 : List.replicate (n + 1) u = List.replicate (j + (n + 1 - j)) u := by
    congr 1
    omega
  rw [h2, List.replicate_add]
  congr 1
  have h3 : n + 1 - j = n - j + 1 := by omega
  rw [h3]
  rfl

theorem zip_take {α β : Type} :
    ∀ (xs : List α) (ys : List β) (n : Nat),
    (xs.zip ys).take n = (xs.take n).zip (ys.take n) := by
  intro xs
  induction xs with
  | nil => intro ys n; simp
  | cons a t ih =>
    intro ys n
    cases ys with
    | nil => simp
    | cons b bs =>
      cases n with
      | zero => simp
      | succ n' => simp [List.zip_cons_cons, ih bs n']

theorem zip_drop {α β : Type} :
    ∀ (xs : List α) (ys : List β) (n : Nat),
    (xs.zip ys).drop n = (xs.drop n).zip (ys.drop n) := by
  intro xs
  induction xs with
  | nil => intro ys n; simp
  | cons a t ih =>
    intro ys n
    cases ys with
    | nil => simp
    | cons b bs =>
      cases n with
      | zero => simp
      | succ n' => simp [List.zip_cons_cons, ih bs n']

theorem zip_set {α β : Type} (x : α) (y : β) :
    ∀ (xs : List α) (ys : List β) (j : Nat),
    (xs.set j x).zip (ys.set j y) = (xs.zip ys).set j (x, y) := by
  intro xs
  induction xs with
  | nil => intro ys j; simp
  | cons a t ih =>
    intro ys j
    cases ys with
    | nil => simp
    | cons b bs =>
      cases j with
      | zero => simp [List.zip_cons_cons]
      | succ j' => simp [List.zip_cons_cons, ih bs j']

theorem map_insertIdx {α β : Type} (f : α → β) (x : α) :
    ∀ (l : List α) (j : Nat),
    (l.insertIdx j x).map f = (l.map f).insertIdx j (f x) := by
  intro l
  induction l with
  | nil =>
    intro j
    cases j with
    | zero => rfl
    | succ j' => rfl
  | cons a t ih =>
    intro j
    cases j with
    | zero => rfl
    | succ j' => simp [List.insertIdx_succ_cons, ih j']

theorem insertKV_append (A c B : List (Key × JSV)) (key : Key) (v : JSV)
    (hA : ∀ p ∈ A, p.1.sort < key.sort) (hB : ∀ p ∈ B, key.sort < p.1.sort) :
    insertKV (A ++ c ++ B) key v = A ++ insertKV c key v ++ B := by
  unfold insertKV
  have hcA : A.countP (fun p => decide (p.1.sort < key.sort)) = A.length :=
    List.countP_eq_length.mpr (fun p hp => by
      simp only [decide_eq_true_eq]
      exact hA p hp)
  have hcB : B.countP (fun p => decide (p.1.sort < key.sort)) = 0 :=
    List.countP_eq_zero.mpr (fun p hp => by
      simp only [decide_eq_true_eq, not_lt]
      have h := hB p hp
      omega)
  have hcc : c.countP (fun p => decide (p.1.sort < key.sort)) ≤ c.length :=
    List.countP_le_length _
  rw [List.countP_append, List.countP_append, hcA, hcB, Nat.add_zero,
    List.append_assoc, List.take_append_eq_append_take, List.drop_append_eq_append_drop,
    List.take_of_length_le (by omega), List.drop_eq_nil_of_le (by omega),
    Nat.add_sub_cancel_left,
    List.take_append_eq_append_take, List.drop_append_eq_append_drop]
  have h0 : c.countP (fun p => decide (p.1.sort < key.sort)) - c.length = 0 := by omega
  rw [h0]
  simp

theorem replaceKV_append (A c B : List (Key × JSV)) (key : Key) (v : JSV)
    (hA : ∀ p ∈ A, p.1.sort ≠ key.sort) (hB : ∀ p ∈ B, p.1.sort ≠ key.sort) :
    replaceKV (A ++ c ++ B) key v = A ++ replaceKV c key v ++ B := by
  unfold replaceKV
  rw [List.map_append, List.map_append]
  have hfa : ∀ p ∈ A, (if p.1.sort = key.sort then (key, v) else p) = id p :=
    fun p hp => by
      simp only [id]
      rw [if_neg (hA p hp)]
  have hfb : ∀ p ∈ B, (if p.1.sort = key.sort then (key, v) else p) = id p :=
    fun p hp => by
      simp only [id]
      rw [if_neg (hB p hp)]
  rw [List.map_congr_left hfa, List.map_congr_left hfb, List.map_id, List.map_id]

theorem insertKV_eq_insertIdx (l : List (Key × JSV)) (key : Key) (v : JSV) :
    insertKV l key v =
      l.insertIdx (l.countP (fun p => decide (p.1.sort < key.sort))) (key, v) := by
  rw [insertIdx_eq_split _ _ _ (List.countP_le_length _), insertKV]

theorem length_insertKV (l : List (Key × JSV)) (key : Key) (v : JSV) :
    (insertKV l key v).length = l.length + 1 := by
  rw [insertKV_eq_insertIdx, List.length_insertIdx _ _ (List.countP_le_length _)]

theorem pairwise_insert_count (x : Int) :
    ∀ xs : List Int, xs.Pairwise (· < ·) → x ∉ xs →
    (xs.insertIdx (xs.countP (fun s => decide (s < x))) x).Pairwise (· < ·) := by
  intro xs
  induction xs with
  | nil =>
    intro _ _
    simp
  | cons a t ih =>
    intro hp hx
    rw [List.countP_cons]
    rcases h : decide (a < x) with hfv | htv
    · have hax : x < a := by
        have h1 : ¬(a < x) := by simpa using h
        have h2 : x ≠ a := by
          intro e
          exact hx (by simp [e])
        omega
      have ht0 : t.countP (fun s => decide (s < x)) = 0 := by
        rw [List.countP_eq_zero]
        intro s hs
        have h3 := (List.pairwise_cons.mp hp).1 s hs
        simp only [decide_eq_true_eq, not_lt]
        omega
      rw [ht0]
      have hidx : (0 + if false = true then 1 else 0) = 0 := by simp
      rw [hidx, List.insertIdx_zero]
      refine List.pairwise_cons.mpr ⟨?_, hp⟩
      intro b hb
      rcases List.mem_cons.mp hb with rfl | hbt
      · exact hax
      · exact lt_trans hax ((List.pairwise_cons.mp hp).1 b hbt)
    · have hax : a < x := by simpa using h
      have hidx : (t.countP (fun s => decide (s < x)) + if true = true then 1 else 0) =
          t.countP (fun s => decide (s < x)) + 1 := by simp
      rw [hidx, List.insertIdx_succ_cons]
      refine List.pairwise_cons.mpr ⟨?_, ih hp.tail (fun h2 => hx (by simp [h2]))⟩
      intro b hb
      rw [List.mem_insertIdx (List.countP_le_length _)] at hb
      rcases hb with rfl | hbt
      · exact hax
      · exact (List.pairwise_cons.mp hp).1 b hbt

theorem sortsOf_insertKV (l : List (Key × JSV)) (key : Key) (v : JSV) :
    sortsOf (insertKV l key v) =
      (sortsOf l).insertIdx ((sortsOf l).countP (fun s => decide (s < key.sort)))
        key.sort := by
  rw [insertKV_eq_insertIdx, sortsOf, map_insertIdx, ← countP_fst_sort]
  rfl

theorem insertKV_sorted (l : List (Key × JSV)) (key : Key) (v : JSV)
    (hs : sortedB (sortsOf l) = true) (hx : key.sort ∉ sortsOf l) :
    sortedB (sortsOf (insertKV l key v)) = true := by
  rw [sortsOf_insertKV, sortedB_iff]
  exact pairwise_insert_count key.sort (sortsOf l) ((sortedB_iff _).mp hs) hx

theorem sortsOf_replaceKV (l : List (Key × JSV)) (key : Key) (v : JSV) :
    sortsOf (replaceKV l key v) = sortsOf l := by
  rw [replaceKV, sortsOf, sortsOf, List.map_map]
  refine List.map_congr_left ?_
  intro p _
  simp only [Function.comp]
  by_cases h : p.1.sort = key.sort
  · rw [if_pos h, h]
  · rw [if_neg h]

theorem length_replaceKV (l : List (Key × JSV)) (key : Key) (v : JSV) :
    (replaceKV l key v).length = l.length := by
  rw [replaceKV, List.length_map]

theorem sorted_set_eq_replaceKV (l : List (Key × JSV)) (key : Key) (v : JSV) (j : Nat)
    (hp : (sortsOf l).Pairwise (· < ·)) (hj : j < l.length)
    (hsort : (l.getD j (dfltKey, JSV.undef)).1.sort = key.sort) :
    l.set j (key, v) = replaceKV l key v := by
  refine List.ext_getElem (by rw [List.length_set, length_replaceKV]) ?_
  intro n h1 h2
  rw [List.length_set] at h1
  have hps : ∀ i1 i2 (h1 : i1 < l.length) (h2 : i2 < l.length), i1 < i2 →
      (l[i1]).1.sort < (l[i2]).1.sort := by
    intro i1 i2 hi1 hi2 hlt
    have hp2 := List.pairwise_iff_getElem.mp hp i1 i2 (by simpa [sortsOf] using hi1)
      (by simpa [sortsOf] using hi2) hlt
    simpa [sortsOf] using hp2
  have hrep : (replaceKV l key v)[n] =
      (if (l[n]).1.sort = key.sort then (key, v) else l[n]) := List.getElem_map _
  rw [List.getElem_set, hrep]
  rw [List.getD_eq_getElem _ _ hj] at hsort
  by_cases hjn : j = n
  · subst hjn
    rw [if_pos rfl, if_pos hsort]
  · rw [if_neg hjn]
    have hne : (l[n]).1.sort ≠ key.sort := by
      rcases Nat.lt_or_ge j n with hlt | hge
      · have := hps j n hj h1 hlt
        omega
      · have hlt : n < j := by omega
        have := hps n j h1 hj hlt
        omega
    rw [if_neg hne]

/-- The content of a `setLeaf`/`setInternal` result beyond the node itself:
the returned right sibling's pairs, if any. -/
def sibContent : SetRes → List (Key × JSV)
  | .done _ => []
  | .split sib => sib.toList

/-- The boolean `BTree.set` derives from a node result (a split also reports
an addition). -/
def resBool : SetRes → Bool
  | .done b => b
  | .split _ => true

theorem insertInLeaf_parts (ks : List Key) (vs : Option (List JSV)) (s : Bool)
    (j : Nat) (key : Key) (value : JSV)
    (hvs : ∀ l, vs = some l → ks.length ≤ l.length) (hj : j ≤ ks.length) :
    ∀ k' v', insertInLeaf ks vs j key value = (k', v') →
    k' = ks.insertIdx j key ∧
    (∀ l', v' = some l' → k'.length ≤ l'.length) ∧
    (BNode.leaf k' v' s).toList = ((BNode.leaf ks vs s).toList).insertIdx j (key, value) := by
  intro k' v' h
  unfold insertInLeaf at h
  have hlen' : (ks.insertIdx j key).length = ks.length + 1 :=
    List.length_insertIdx _ _ hj
  cases vs with
  | none =>
    dsimp only at h
    by_cases hv : value = JSV.undef
    · rw [if_pos hv] at h
      injection h with h1 h2
      subst h1
      subst h2
      refine ⟨rfl, ?_, ?_⟩
      · intro l' h'
        cases h'
      rw [toList_leaf, toList_leaf, hlen']
      show (ks.insertIdx j key).zip (valsList none (ks.length + 1)) = _
      have hrep : valsList none (ks.length + 1) =
          (valsList none ks.length).insertIdx j JSV.undef := by
        show List.replicate (ks.length + 1) JSV.undef = _
        rw [show valsList none ks.length = List.replicate ks.length JSV.undef from rfl,
          replicate_insertIdx _ _ _ hj]
      rw [hrep, zip_insertIdx _ _ _ _ _ (by simp [valsList]) hj, hv]
    · rw [if_neg hv] at h
      injection h with h1 h2
      subst h1
      subst h2
      refine ⟨rfl, ?_, ?_⟩
      · intro l' h'
        cases h'
        rw [hlen', List.length_insertIdx _ _ (by simp; omega)]
        simp
      · rw [toList_leaf, toList_leaf, hlen']
        show (ks.insertIdx j key).zip (valsList (some _) (ks.length + 1)) = _
        show (ks.insertIdx j key).zip
          ((List.replicate ks.length JSV.undef).insertIdx j value) = _
        rw [zip_insertIdx _ _ _ _ _ (by simp) hj]
        rfl
  | some l =>
    dsimp only at h
    injection h with h1 h2
    subst h1
    subst h2
    have hll := hvs l rfl
    refine ⟨rfl, ?_, ?_⟩
    · intro l' h'
      cases h'
      rw [hlen', List.length_insertIdx _ _ (by omega)]
      omega
    · rw [toList_leaf, toList_leaf, hlen']
      show (ks.insertIdx j key).zip ((l.insertIdx j value)) = _
      rw [zip_insertIdx _ _ _ _ _ hll hj]
      rfl

theorem insert_concat_left {α : Type} (l : List α) (h j : Nat) (x : α)
    (hj : j ≤ h) (hh : h ≤ l.length) :
    (l.take h).insertIdx j x ++ l.drop h = l.insertIdx j x := by
  rw [insertIdx_eq_split x (l.take h) j (by rw [List.length_take]; omega),
    insertIdx_eq_split x l j (by omega),
    List.take_take, List.drop_take]
  have h1 : min j h = j := by omega
  rw [h1]
  have h2 : l.drop h = (l.drop j).drop (h - j) := by
    rw [List.drop_drop]
    congr 1
    omega
  rw [h2, List.append_assoc, List.cons_append, List.take_append_drop]

theorem insert_concat_right {α : Type} (l : List α) (h j : Nat) (x : α)
    (hj1 : h ≤ j) (hj2 : j ≤ l.length) :
    l.take h ++ (l.drop h).insertIdx (j - h) x = l.insertIdx j x := by
  rw [insertIdx_eq_split x (l.drop h) (j - h) (by rw [List.length_drop]; omega),
    insertIdx_eq_split x l j hj2]
  have h1 : l.take j = l.take h ++ (l.drop h).take (j - h) := by
    have h2 : j = h + (j - h) := by omega
    conv_lhs => rw [h2]
    rw [List.take_add]
  have h3 : l.drop j = (l.drop h).drop (j - h) := by
    rw [List.drop_drop]
    congr 1
    omega
  rw [h1, h3, List.append_assoc]

theorem set_getD_self {α : Type} (l : List α) (i : Nat) (d a : α)
    (hi : i < l.length) (h : l.getD i d = a) : l.set i a = l := by
  refine List.ext_getElem (by simp) ?_
  intro n h1 h2
  rw [List.getElem_set]
  by_cases hin : i = n
  · subst hin
    rw [if_pos rfl, ← h, List.getD_eq_getElem _ _ hi]
  · rw [if_neg hin]

theorem split_leaf_toList (ks : List Key) (vs : Option (List JSV)) (s s2 : Bool)
    (hvs : ∀ l, vs = some l → ks.length ≤ l.length) :
    (BNode.leaf (splitOffRightSide ks vs).1.1 (splitOffRightSide ks vs).1.2 s).toList =
      ((BNode.leaf ks vs s).toList).take (ks.length / 2) ∧
    (BNode.leaf (splitOffRightSide ks vs).2.1 (splitOffRightSide ks vs).2.2 s2).toList =
      ((BNode.leaf ks vs s).toList).drop (ks.length / 2) := by
  have hhalf : ks.length / 2 ≤ ks.length := by omega
  rw [toList_leaf, toList_leaf, toList_leaf]
  rw [zip_take, zip_drop]
  unfold splitOffRightSide
  cases vs with
  | none =>
    constructor
    · show (ks.take (ks.length / 2)).zip
        (valsList none ((ks.take (ks.length / 2)).length)) = _
      show _ = (ks.take (ks.length / 2)).zip
        ((List.replicate ks.length JSV.undef).take (ks.length / 2))
      rw [List.take_replicate, List.length_take]
      rfl
    · show (ks.drop (ks.length / 2)).zip
        (valsList none ((ks.drop (ks.length / 2)).length)) = _
      show _ = (ks.drop (ks.length / 2)).zip
        ((List.replicate ks.length JSV.undef).drop (ks.length / 2))
      rw [List.drop_replicate, List.length_drop]
      rfl
  | some l =>
    constructor
    · rfl
    · rfl

theorem setLeaf_spec (max : Nat) (ks : List Key) (vs : Option (List JSV)) (s : Bool)
    (key : Key) (value : JSV) (ow : Option Bool)
    (hwf : wfB max (.leaf ks vs s) = true) (hmax : 2 ≤ max) :
    (key.sort ∉ sortsOf (BNode.leaf ks vs s).toList →
      (setLeaf ks vs s key value ow max).1.toList ++
          sibContent (setLeaf ks vs s key value ow max).2.1 =
        insertKV (BNode.leaf ks vs s).toList key value ∧
      resBool (setLeaf ks vs s key value ow max).2.1 = true ∧
      (setLeaf ks vs s key value ow max).2.2 = true) ∧
    (key.sort ∈ sortsOf (BNode.leaf ks vs s).toList → ow = some false →
      (setLeaf ks vs s key value ow max).1 = .leaf ks vs s ∧
      (setLeaf ks vs s key value ow max).2.1 = .done false ∧
      (setLeaf ks vs s key value ow max).2.2 = false) ∧
    (key.sort ∈ sortsOf (BNode.leaf ks vs s).toList → ow ≠ some false →
      (setLeaf ks vs s key value ow max).1.toList =
        replaceKV (BNode.leaf ks vs s).toList key value ∧
      (setLeaf ks vs s key value ow max).2.1 = .done false ∧
      (setLeaf ks vs s key value ow max).2.2 = false) ∧
    wfB max (setLeaf ks vs s key value ow max).1 = true ∧
    (∀ sib, (setLeaf ks vs s key value ow max).2.1 = .split sib →
      wfB max sib = true ∧ sib.getKeys ≠ []) := by
  obtain ⟨hsk, hklen, hvs⟩ := (wfB_leaf_iff max ks vs s).mp hwf
  have hsorts : sortsOf (BNode.leaf ks vs s).toList = ks.map Key.sort :=
    sortsOf_toList_leaf ks vs s hvs
  have hvll := valsList_length ks vs hvs
  have hLlen : (BNode.leaf ks vs s).toList.length = ks.length := by
    rw [toList_leaf, List.length_zip]
    omega
  have hLp : (sortsOf (BNode.leaf ks vs s).toList).Pairwise (· < ·) := by
    rw [hsorts]
    exact (sortedB_iff _).mp hsk
  have hcountL : (BNode.leaf ks vs s).toList.countP
      (fun p => decide (p.1.sort < key.sort)) = ltCount ks key :=
    (countP_fst_sort _ (fun x => decide (x < key.sort))).trans
      (by rw [hsorts, ← ltCount_eq_sorts])
  have hLget : ∀ j, j < ks.length →
      ((BNode.leaf ks vs s).toList.getD j (dfltKey, JSV.undef)).1 = ks.getD j dfltKey := by
    intro j hj
    rw [toList_leaf]
    have hjz : j < (ks.zip (valsList vs ks.length)).length := by
      rw [List.length_zip]
      omega
    rw [List.getD_eq_getElem _ _ hjz, List.getElem_zip, List.getD_eq_getElem _ _ hj]
  by_cases hneg : indexOfM ks key < 0
  · -- the key is absent
    have hnotin : key.sort ∉ ks.map Key.sort := (indexOfM_neg_iff ks key hsk).mp hneg
    have hnotinL : key.sort ∉ sortsOf (BNode.leaf ks vs s).toList := by
      rw [hsorts]
      exact hnotin
    have hmiss := indexOfM_miss ks key hsk hnotin
    have hj : (-indexOfM ks key - 1).toNat = ltCount ks key := by
      rw [hmiss.1]
      omega
    have hjle : ltCount ks key ≤ ks.length := hmiss.2
    have hIKV : insertKV (BNode.leaf ks vs s).toList key value =
        ((BNode.leaf ks vs s).toList).insertIdx (ltCount ks key) (key, value) := by
      rw [insertKV_eq_insertIdx, hcountL]
    by_cases hroom : ks.length < max
    · -- plain insertion
      rcases hins : insertInLeaf ks vs ((-indexOfM ks key - 1).toNat) key value with ⟨k', v'⟩
      have hparts := insertInLeaf_parts ks vs s ((-indexOfM ks key - 1).toNat) key value
        hvs (by omega) k' v' hins
      have hout : setLeaf ks vs s key value ow max = (.leaf k' v' s, .done true, true) := by
        unfold setLeaf
        dsimp only
        rw [if_pos hneg, if_pos hroom, hins]
      rw [hout]
      refine ⟨?_, ?_, ?_, ?_, ?_⟩
      · intro _
        refine ⟨?_, rfl, rfl⟩
        show (BNode.leaf k' v' s).toList ++ [] = _
        rw [List.append_nil, hparts.2.2, hj, hIKV]
      · intro hmem _
        exact absurd hmem hnotinL
      · intro hmem _
        exact absurd hmem hnotinL
      · rw [wfB_leaf_iff]
        refine ⟨?_, ?_, hparts.2.1⟩
        · rw [hparts.1, sortedB_iff,
            map_insertIdx Key.sort key ks ((-indexOfM ks key - 1).toNat), hj,
            ltCount_eq_sorts]
          exact pairwise_insert_count key.sort (ks.map Key.sort)
            ((sortedB_iff _).mp hsk) hnotin
        · rw [hparts.1, List.length_insertIdx _ _ (by omega)]
          omega
      · intro sib hsib
        exact SetRes.noConfusion hsib
    · -- the leaf is full: split
      have hroom' : max ≤ ks.length := by omega
      have hE : ks.length = max := by omega
      have hmin : min (ks.length / 2) ks.length = ks.length / 2 := by omega
      have hTL := (split_leaf_toList ks vs s false hvs).1
      have hTR := (split_leaf_toList ks vs s false hvs).2
      have hTLe : (BNode.leaf (ks.take (ks.length / 2))
          (vs.map (List.take (ks.length / 2))) s).toList =
          ((BNode.leaf ks vs s).toList).take (ks.length / 2) := hTL
      have hTRe : (BNode.leaf (ks.drop (ks.length / 2))
          (vs.map (List.drop (ks.length / 2))) false).toList =
          ((BNode.leaf ks vs s).toList).drop (ks.length / 2) := hTR
      have hvsd : ∀ l, vs.map (List.drop (ks.length / 2)) = some l →
          (ks.drop (ks.length / 2)).length ≤ l.length := by
        intro l hl
        cases vs with
        | none => cases hl
        | some l0 =>
          have h1 := hvs l0 rfl
          injection hl with hl2
          rw [← hl2, List.length_drop, List.length_drop]
          omega
      have hvst : ∀ l, vs.map (List.take (ks.length / 2)) = some l →
          (ks.take (ks.length / 2)).length ≤ l.length := by
        intro l hl
        cases vs with
        | none => cases hl
        | some l0 =>
          have h1 := hvs l0 rfl
          injection hl with hl2
          rw [← hl2, List.length_take, List.length_take]
          omega
      -- count of below-key sorts inside the two halves
      have hcw : (ks.map Key.sort).countP (fun x => decide (x < key.sort)) =
          ltCount ks key := (ltCount_eq_sorts ks key).symm
      have hbounds := ltCount_bounds ks key hsk
      by_cases hside : (-indexOfM ks key - 1).toNat > (ks.take (ks.length / 2)).length
      · -- insert into the right half
        have hside' : ks.length / 2 < ltCount ks key := by
          rw [hj] at hside
          rw [List.length_take] at hside
          omega
        have htc : ((ks.map Key.sort).take (ks.length / 2)).countP
            (fun x => decide (x < key.sort)) = ks.length / 2 := by
          have h9 : ((ks.map Key.sort).take (ks.length / 2)).countP
              (fun x => decide (x < key.sort)) =
              ((ks.map Key.sort).take (ks.length / 2)).length := by
            rw [List.countP_eq_length]
            intro a ha
            rw [List.mem_iff_getElem] at ha
            obtain ⟨i, hi, hai⟩ := ha
            have hi2 : i < ks.length / 2 := by
              have h3 := hi
              simp at h3
              omega
            have hi3 : i < ks.length := by omega
            have h4 := hbounds.2.1 i (by omega)
            have h5 : a = (ks.getD i dfltKey).sort := by
              rw [← hai, List.getElem_take, ← getD_map_sort ks i hi3,
                List.getD_eq_getElem _ _ (by simpa using hi3)]
            rw [h5]
            simpa using h4
          rw [h9, List.length_take, List.length_map]
          omega
        have hdc : ((ks.map Key.sort).drop (ks.length / 2)).countP
            (fun x => decide (x < key.sort)) = ltCount ks key - ks.length / 2 := by
          have h6 := hcw
          conv_lhs at h6 => rw [← List.take_append_drop (ks.length / 2) (ks.map Key.sort)]
          rw [List.countP_append, htc] at h6
          omega
        rcases hins : insertInLeaf (ks.drop (ks.length / 2))
            (vs.map (List.drop (ks.length / 2)))
            ((-indexOfM ks key - 1).toNat - (ks.take (ks.length / 2)).length)
            key value with ⟨rk', rv'⟩
        have hjdle : (-indexOfM ks key - 1).toNat - (ks.take (ks.length / 2)).length ≤
            (ks.drop (ks.length / 2)).length := by
          rw [hj, List.length_take, List.length_drop]
          omega
        have hparts := insertInLeaf_parts (ks.drop (ks.length / 2))
          (vs.map (List.drop (ks.length / 2))) false
          ((-indexOfM ks key - 1).toNat - (ks.take (ks.length / 2)).length) key value
          hvsd hjdle rk' rv' hins
        have hout : setLeaf ks vs s key value ow max =
            (.leaf (ks.take (ks.length / 2)) (vs.map (List.take (ks.length / 2))) s,
             .split (.leaf rk' rv' false), true) := by
          unfold setLeaf
          dsimp only [splitOffRightSide]
          rw [if_pos hneg, if_neg hroom, if_pos hside, hins]
        rw [hout]
        refine ⟨?_, ?_, ?_, ?_, ?_⟩
        · intro _
          refine ⟨?_, rfl, rfl⟩
          show _ ++ (BNode.leaf rk' rv' false).toList = _
          rw [hTLe, hparts.2.2, hTRe, hj, List.length_take, hmin, hIKV]
          exact insert_concat_right _ _ _ _ (by omega) (by omega)
        · intro hmem _
          exact absurd hmem hnotinL
        · intro hmem _
          exact absurd hmem hnotinL
        · rw [wfB_leaf_iff]
          refine ⟨?_, ?_, hvst⟩
          · rw [sortedB_iff, List.map_take]
            exact List.Pairwise.sublist (List.take_sublist _ _) ((sortedB_iff _).mp hsk)
          · rw [List.length_take]
            omega
        · intro sib hsib
          injection hsib with hsib2
          subst hsib2
          constructor
          · rw [wfB_leaf_iff]
            refine ⟨?_, ?_, hparts.2.1⟩
            · rw [hparts.1, sortedB_iff,
                map_insertIdx Key.sort key (ks.drop (ks.length / 2)) _,
                List.map_drop]
              have hpos : (-indexOfM ks key - 1).toNat -
                  (ks.take (ks.length / 2)).length =
                  ((ks.map Key.sort).drop (ks.length / 2)).countP
                    (fun x => decide (x < key.sort)) := by
                rw [hdc, hj, List.length_take, hmin]
              rw [hpos]
              refine pairwise_insert_count key.sort _ ?_ ?_
              · exact List.Pairwise.sublist (List.drop_sublist _ _)
                  ((sortedB_iff _).mp hsk)
              · intro hmem
                exact hnotin (List.Sublist.mem hmem (List.drop_sublist _ _))
            · rw [hparts.1, List.length_insertIdx _ _ hjdle, List.length_drop]
              omega
          · rw [hparts.1]
            simp only [BNode.getKeys]
            refine List.ne_nil_of_length_pos ?_
            rw [List.length_insertIdx _ _ hjdle]
            omega
      · -- insert into the left half
        have hside' : ltCount ks key ≤ ks.length / 2 := by
          rw [hj, List.length_take] at hside
          omega
        have htc : ((ks.map Key.sort).take (ks.length / 2)).countP
            (fun x => decide (x < key.sort)) = ltCount ks key := by
          have h6 := hcw
          conv_lhs at h6 => rw [← List.take_append_drop (ks.length / 2) (ks.map Key.sort)]
          rw [List.countP_append] at h6
          have hd0 : ((ks.map Key.sort).drop (ks.length / 2)).countP
              (fun x => decide (x < key.sort)) = 0 := by
            rw [List.countP_eq_zero]
            intro a ha
            rw [List.mem_iff_getElem] at ha
            obtain ⟨i, hi, hai⟩ := ha
            have hi3 : ks.length / 2 + i < ks.length := by
              have h3 := hi
              simp at h3
              omega
            have h4 := hbounds.2.2 (ks.length / 2 + i) (by omega) hi3
            have h7 : (ks.getD (ks.length / 2 + i) dfltKey).sort ≠ key.sort := by
              intro he
              refine hnotin ?_
              rw [← he, List.getD_eq_getElem _ _ hi3]
              exact List.mem_map_of_mem _ (by simp)
            have h5 : a = (ks.getD (ks.length / 2 + i) dfltKey).sort := by
              rw [← hai, List.getElem_drop, ← getD_map_sort ks _ hi3,
                List.getD_eq_getElem _ _ (by simpa using hi3)]
            rw [h5]
            simp only [decide_eq_true_eq, not_lt]
            omega
          rw [hd0] at h6
          omega
        rcases hins : insertInLeaf (ks.take (ks.length / 2))
            (vs.map (List.take (ks.length / 2)))
            ((-indexOfM ks key - 1).toNat) key value with ⟨lk', lv'⟩
        have hjtle : (-indexOfM ks key - 1).toNat ≤ (ks.take (ks.length / 2)).length := by
          rw [hj, List.length_take]
          omega
        have hparts := insertInLeaf_parts (ks.take (ks.length / 2))
          (vs.map (List.take (ks.length / 2))) s
          ((-indexOfM ks key - 1).toNat) key value hvst hjtle lk' lv' hins
        have hout : setLeaf ks vs s key value ow max =
            (.leaf lk' lv' s,
             .split (.leaf (ks.drop (ks.length / 2))
               (vs.map (List.drop (ks.length / 2))) false), true) := by
          unfold setLeaf
          dsimp only [splitOffRightSide]
          rw [if_pos hneg, if_neg hroom, if_neg hside, hins]
        rw [hout]
        refine ⟨?_, ?_, ?_, ?_, ?_⟩
        · intro _
          refine ⟨?_, rfl, rfl⟩
          show _ ++ (BNode.leaf (ks.drop (ks.length / 2))
            (vs.map (List.drop (ks.length / 2))) false).toList = _
          rw [hparts.2.2, hTLe, hTRe, hj, hIKV]
          exact insert_concat_left _ _ _ _ (by omega) (by omega)
        · intro hmem _
          exact absurd hmem hnotinL
        · intro hmem _
          exact absurd hmem hnotinL
        · rw [wfB_leaf_iff]
          refine ⟨?_, ?_, hparts.2.1⟩
          · rw [hparts.1, sortedB_iff,
              map_insertIdx Key.sort key (ks.take (ks.length / 2)) _, List.map_take]
            have hpos : (-indexOfM ks key - 1).toNat =
                ((ks.map Key.sort).take (ks.length / 2)).countP
                  (fun x => decide (x < key.sort)) := by
              rw [htc, hj]
            rw [hpos]
            refine pairwise_insert_count key.sort _ ?_ ?_
            · exact List.Pairwise.sublist (List.take_sublist _ _)
                ((sortedB_iff _).mp hsk)
            · intro hmem
              exact hnotin (List.Sublist.mem hmem (List.take_sublist _ _))
          · rw [hparts.1, List.length_insertIdx _ _ hjtle, List.length_take]
            omega
        · intro sib hsib
          injection hsib with hsib2
          subst hsib2
          constructor
          · rw [wfB_leaf_iff]
            refine ⟨?_, ?_, hvsd⟩
            · rw [sortedB_iff, List.map_drop]
              exact List.Pairwise.sublist (List.drop_sublist _ _)
                ((sortedB_iff _).mp hsk)
            · rw [List.length_drop]
              omega
          · simp only [BNode.getKeys]
            refine List.ne_nil_of_length_pos ?_
            rw [List.length_drop]
            omega
  · -- the key is present
    have hmem : key.sort ∈ ks.map Key.sort := by
      by_contra hnk
      exact hneg (by rw [(indexOfM_miss ks key hsk hnk).1]; omega)
    have hmemL : key.sort ∈ sortsOf (BNode.leaf ks vs s).toList := by
      rw [hsorts]
      exact hmem
    have hfound := indexOfM_found ks key hsk hmem
    have hjv : (indexOfM ks key).toNat = ltCount ks key := by
      rw [hfound.1]
      omega
    have hjlt : ltCount ks key < ks.length := hfound.2.1
    have hrepl : ∀ value',
        (ks.set (ltCount ks key) key).zip
          ((valsList vs ks.length).set (ltCount ks key) value') =
        replaceKV (BNode.leaf ks vs s).toList key value' := by
      intro value'
      rw [zip_set, ← toList_leaf]
      refine sorted_set_eq_replaceKV _ _ _ _ hLp (by omega) ?_
      rw [hLget (ltCount ks key) hjlt]
      exact hfound.2.2
    have hksset : (ks.set (ltCount ks key) key).map Key.sort = ks.map Key.sort := by
      rw [List.map_set]
      refine set_getD_self _ _ 0 _ (by simpa using hjlt) ?_
      rw [getD_map_sort ks _ hjlt]
      exact hfound.2.2
    by_cases how : ow = some false
    · have hout : setLeaf ks vs s key value ow max = (.leaf ks vs s, .done false, false) := by
        unfold setLeaf
        dsimp only
        rw [if_neg hneg, if_neg (by simp [how])]
      rw [hout]
      refine ⟨?_, ?_, ?_, hwf, ?_⟩
      · intro hnm
        exact absurd hmemL hnm
      · intro _ _
        exact ⟨rfl, rfl, rfl⟩
      · intro _ hownf
        exact absurd how hownf
      · intro sib hsib
        exact SetRes.noConfusion hsib
    · by_cases hvu : value = JSV.undef
      · subst hvu
        have hout : setLeaf ks vs s key JSV.undef ow max =
            (.leaf (ks.set (indexOfM ks key).toNat key)
              (vs.map (fun l => l.set (indexOfM ks key).toNat JSV.undef)) s,
             .done false, false) := by
          unfold setLeaf
          dsimp only
          rw [if_neg hneg, if_pos how, if_neg (by simp)]
        rw [hout, hjv]
        refine ⟨?_, ?_, ?_, ?_, ?_⟩
        · intro hnm
          exact absurd hmemL hnm
        · intro _ hof
          exact absurd hof how
        · intro _ _
          refine ⟨?_, rfl, rfl⟩
          rw [toList_leaf, List.length_set]
          cases vs with
          | none =>
            have heq : List.replicate ks.length JSV.undef =
                (List.replicate ks.length JSV.undef).set (ltCount ks key) JSV.undef :=
              List.set_replicate_self.symm
            show (ks.set (ltCount ks key) key).zip
              (List.replicate ks.length JSV.undef) = _
            rw [heq]
            exact hrepl JSV.undef
          | some l =>
            exact hrepl JSV.undef
        · rw [wfB_leaf_iff]
          refine ⟨?_, ?_, ?_⟩
          · rw [hksset]
            exact hsk
          · rw [List.length_set]
            exact hklen
          · intro l' hl'
            cases vs with
            | none => cases hl'
            | some l =>
              injection hl' with hl2
              rw [← hl2, List.length_set, List.length_set]
              exact hvs l rfl
        · intro sib hsib
          exact SetRes.noConfusion hsib
      · have hout : setLeaf ks vs s key value ow max =
            (.leaf (ks.set (indexOfM ks key).toNat key)
              (some ((reifyValues vs ks.length).set (indexOfM ks key).toNat value)) s,
             .done false, false) := by
          unfold setLeaf
          dsimp only
          rw [if_neg hneg, if_pos how, if_pos hvu]
        rw [hout, hjv]
        refine ⟨?_, ?_, ?_, ?_, ?_⟩
        · intro hnm
          exact absurd hmemL hnm
        · intro _ hof
          exact absurd hof how
        · intro _ _
          refine ⟨?_, rfl, rfl⟩
          rw [toList_leaf, List.length_set]
          exact hrepl value
        · rw [wfB_leaf_iff]
          refine ⟨?_, ?_, ?_⟩
          · rw [hksset]
            exact hsk
          · rw [List.length_set]
            exact hklen
          · intro l' hl'
            injection hl' with hl2
            rw [← hl2, List.length_set, List.length_set]
            exact hvll
        · intro sib hsib
          exact SetRes.noConfusion hsib

theorem toList_setShared (c : BNode) (b : Bool) : (c.setSharedB b).toList = c.toList := by
  cases c with
  | leaf ks vs s => rfl
  | internal ks cs s => rfl

theorem getKeys_setShared (c : BNode) (b : Bool) :
    (c.setSharedB b).getKeys = c.getKeys := by
  cases c with
  | leaf ks vs s => rfl
  | internal ks cs s => rfl

theorem maxKeyD_setShared (c : BNode) (b : Bool) :
    BNode.maxKeyD (c.setSharedB b) = BNode.maxKeyD c := by
  cases c with
  | leaf ks vs s => rfl
  | internal ks cs s => rfl

theorem height_setShared (c : BNode) (b : Bool) :
    (c.setSharedB b).height = c.height := by
  cases c with
  | leaf ks vs s => rfl
  | internal ks cs s => rfl

theorem wf_setShared (max : Nat) (c : BNode) (b : Bool) :
    wfB max (c.setSharedB b) = wfB max c := by
  cases c with
  | leaf ks vs s => rfl
  | internal ks cs s => rfl

theorem toListL_map_setShared (cs : List BNode) (b : Bool) :
    toListL (cs.map (fun c => c.setSharedB b)) = toListL cs := by
  induction cs with
  | nil => rfl
  | cons c rest ih =>
    rw [List.map_cons, toListL_cons, toListL_cons, toList_setShared, ih]

theorem cacheOkL_map_setShared (ks : List Key) (cs : List BNode) (b : Bool) :
    cacheOkL ks (cs.map (fun c => c.setSharedB b)) = cacheOkL ks cs := by
  induction ks generalizing cs with
  | nil =>
    cases cs with
    | nil => rfl
    | cons c rest => rfl
  | cons k kt ih =>
    cases cs with
    | nil => rfl
    | cons c rest =>
      rw [List.map_cons, cacheOkL.eq_def]
      conv_rhs => rw [cacheOkL.eq_def]
      simp only [getKeys_setShared, maxKeyD_setShared, ih rest]

theorem wfL_map_setShared (max : Nat) (cs : List BNode) (b : Bool) :
    wfL max (cs.map (fun c => c.setSharedB b)) = wfL max cs := by
  induction cs with
  | nil => rfl
  | cons c rest ih =>
    rw [List.map_cons, wfL.eq_def]
    conv_rhs => rw [wfL.eq_def]
    simp only [wf_setShared, ih]

theorem toList_clone (n : BNode) : (cloneNode n).toList = n.toList := by
  cases n with
  | leaf ks vs s => rfl
  | internal ks cs s =>
    rw [cloneNode]
    rw [toList_internal, toList_internal, toListL_map_setShared]

theorem wf_clone (max : Nat) (n : BNode) (hwf : wfB max n = true) :
    wfB max (cloneNode n) = true := by
  cases n with
  | leaf ks vs s =>
    rw [cloneNode]
    rw [wfB_leaf_iff] at hwf ⊢
    exact hwf
  | internal ks cs s =>
    rw [cloneNode]
    obtain ⟨hcs, hlen, hmax2, hcache, hwl, hsorted⟩ := (wfB_internal_iff max ks cs s).mp hwf
    have hkeep : applyMaxKeys ks (cs.map (fun c => c.setSharedB true)) = ks := by
      rw [applyMaxKeys, if_pos (by rw [List.length_map]; exact hlen)]
    rw [hkeep, wfB_internal_iff]
    refine ⟨by simpa using hcs, by simpa using hlen, by simpa using hmax2, ?_, ?_, ?_⟩
    · rw [cacheOkL_map_setShared]
      exact hcache
    · rw [wfL_map_setShared]
      exact hwl
    · rw [toListL_map_setShared]
      exact hsorted

theorem getKeys_clone_of_wf (max : Nat) (n : BNode) (hwf : wfB max n = true) :
    (cloneNode n).getKeys = n.getKeys := by
  cases n with
  | leaf ks vs s => rfl
  | internal ks cs s =>
    obtain ⟨hcs, hlen, hmax2, hcache, hwl, hsorted⟩ := (wfB_internal_iff max ks cs s).mp hwf
    rw [cloneNode]
    show applyMaxKeys ks (cs.map (fun c => c.setSharedB true)) = ks
    rw [applyMaxKeys, if_pos (by rw [List.length_map]; exact hlen)]

theorem toListL_set (cs : List BNode) (j : Nat) (c : BNode) (hj : j < cs.length) :
    toListL (cs.set j c) =
      toListL (cs.take j) ++ c.toList ++ toListL (cs.drop (j + 1)) := by
  rw [List.set_eq_take_cons_drop _ hj, toListL_append, toListL_cons]
  rw [List.append_assoc]

mutual

/-- Exact value alignment of a subtree: every materialized leaf holds exactly
one value per key.  `set` and its splits preserve this, but the `mergeSibling`
of a sentinel leaf with a materialized sibling does not (its `slice` bound
uses the already-extended key count), after which a sibling shift pushes the
moved value after the leftover slots. -/
def alignedB : BNode → Bool
  | .leaf ks vs _ =>
    match vs with
    | none => true
    | some l => ks.length = l.length
  | .internal _ cs _ => alignedL cs

/-- All children aligned. -/
def alignedL : List BNode → Bool
  | [] => true
  | c :: cs => alignedB c && alignedL cs

end

theorem alignedB_leaf_iff (ks : List Key) (vs : Option (List JSV)) (s : Bool) :
    alignedB (.leaf ks vs s) = true ↔ ∀ l, vs = some l → ks.length = l.length := by
  rw [alignedB.eq_def]
  cases vs with
  | none => simp
  | some l => simp

theorem alignedB_internal_iff (ks : List Key) (cs : List BNode) (s : Bool) :
    alignedB (.internal ks cs s) = true ↔ alignedL cs = true := by
  rw [alignedB.eq_def]

theorem alignedL_iff (cs : List BNode) :
    alignedL cs = true ↔ ∀ c ∈ cs, alignedB c = true := by
  induction cs with
  | nil => rw [alignedL.eq_def]; simp
  | cons c rest ih =>
    rw [alignedL.eq_def]
    simp [Bool.and_eq_true, ih]

theorem aligned_setShared (c : BNode) (b : Bool) :
    alignedB (c.setSharedB b) = alignedB c := by
  cases c with
  | leaf ks vs s => rfl
  | internal ks cs s => rfl

theorem alignedL_map_setShared (cs : List BNode) (b : Bool) :
    alignedL (cs.map (fun c => c.setSharedB b)) = alignedL cs := by
  induction cs with
  | nil => rfl
  | cons c rest ih =>
    rw [List.map_cons, alignedL.eq_def]
    conv_rhs => rw [alignedL.eq_def]
    simp only [aligned_setShared, ih]

theorem aligned_clone (n : BNode) (ha : alignedB n = true) :
    alignedB (cloneNode n) = true := by
  cases n with
  | leaf ks vs s => exact ha
  | internal ks cs s =>
    rw [cloneNode]
    rw [alignedB_internal_iff] at ha ⊢
    rw [alignedL_map_setShared]
    exact ha

theorem insertInLeaf_aligned (ks : List Key) (vs : Option (List JSV)) (j : Nat)
    (key : Key) (value : JSV)
    (ha : ∀ l, vs = some l → ks.length = l.length) (hj : j ≤ ks.length) :
    ∀ k' v', insertInLeaf ks vs j key value = (k', v') →
    ∀ l', v' = some l' → k'.length = l'.length := by
  intro k' v' h
  unfold insertInLeaf at h
  have hlen' : (ks.insertIdx j key).length = ks.length + 1 :=
    List.length_insertIdx _ _ hj
  cases vs with
  | none =>
    dsimp only at h
    by_cases hv : value = JSV.undef
    · rw [if_pos hv] at h
      injection h with h1 h2
      subst h1
      subst h2
      intro l' h'
      cases h'
    · rw [if_neg hv] at h
      injection h with h1 h2
      subst h1
      subst h2
      intro l' h'
      injection h' with h2
      rw [← h2, hlen', List.length_insertIdx _ _ (by simp; omega)]
      simp
  | some l =>
    dsimp only at h
    injection h with h1 h2
    subst h1
    subst h2
    intro l' h'
    injection h' with h2
    rw [← h2, hlen', List.length_insertIdx _ _ (by rw [← ha l rfl]; omega)]
    rw [ha l rfl]

theorem setLeaf_aligned (max : Nat) (ks : List Key) (vs : Option (List JSV)) (s : Bool)
    (key : Key) (value : JSV) (ow : Option Bool)
    (ha : alignedB (.leaf ks vs s) = true) (hj0 : (-indexOfM ks key - 1).toNat ≤ ks.length)
    (hjf : ¬indexOfM ks key < 0 → (indexOfM ks key).toNat < ks.length) :
    alignedB (setLeaf ks vs s key value ow max).1 = true ∧
    (∀ sib, (setLeaf ks vs s key value ow max).2.1 = .split sib →
      alignedB sib = true) := by
  rw [alignedB_leaf_iff] at ha
  by_cases hneg : indexOfM ks key < 0
  · by_cases hroom : ks.length < max
    · rcases hins : insertInLeaf ks vs ((-indexOfM ks key - 1).toNat) key value with ⟨k', v'⟩
      have hout : setLeaf ks vs s key value ow max = (.leaf k' v' s, .done true, true) := by
        unfold setLeaf
        dsimp only
        rw [if_pos hneg, if_pos hroom, hins]
      rw [hout]
      constructor
      · rw [alignedB_leaf_iff]
        exact insertInLeaf_aligned ks vs _ key value ha hj0 k' v' hins
      · intro sib hsib
        exact SetRes.noConfusion hsib
    · have hat : ∀ l, vs.map (List.take (ks.length / 2)) = some l →
          (ks.take (ks.length / 2)).length = l.length := by
        intro l hl
        cases vs with
        | none => cases hl
        | some l0 =>
          injection hl with hl2
          rw [← hl2, List.length_take, List.length_take, ha l0 rfl]
      have had : ∀ l, vs.map (List.drop (ks.length / 2)) = some l →
          (ks.drop (ks.length / 2)).length = l.length := by
        intro l hl
        cases vs with
        | none => cases hl
        | some l0 =>
          injection hl with hl2
          rw [← hl2, List.length_drop, List.length_drop, ha l0 rfl]
      by_cases hside : (-indexOfM ks key - 1).toNat > (ks.take (ks.length / 2)).length
      · rcases hins : insertInLeaf (ks.drop (ks.length / 2))
            (vs.map (List.drop (ks.length / 2)))
            ((-indexOfM ks key - 1).toNat - (ks.take (ks.length / 2)).length)
            key value with ⟨rk', rv'⟩
        have hout : setLeaf ks vs s key value ow max =
            (.leaf (ks.take (ks.length / 2)) (vs.map (List.take (ks.length / 2))) s,
             .split (.leaf rk' rv' false), true) := by
          unfold setLeaf
          dsimp only [splitOffRightSide]
          rw [if_pos hneg, if_neg hroom, if_pos hside, hins]
        rw [hout]
        constructor
        · rw [alignedB_leaf_iff]
          exact hat
        · intro sib hsib
          injection hsib with hsib2
          subst hsib2
          rw [alignedB_leaf_iff]
          refine insertInLeaf_aligned _ _ _ key value had ?_ rk' rv' hins
          rw [List.length_take, List.length_drop]
          omega
      · rcases hins : insertInLeaf (ks.take (ks.length / 2))
            (vs.map (List.take (ks.length / 2)))
            ((-indexOfM ks key - 1).toNat) key value with ⟨lk', lv'⟩
        have hout : setLeaf ks vs s key value ow max =
            (.leaf lk' lv' s,
             .split (.leaf (ks.drop (ks.length / 2))
               (vs.map (List.drop (ks.length / 2))) false), true) := by
          unfold setLeaf
          dsimp only [splitOffRightSide]
          rw [if_pos hneg, if_neg hroom, if_neg hside, hins]
        rw [hout]
        constructor
        · rw [alignedB_leaf_iff]
          refine insertInLeaf_aligned _ _ _ key value hat ?_ lk' lv' hins
          omega
        · intro sib hsib
          injection hsib with hsib2
          subst hsib2
          rw [alignedB_leaf_iff]
          exact had
  · have hjlt := hjf hneg
    by_cases how : ow = some false
    · have hout : setLeaf ks vs s key value ow max = (.leaf ks vs s, .done false, false) := by
        unfold setLeaf
        dsimp only
        rw [if_neg hneg, if_neg (by simp [how])]
      rw [hout]
      refine ⟨by rw [alignedB_leaf_iff]; exact ha, ?_⟩
      intro sib hsib
      exact SetRes.noConfusion hsib
    · by_cases hvu : value = JSV.undef
      · have hout : setLeaf ks vs s key value ow max =
            (.leaf (ks.set (indexOfM ks key).toNat key)
              (vs.map (fun l => l.set (indexOfM ks key).toNat value)) s,
             .done false, false) := by
          unfold setLeaf
          dsimp only
          rw [if_neg hneg, if_pos how, if_neg (by simp [hvu])]
        rw [hout]
        constructor
        · rw [alignedB_leaf_iff]
          intro l' hl'
          cases vs with
          | none => cases hl'
          | some l =>
            injection hl' with hl2
            rw [← hl2, List.length_set, List.length_set]
            exact ha l rfl
        · intro sib hsib
          exact SetRes.noConfusion hsib
      · have hout : setLeaf ks vs s key value ow max =
            (.leaf (ks.set (indexOfM ks key).toNat key)
              (some ((reifyValues vs ks.length).set (indexOfM ks key).toNat value)) s,
             .done false, false) := by
          unfold setLeaf
          dsimp only
          rw [if_neg hneg, if_pos how, if_pos hvu]
        rw [hout]
        constructor
        · rw [alignedB_leaf_iff]
          intro l' hl'
          injection hl' with hl2
          rw [← hl2, List.length_set, List.length_set]
          cases vs with
          | none => simp [reifyValues]
          | some l =>
            show ks.length = l.length
            exact ha l rfl
        · intro sib hsib
          exact SetRes.noConfusion hsib

theorem getLast?_cons_ne {α : Type} (a : α) (l : List α) (h : l ≠ []) :
    (a :: l).getLast? = l.getLast? := by
  cases l with
  | nil => exact absurd rfl h
  | cons b t => rw [List.getLast?_cons_cons]

theorem cacheOkL_cons (k : Key) (ks : List Key) (c : BNode) (cs : List BNode) :
    cacheOkL (k :: ks) (c :: cs) = true ↔
      c.getKeys ≠ [] ∧ k.sort = (BNode.maxKeyD c).sort ∧ cacheOkL ks cs = true := by
  rw [cacheOkL.eq_def]
  simp [Bool.and_eq_true, List.isEmpty_eq_false, and_assoc]

theorem cacheOkL_append_one (tk : List Key) (tcs : List BNode) (k0 : Key) (c0 : BNode)
    (h0 : c0.getKeys ≠ []) (h0' : k0.sort = (BNode.maxKeyD c0).sort) :
    ∀ hc : cacheOkL tk tcs = true,
    cacheOkL (tk ++ [k0]) (tcs ++ [c0]) = true := by
  induction tk generalizing tcs with
  | nil =>
    cases tcs with
    | nil =>
      intro _
      simp only [List.nil_append]
      exact (cacheOkL_cons k0 [] c0 []).mpr ⟨h0, h0', rfl⟩
    | cons c rest =>
      intro hc
      rw [cacheOkL.eq_def] at hc
      cases hc
  | cons k kt ih =>
    cases tcs with
    | nil =>
      intro hc
      rw [cacheOkL.eq_def] at hc
      cases hc
    | cons c rest =>
      intro hc
      obtain ⟨h1, h2, h3⟩ := (cacheOkL_cons k kt c rest).mp hc
      simp only [List.cons_append]
      exact (cacheOkL_cons k (kt ++ [k0]) c (rest ++ [c0])).mpr ⟨h1, h2, ih rest h3⟩

theorem toList_leaf_reify (ks : List Key) (vs : Option (List JSV)) (s : Bool) :
    (BNode.leaf ks vs s).toList = ks.zip (reifyValues vs ks.length) := by
  rw [toList_leaf]
  cases vs with
  | none => rfl
  | some l => rfl

theorem takeFromRight_spec (H max : Nat) (other child : BNode)
    (hho : other.height < H) (hhc : child.height < H)
    (hwo : wfB max other = true) (hwc : wfB max child = true)
    (hao : alignedB other = true) (hac : alignedB child = true)
    (hfull : max ≤ child.getKeys.length) (hroom : other.getKeys.length < max)
    (hmax : 2 ≤ max) (hone : other.getKeys ≠ [])
    (hcross : ∀ x ∈ sortsOf other.toList, ∀ y ∈ sortsOf child.toList, x < y) :
    ∀ o2 c2, takeFromRight other child = (o2, c2) →
    o2.toList ++ c2.toList = other.toList ++ child.toList ∧
    wfB max o2 = true ∧ wfB max c2 = true ∧
    alignedB o2 = true ∧ alignedB c2 = true ∧
    c2.getKeys ≠ [] ∧
    (BNode.maxKeyD c2).sort = (BNode.maxKeyD child).sort ∧
    o2.getKeys ≠ [] ∧
    (∀ x ∈ sortsOf o2.toList,
      x ∈ sortsOf other.toList ∨ x ≤ (child.getKeys.headD dfltKey).sort) ∧
    c2.height ≤ child.height := by
  have hckne : child.getKeys ≠ [] := by
    intro hk
    rw [hk] at hfull
    simp at hfull
    omega
  have hidfacts :
      other.toList ++ child.toList = other.toList ++ child.toList ∧
      wfB max other = true ∧ wfB max child = true ∧
      alignedB other = true ∧ alignedB child = true ∧
      child.getKeys ≠ [] ∧
      (BNode.maxKeyD child).sort = (BNode.maxKeyD child).sort ∧
      other.getKeys ≠ [] ∧
      (∀ x ∈ sortsOf other.toList,
        x ∈ sortsOf other.toList ∨ x ≤ (child.getKeys.headD dfltKey).sort) ∧
      child.height ≤ child.height :=
    ⟨rfl, hwo, hwc, hao, hac, hckne, rfl, hone, fun x hx => Or.inl hx, le_refl _⟩
  intro o2 c2 hout
  cases other with
  | leaf tk tv ts =>
    cases child with
    | leaf cks cvs csh =>
      cases cks with
      | nil =>
        simp only [takeFromRight] at hout
        injection hout with h1 h2
        subst h1
        subst h2
        exact hidfacts
      | cons ck0 ckr =>
        obtain ⟨hsko, hklo, hvso⟩ := (wfB_leaf_iff max tk tv ts).mp hwo
        obtain ⟨hskc, hklc, hvsc⟩ := (wfB_leaf_iff max (ck0 :: ckr) cvs csh).mp hwc
        have hao' := (alignedB_leaf_iff tk tv ts).mp hao
        have hac' := (alignedB_leaf_iff (ck0 :: ckr) cvs csh).mp hac
        have hcfull : max ≤ (ck0 :: ckr).length := by
          simpa [BNode.getKeys] using hfull
        have hor : tk.length < max := by
          simpa [BNode.getKeys] using hroom
        have hsortso := sortsOf_toList_leaf tk tv ts hvso
        have hsortsc := sortsOf_toList_leaf (ck0 :: ckr) cvs csh hvsc
        have hck0mem : ck0.sort ∈ sortsOf (BNode.leaf (ck0 :: ckr) cvs csh).toList := by
          rw [hsortsc]
          simp
        have htklt : ∀ a ∈ tk.map Key.sort, a < ck0.sort := by
          intro a ha
          refine hcross a ?_ ck0.sort hck0mem
          rw [hsortso]
          exact ha
        have hsortnew : sortedB ((tk ++ [ck0]).map Key.sort) = true := by
          rw [List.map_append, sortedB_iff]
          refine List.pairwise_append.mpr ⟨(sortedB_iff _).mp hsko, by simp, ?_⟩
          intro a ha b hb
          simp only [List.map_cons, List.map_nil, List.mem_singleton] at hb
          subst hb
          exact htklt a ha
        have hsortc2 : sortedB (ckr.map Key.sort) = true := by
          rw [sortedB_iff]
          have h2 := (sortedB_iff _).mp hskc
          rw [List.map_cons] at h2
          exact h2.tail
        have hckrne : ckr ≠ [] := by
          refine List.ne_nil_of_length_pos ?_
          have h3 : (ck0 :: ckr).length = ckr.length + 1 := by simp
          omega
        have hmaxeq : (BNode.maxKeyD (BNode.leaf ckr (none : Option (List JSV)) csh)) =
            BNode.maxKeyD (BNode.leaf (ck0 :: ckr) cvs csh) := by
          rw [maxKeyD_leaf, maxKeyD_leaf, getLast?_cons_ne ck0 ckr hckrne]
        have hc6gen : ∀ (ol : List (Key × JSV)),
            ol = (BNode.leaf tk tv ts).toList ++ [(ck0, (JSV.undef))] ∨ True →
            True := fun _ _ => trivial
        simp only [takeFromRight] at hout
        cases cvs with
        | none =>
          injection hout with h1 h2
          subst h1
          subst h2
          have hcont : (BNode.leaf (tk ++ [ck0])
              (tv.map (fun l => l ++ [JSV.undef])) ts).toList =
              (BNode.leaf tk tv ts).toList ++ [(ck0, JSV.undef)] := by
            cases tv with
            | none =>
              rw [toList_leaf, toList_leaf]
              show (tk ++ [ck0]).zip (valsList none (tk ++ [ck0]).length) = _
              have hl1 : (tk ++ [ck0]).length = tk.length + 1 := by simp
              rw [hl1]
              show (tk ++ [ck0]).zip (List.replicate (tk.length + 1) JSV.undef) = _
              rw [List.replicate_succ', List.zip_append (by simp)]
              rfl
            | some lv =>
              have hlv : tk.length = lv.length := hao' lv rfl
              rw [toList_leaf, toList_leaf]
              show (tk ++ [ck0]).zip (lv ++ [JSV.undef]) = _
              rw [List.zip_append hlv]
              rfl
          have hcontc : (BNode.leaf (ck0 :: ckr) (none : Option (List JSV)) csh).toList =
              (ck0, JSV.undef) :: (BNode.leaf ckr (none : Option (List JSV)) csh).toList := by
            rw [toList_leaf, toList_leaf]
            show (ck0 :: ckr).zip (List.replicate (ckr.length + 1) JSV.undef) = _
            rw [List.replicate_succ]
            rfl
          refine ⟨?_, ?_, ?_, ?_, ?_, ?_, ?_, ?_, ?_, ?_⟩
          · rw [hcont, hcontc, List.append_assoc]
            rfl
          · rw [wfB_leaf_iff]
            refine ⟨hsortnew, by simp; omega, ?_⟩
            intro l hl
            cases tv with
            | none => cases hl
            | some lv =>
              injection hl with hl2
              rw [← hl2]
              have := hvso lv rfl
              simp
              omega
          · rw [wfB_leaf_iff]
            exact ⟨hsortc2, by simp at hklc; omega, fun l hl => by cases hl⟩
          · rw [alignedB_leaf_iff]
            intro l hl
            cases tv with
            | none => cases hl
            | some lv =>
              injection hl with hl2
              rw [← hl2]
              have := hao' lv rfl
              simp
              omega
          · rw [alignedB_leaf_iff]
            intro l hl
            cases hl
          · simpa [BNode.getKeys] using hckrne
          · rw [hmaxeq]
          · simp [BNode.getKeys]
          · intro x hx
            rw [hcont, sortsOf_append] at hx
            rcases List.mem_append.mp hx with h | h
            · exact Or.inl h
            · right
              simp only [sortsOf, List.map_cons, List.map_nil, List.mem_singleton] at h
              subst h
              simp [BNode.getKeys]
          · simp [BNode.height]
        | some rvl =>
          cases rvl with
          | nil =>
            exact absurd (hac' [] rfl) (by simp)
          | cons rv0 rvt =>
            injection hout with h1 h2
            subst h1
            subst h2
            have hrvt : rvt.length = ckr.length := by
              have h3 := hac' (rv0 :: rvt) rfl
              simp at h3
              omega
            have hreiflen : (reifyValues tv tk.length).length = tk.length := by
              cases tv with
              | none => simp [reifyValues]
              | some lv => rw [reifyValues, ← hao' lv rfl]
            have hcont : (BNode.leaf (tk ++ [ck0])
                (some (reifyValues tv tk.length ++ [(rv0 :: rvt).headD JSV.undef])) ts).toList =
                (BNode.leaf tk tv ts).toList ++ [(ck0, rv0)] := by
              rw [toList_leaf, toList_leaf_reify tk tv ts]
              show (tk ++ [ck0]).zip
                (reifyValues tv tk.length ++ [(rv0 :: rvt).headD JSV.undef]) = _
              rw [List.zip_append hreiflen.symm]
              rfl
            have hcontc : (BNode.leaf (ck0 :: ckr) (some (rv0 :: rvt)) csh).toList =
                (ck0, rv0) :: (BNode.leaf ckr (some (rv0 :: rvt).tail) csh).toList := by
              rw [toList_leaf, toList_leaf]
              rfl
            refine ⟨?_, ?_, ?_, ?_, ?_, ?_, ?_, ?_, ?_, ?_⟩
            · rw [hcont, hcontc, List.append_assoc]
              rfl
            · rw [wfB_leaf_iff]
              refine ⟨hsortnew, by simp; omega, ?_⟩
              intro l hl
              injection hl with hl2
              rw [← hl2]
              simp
              omega
            · rw [wfB_leaf_iff]
              refine ⟨hsortc2, by simp at hklc; omega, ?_⟩
              intro l hl
              injection hl with hl2
              rw [← hl2]
              show ckr.length ≤ rvt.length
              omega
            · rw [alignedB_leaf_iff]
              intro l hl
              injection hl with hl2
              rw [← hl2]
              simp
              omega
            · rw [alignedB_leaf_iff]
              intro l hl
              injection hl with hl2
              rw [← hl2]
              show ckr.length = rvt.length
              omega
            · simpa [BNode.getKeys] using hckrne
            · rw [maxKeyD_leaf, maxKeyD_leaf, getLast?_cons_ne ck0 ckr hckrne]
            · simp [BNode.getKeys]
            · intro x hx
              rw [hcont, sortsOf_append] at hx
              rcases List.mem_append.mp hx with h | h
              · exact Or.inl h
              · right
                simp only [sortsOf, List.map_cons, List.map_nil, List.mem_singleton] at h
                subst h
                simp [BNode.getKeys]
            · simp [BNode.height]
    | internal cks ccs csh =>
      simp only [takeFromRight] at hout
      injection hout with h1 h2
      subst h1
      subst h2
      exact hidfacts
  | internal tk tcs ts =>
    cases child with
    | leaf cks cvs csh =>
      simp only [takeFromRight] at hout
      injection hout with h1 h2
      subst h1
      subst h2
      exact hidfacts
    | internal cks ccs csh =>
      cases cks with
      | nil =>
        simp only [takeFromRight] at hout
        injection hout with h1 h2
        subst h1
        subst h2
        exact hidfacts
      | cons ck0 ckr =>
        cases ccs with
        | nil =>
          simp only [takeFromRight] at hout
          injection hout with h1 h2
          subst h1
          subst h2
          exact hidfacts
        | cons cc0 ccr =>
          simp only [takeFromRight] at hout
          injection hout with h1 h2
          subst h1
          subst h2
          obtain ⟨hcso, hlo, hmo, hco, hwlo, hso⟩ :=
            (wfB_internal_iff max tk tcs ts).mp hwo
          obtain ⟨hcsc, hlc, hmc, hcc, hwlc, hsc⟩ :=
            (wfB_internal_iff max (ck0 :: ckr) (cc0 :: ccr) csh).mp hwc
          obtain ⟨hcc0ne, hcc0max, hcctail⟩ := (cacheOkL_cons ck0 ckr cc0 ccr).mp hcc
          have hwcc0 : wfB max cc0 = true := (wfL_iff max (cc0 :: ccr)).mp hwlc cc0 (by simp)
          have hacc := (alignedB_internal_iff (ck0 :: ckr) (cc0 :: ccr) csh).mp hac
          have haco := (alignedB_internal_iff tk tcs ts).mp hao
          have hacc0 : alignedB cc0 = true := (alignedL_iff _).mp hacc cc0 (by simp)
          have hacctail : alignedL ccr = true := by
            rw [alignedL.eq_def] at hacc
            simp only [Bool.and_eq_true] at hacc
            exact hacc.2
          have hcfull : max ≤ (ck0 :: ckr).length := by
            simpa [BNode.getKeys] using hfull
          have hor : tk.length < max := by
            simpa [BNode.getKeys] using hroom
          have hckrne : ckr ≠ [] := by
            refine List.ne_nil_of_length_pos ?_
            have h3 : (ck0 :: ckr).length = ckr.length + 1 := by simp
            omega
          have hccrne : ccr ≠ [] := by
            refine List.ne_nil_of_length_pos ?_
            have h3 : (cc0 :: ccr).length = ccr.length + 1 := by simp
            omega
          have hcc0h : cc0.height < H := by
            have h4 := height_child_lt cc0 (ck0 :: ckr) (cc0 :: ccr) csh (by simp)
            omega
          have hcontc : (BNode.internal (ck0 :: ckr) (cc0 :: ccr) csh).toList =
              cc0.toList ++ (BNode.internal ckr ccr csh).toList := by
            rw [toList_internal, toList_internal, toListL_cons]
          have hconto : (BNode.internal (tk ++ [ck0]) (tcs ++ [cc0]) ts).toList =
              (BNode.internal tk tcs ts).toList ++ cc0.toList := by
            rw [toList_internal, toList_internal, toListL_append, toListL_cons, toListL]
            rw [List.append_nil]
          have hsortsnew : sortedB (sortsOf (toListL (tcs ++ [cc0]))) = true := by
            rw [sortedB_iff]
            have h5 : toListL (tcs ++ [cc0]) = toListL tcs ++ cc0.toList := by
              rw [toListL_append, toListL_cons, toListL, List.append_nil]
            rw [h5, sortsOf_append]
            refine List.pairwise_append.mpr ⟨(sortedB_iff _).mp hso, ?_, ?_⟩
            · have h6 := (sortedB_iff _).mp hsc
              rw [toListL_cons, sortsOf_append] at h6
              exact (List.pairwise_append.mp h6).1
            · intro a ha b hb
              refine hcross a (by rw [toList_internal]; exact ha) b ?_
              rw [toList_internal, toListL_cons, sortsOf_append]
              exact List.mem_append_left _ hb
          refine ⟨?_, ?_, ?_, ?_, ?_, ?_, ?_, ?_, ?_, ?_⟩
          · rw [hconto, hcontc, List.append_assoc]
          · rw [wfB_internal_iff]
            refine ⟨by simp, by simp; omega, by simp; omega, ?_, ?_, hsortsnew⟩
            · exact cacheOkL_append_one tk tcs ck0 cc0 hcc0ne hcc0max hco
            · rw [wfL_iff]
              intro c hc
              rcases List.mem_append.mp hc with h | h
              · exact (wfL_iff max tcs).mp hwlo c h
              · rw [List.mem_singleton] at h
                subst h
                exact hwcc0
          · rw [wfB_internal_iff]
            refine ⟨hccrne, by simp at hlc ⊢; omega, by simp at hmc ⊢; omega,
              hcctail, ?_, ?_⟩
            · rw [wfL_iff]
              intro c hc
              exact (wfL_iff max (cc0 :: ccr)).mp hwlc c (by simp [hc])
            · rw [sortedB_iff]
              have h6 := (sortedB_iff _).mp hsc
              rw [toListL_cons, sortsOf_append] at h6
              exact (List.pairwise_append.mp h6).2.1
          · rw [alignedB_internal_iff, alignedL_iff]
            intro c hc
            rcases List.mem_append.mp hc with h | h
            · exact (alignedL_iff tcs).mp haco c h
            · rw [List.mem_singleton] at h
              subst h
              exact hacc0
          · rw [alignedB_internal_iff]
            exact hacctail
          · simpa [BNode.getKeys] using hckrne
          · rw [maxKeyD_internal, maxKeyD_internal, getLast?_cons_ne ck0 ckr hckrne]
          · simp [BNode.getKeys]
          · intro x hx
            rw [hconto, sortsOf_append] at hx
            rcases List.mem_append.mp hx with h | h
            · exact Or.inl h
            · right
              have h7 := mem_toList_le_max H cc0 max hcc0h hwcc0 hcc0ne x h
              show x ≤ ((ck0 :: ckr).headD dfltKey).sort
              rw [List.headD_cons]
              omega
          · rw [BNode.height, BNode.height]
            have h8 : heightL ccr ≤ heightL (cc0 :: ccr) := by
              rw [heightL]
              omega
            omega

theorem heightL_map_setShared (cs : List BNode) (b : Bool) :
    heightL (cs.map (fun c => c.setSharedB b)) = heightL cs := by
  induction cs with
  | nil => rfl
  | cons c rest ih =>
    rw [List.map_cons, heightL, heightL, height_setShared, ih]

theorem height_clone (n : BNode) : (cloneNode n).height = n.height := by
  cases n with
  | leaf ks vs s => rfl
  | internal ks cs s =>
    rw [cloneNode, BNode.height, BNode.height, heightL_map_setShared]

theorem getD_set_self {α : Type} (l : List α) (i : Nat) (a d : α) (hi : i < l.length) :
    (l.set i a).getD i d = a := by
  rw [List.getD_eq_getElem _ _ (by simpa using hi), List.getElem_set, if_pos rfl]

theorem getD_set_ne {α : Type} (l : List α) (i j : Nat) (a d : α) (hij : i ≠ j) :
    (l.set i a).getD j d = l.getD j d := by
  by_cases hj : j < l.length
  · rw [List.getD_eq_getElem _ _ (by simpa using hj), List.getElem_set, if_neg hij,
      List.getD_eq_getElem _ _ hj]
  · rw [List.getD_eq_default _ _ (by simpa using hj), List.getD_eq_default _ _ (by omega)]

theorem drop_eq_getD_cons {α : Type} (l : List α) (i : Nat) (d : α) (hi : i < l.length) :
    l.drop i = l.getD i d :: l.drop (i + 1) := by
  rw [List.drop_eq_getElem_cons hi, List.getD_eq_getElem _ _ hi]

theorem mem_sortsOf_take (l : List BNode) (m : Nat) (x : Int)
    (hx : x ∈ sortsOf (toListL (l.take m))) :
    ∃ j, j < m ∧ j < l.length ∧ x ∈ sortsOf (l.getD j dfltNode).toList := by
  rw [mem_sortsOf_toListL] at hx
  obtain ⟨j, hj, hxj⟩ := hx
  have hjm : j < m ∧ j < l.length := by
    simp at hj
    omega
  refine ⟨j, hjm.1, hjm.2, ?_⟩
  have hgd : (l.take m).getD j dfltNode = l.getD j dfltNode := by
    rw [List.getD_eq_getElem _ _ hj, List.getElem_take, List.getD_eq_getElem _ _ hjm.2]
  rw [← hgd]
  exact hxj

theorem mem_sortsOf_drop (l : List BNode) (m : Nat) (x : Int)
    (hx : x ∈ sortsOf (toListL (l.drop m))) :
    ∃ j, m ≤ j ∧ j < l.length ∧ x ∈ sortsOf (l.getD j dfltNode).toList := by
  rw [mem_sortsOf_toListL] at hx
  obtain ⟨j, hj, hxj⟩ := hx
  have hjm : m + j < l.length := by
    simp at hj
    omega
  refine ⟨m + j, by omega, hjm, ?_⟩
  have hgd : (l.drop m).getD j dfltNode = l.getD (m + j) dfltNode := by
    rw [List.getD_eq_getElem _ _ hj, List.getElem_drop, List.getD_eq_getElem _ _ hjm]
  rw [← hgd]
  exact hxj

theorem shiftStep_spec (H max : Nat) (ks : List Key) (cs : List BNode) (s : Bool)
    (key : Key) (i : Nat)
    (hh : (BNode.internal ks cs s).height < H)
    (hwf : wfB max (.internal ks cs s) = true)
    (ha : alignedB (.internal ks cs s) = true)
    (hmax : 2 ≤ max)
    (hi : i = min (indexOf0 ks key) (cs.length - 1)) :
    ∀ child1 ks2 cs2 child2,
    child1 = (if (cs.getD i dfltNode).isNodeShared then cloneNode (cs.getD i dfltNode)
              else cs.getD i dfltNode) →
    shiftStep ks (cs.set i child1) child1 i key max = (ks2, cs2, child2) →
    ks2.length = ks.length ∧ cs2.length = cs.length ∧
    cs2.getD i dfltNode = child2 ∧
    toListL cs2 = toListL cs ∧
    wfB max child2 = true ∧ alignedB child2 = true ∧
    child2.height ≤ (cs.getD i dfltNode).height ∧
    cacheOkL ks2 cs2 = true ∧ wfL max cs2 = true ∧ alignedL cs2 = true ∧
    (∀ x ∈ sortsOf (toListL (cs2.take i)), x < key.sort) ∧
    (∀ x ∈ sortsOf (toListL (cs2.drop (i + 1))), key.sort < x) := by
  obtain ⟨hcs, hlen, hmx, hcache, hwl, hsorted⟩ := (wfB_internal_iff max ks cs s).mp hwf
  have hal := (alignedB_internal_iff ks cs s).mp ha
  have hcac := (cacheOkL_iff ks cs).mp hcache
  have hks := ks_sorted_of_wf H max ks cs s hh hwf
  have hlen0 : 0 < cs.length := List.length_pos.mpr hcs
  have hilt : i < cs.length := by
    rw [hi]
    omega
  have hwc0 : wfB max (cs.getD i dfltNode) = true :=
    (wfL_iff max cs).mp hwl _ (getD_mem cs i hilt)
  have hac0 : alignedB (cs.getD i dfltNode) = true :=
    (alignedL_iff cs).mp hal _ (getD_mem cs i hilt)
  have hch0h : (cs.getD i dfltNode).height < H := by
    have h1 := height_child_lt (cs.getD i dfltNode) ks cs s (getD_mem cs i hilt)
    omega
  intro child1 ks2 cs2 child2 hch1 hss
  have hch1f : child1.toList = (cs.getD i dfltNode).toList ∧ wfB max child1 = true ∧
      alignedB child1 = true ∧ child1.getKeys = (cs.getD i dfltNode).getKeys ∧
      child1.height = (cs.getD i dfltNode).height := by
    by_cases hsh : (cs.getD i dfltNode).isNodeShared
    · rw [if_pos hsh] at hch1
      rw [hch1]
      exact ⟨toList_clone _, wf_clone _ _ hwc0, aligned_clone _ hac0,
        getKeys_clone_of_wf max _ hwc0, height_clone _⟩
    · rw [if_neg hsh] at hch1
      rw [hch1]
      exact ⟨rfl, hwc0, hac0, rfl, rfl⟩
  obtain ⟨hch1t, hch1w, hch1a, hch1k, hch1h⟩ := hch1f
  have hch1m : BNode.maxKeyD child1 = BNode.maxKeyD (cs.getD i dfltNode) := by
    rw [BNode.maxKeyD, BNode.maxKeyD, BNode.maxKey, BNode.maxKey, hch1k]
  have hwinL : ∀ j, j < i → ∀ x ∈ sortsOf (cs.getD j dfltNode).toList, x < key.sort := by
    intro j hj
    refine child_window_left H max ks cs s key hh hwf j ?_ (by omega)
    rw [hi] at hj
    omega
  have hwinR : ∀ j, i < j → j < cs.length →
      ∀ x ∈ sortsOf (cs.getD j dfltNode).toList, key.sort < x := by
    intro j hj1 hj2
    refine (child_window H max ks cs s key hh hwf).2 j ?_ hj2
    rw [← hlen] at hi ⊢
    rw [← hi]
    exact hj1
  have hTL1 : toListL (cs.set i child1) = toListL cs := by
    rw [toListL_set cs i child1 hilt, hch1t, ← toListL_decompose cs i hilt]
  have hcok1 : cacheOkL ks (cs.set i child1) = true := by
    rw [cacheOkL_iff]
    refine ⟨by simp [hlen], ?_⟩
    intro j hj
    rw [List.length_set] at hj
    by_cases hji : j = i
    · subst hji
      rw [getD_set_self _ _ _ _ hilt]
      refine ⟨by rw [hch1k]; exact (hcac.2 j hj).1, by rw [hch1m]; exact (hcac.2 j hj).2⟩
    · rw [getD_set_ne _ _ _ _ _ (fun he => hji he.symm)]
      exact hcac.2 j hj
  have hwl1 : wfL max (cs.set i child1) = true := by
    rw [wfL_iff]
    intro c hc
    rcases List.mem_or_eq_of_mem_set hc with h | h
    · exact (wfL_iff max cs).mp hwl c h
    · rw [h]
      exact hch1w
  have hal1 : alignedL (cs.set i child1) = true := by
    rw [alignedL_iff]
    intro c hc
    rcases List.mem_or_eq_of_mem_set hc with h | h
    · exact (alignedL_iff cs).mp hal c h
    · rw [h]
      exact hch1a
  have hwintake1 : ∀ x ∈ sortsOf (toListL ((cs.set i child1).take i)), x < key.sort := by
    intro x hx
    obtain ⟨j, hj1, hj2, hj3⟩ := mem_sortsOf_take _ _ _ hx
    rw [List.length_set] at hj2
    rw [getD_set_ne _ _ _ _ _ (by omega)] at hj3
    exact hwinL j hj1 x hj3
  have hwindrop1 : ∀ x ∈ sortsOf (toListL ((cs.set i child1).drop (i + 1))),
      key.sort < x := by
    intro x hx
    obtain ⟨j, hj1, hj2, hj3⟩ := mem_sortsOf_drop _ _ _ hx
    rw [List.length_set] at hj2
    rw [getD_set_ne _ _ _ _ _ (by omega)] at hj3
    exact hwinR j (by omega) hj2 x hj3
  have hidc : ∀ (h1 : ks = ks2) (h2 : cs.set i child1 = cs2) (h3 : child1 = child2),
      ks2.length = ks.length ∧ cs2.length = cs.length ∧
      cs2.getD i dfltNode = child2 ∧
      toListL cs2 = toListL cs ∧
      wfB max child2 = true ∧ alignedB child2 = true ∧
      child2.height ≤ (cs.getD i dfltNode).height ∧
      cacheOkL ks2 cs2 = true ∧ wfL max cs2 = true ∧ alignedL cs2 = true ∧
      (∀ x ∈ sortsOf (toListL (cs2.take i)), x < key.sort) ∧
      (∀ x ∈ sortsOf (toListL (cs2.drop (i + 1))), key.sort < x) := by
    intro h1 h2 h3
    subst h1
    subst h2
    subst h3
    exact ⟨rfl, by simp, getD_set_self _ _ _ _ hilt, hTL1, hch1w, hch1a,
      le_of_eq hch1h, hcok1, hwl1, hal1, hwintake1, hwindrop1⟩
  unfold shiftStep at hss
  by_cases hfull : max ≤ child1.getKeys.length
  · rw [if_pos hfull] at hss
    by_cases hg1 : 0 < i ∧ ((cs.set i child1).getD (i-1) dfltNode).getKeys.length < max ∧
        cmpK (child1.getKeys.headD dfltKey) key < 0
    · rw [if_pos hg1] at hss
      dsimp only at hss
      have hoth0 : (cs.set i child1).getD (i-1) dfltNode = cs.getD (i-1) dfltNode :=
        getD_set_ne _ _ _ _ _ (by omega)
      rw [hoth0] at hss hg1
      have hipos : 0 < i := hg1.1
      have hi1lt : i - 1 < cs.length := by omega
      have hwo0 : wfB max (cs.getD (i-1) dfltNode) = true :=
        (wfL_iff max cs).mp hwl _ (getD_mem cs (i-1) hi1lt)
      have hao0 : alignedB (cs.getD (i-1) dfltNode) = true :=
        (alignedL_iff cs).mp hal _ (getD_mem cs (i-1) hi1lt)
      have hoh0 : (cs.getD (i-1) dfltNode).height < H := by
        have h1 := height_child_lt (cs.getD (i-1) dfltNode) ks cs s (getD_mem cs (i-1) hi1lt)
        omega
      rcases htr : takeFromRight
          (if (cs.getD (i-1) dfltNode).isNodeShared then cloneNode (cs.getD (i-1) dfltNode)
           else cs.getD (i-1) dfltNode) child1 with ⟨o2, c2⟩
      have hothf : (if (cs.getD (i-1) dfltNode).isNodeShared
            then cloneNode (cs.getD (i-1) dfltNode)
            else cs.getD (i-1) dfltNode).toList = (cs.getD (i-1) dfltNode).toList ∧
          wfB max (if (cs.getD (i-1) dfltNode).isNodeShared
            then cloneNode (cs.getD (i-1) dfltNode)
            else cs.getD (i-1) dfltNode) = true ∧
          alignedB (if (cs.getD (i-1) dfltNode).isNodeShared
            then cloneNode (cs.getD (i-1) dfltNode)
            else cs.getD (i-1) dfltNode) = true ∧
          (if (cs.getD (i-1) dfltNode).isNodeShared
            then cloneNode (cs.getD (i-1) dfltNode)
            else cs.getD (i-1) dfltNode).getKeys = (cs.getD (i-1) dfltNode).getKeys ∧
          (if (cs.getD (i-1) dfltNode).isNodeShared
            then cloneNode (cs.getD (i-1) dfltNode)
            else cs.getD (i-1) dfltNode).height = (cs.getD (i-1) dfltNode).height := by
        by_cases hsh : (cs.getD (i-1) dfltNode).isNodeShared
        · rw [if_pos hsh]
          exact ⟨toList_clone _, wf_clone _ _ hwo0, aligned_clone _ hao0,
            getKeys_clone_of_wf max _ hwo0, height_clone _⟩
        · rw [if_neg hsh]
          exact ⟨rfl, hwo0, hao0, rfl, rfl⟩
      obtain ⟨hot, how2, hoa, hok, hohh⟩ := hothf
      have hcross : ∀ x ∈ sortsOf (if (cs.getD (i-1) dfltNode).isNodeShared
            then cloneNode (cs.getD (i-1) dfltNode)
            else cs.getD (i-1) dfltNode).toList,
          ∀ y ∈ sortsOf child1.toList, x < y := by
        rw [hot, hch1t]
        exact cross_lt cs ((sortedB_iff _).mp hsorted) (i-1) i (by omega) hilt
      have hone : (if (cs.getD (i-1) dfltNode).isNodeShared
            then cloneNode (cs.getD (i-1) dfltNode)
            else cs.getD (i-1) dfltNode).getKeys ≠ [] := by
        rw [hok]
        exact (hcac.2 (i-1) hi1lt).1
      have hspec := takeFromRight_spec H max _ child1
        (by rw [hohh]; exact hoh0) (by rw [hch1h]; exact hch0h)
        how2 hch1w hoa hch1a hfull
        (by rw [hok]; exact hg1.2.1) hmax hone hcross o2 c2 htr
      obtain ⟨hc1, hc2w, hc3w, hc4a, hc5a, hc6ne, hc7m, hc8ne, hc9mem, hc10h⟩ := hspec
      rw [htr] at hss
      dsimp only at hss
      injection hss with e1 e23
      injection e23 with e2 e3
      subst e1
      subst e2
      subst e3
      have hkill : ((cs.set i child1).set (i-1) o2).set i c2 = (cs.set (i-1) o2).set i c2 := by
        rw [List.set_comm child1 o2 cs (by omega), List.set_set]
      have hgdi : (((cs.set i child1).set (i-1) o2).set i c2).getD i dfltNode = c2 := by
        rw [hkill]
        exact getD_set_self _ _ _ _ (by simp; omega)
      have hgdi1 : ∀ j, j ≠ i → j ≠ i - 1 →
          (((cs.set i child1).set (i-1) o2).set i c2).getD j dfltNode =
            cs.getD j dfltNode := by
        intro j hj1 hj2
        rw [hkill, getD_set_ne _ _ _ _ _ (fun he => hj1 he.symm),
          getD_set_ne _ _ _ _ _ (fun he => hj2 he.symm)]
      have hgdim : (((cs.set i child1).set (i-1) o2).set i c2).getD (i-1) dfltNode = o2 := by
        rw [hkill, getD_set_ne _ _ _ _ _ (by omega)]
        exact getD_set_self _ _ _ _ hi1lt
      have hTLold : toListL cs = toListL (cs.take (i-1)) ++
          ((cs.getD (i-1) dfltNode).toList ++
            ((cs.getD i dfltNode).toList ++ toListL (cs.drop (i+1)))) := by
        rw [toListL_decompose cs (i-1) hi1lt]
        have hd : cs.drop ((i-1) + 1) = cs.getD i dfltNode :: cs.drop (i+1) := by
          have he : (i-1) + 1 = i := by omega
          rw [he]
          exact drop_eq_getD_cons cs i dfltNode hilt
        rw [hd, toListL_cons]
        simp [List.append_assoc]
      have hTLnew : toListL (((cs.set i child1).set (i-1) o2).set i c2) =
          toListL (cs.take (i-1)) ++ (o2.toList ++ (c2.toList ++ toListL (cs.drop (i+1)))) := by
        rw [hkill]
        rw [toListL_set _ i c2 (by simp; omega)]
        have h1 : (cs.set (i-1) o2).take i = (cs.take i).set (i-1) o2 := List.set_take
        have h2 : (cs.set (i-1) o2).drop (i+1) = cs.drop (i+1) := by
          rw [List.drop_set, if_pos (by omega)]
        rw [h1, h2]
        rw [toListL_set _ (i-1) o2 (by simp; omega)]
        have h3 : (cs.take i).take (i-1) = cs.take (i-1) := by
          rw [List.take_take]
          congr 1
          omega
        have h4 : (cs.take i).drop ((i-1)+1) = [] := by
          refine List.drop_eq_nil_of_le ?_
          simp
          omega
        rw [h3, h4]
        show (toListL (cs.take (i-1)) ++ o2.toList ++ toListL []) ++ c2.toList ++
          toListL (cs.drop (i+1)) = _
        rw [show toListL [] = [] from rfl]
        simp [List.append_assoc]
      refine ⟨by simp, by rw [hkill]; simp, hgdi, ?_, hc3w, hc5a, ?_, ?_, ?_, ?_, ?_, ?_⟩
      · rw [hTLnew, hTLold]
        have hmid : o2.toList ++ (c2.toList ++ toListL (cs.drop (i+1))) =
            (cs.getD (i-1) dfltNode).toList ++
              ((cs.getD i dfltNode).toList ++ toListL (cs.drop (i+1))) := by
          rw [← List.append_assoc, ← List.append_assoc, hc1, hot, hch1t]
        rw [hmid]
      · rw [← hch1h]
        exact hc10h
      · rw [cacheOkL_iff]
        refine ⟨by rw [hkill]; simp; omega, ?_⟩
        intro j hj
        rw [hkill, List.length_set, List.length_set] at hj
        by_cases hji : j = i
        · subst hji
          rw [hgdi, getD_set_ne _ _ _ _ _ (by omega)]
          refine ⟨hc6ne, ?_⟩
          rw [hc7m, hch1m]
          exact (hcac.2 j hj).2
        · by_cases hji1 : j = i - 1
          · subst hji1
            rw [hgdim, getD_set_self _ _ _ _ (by omega)]
            exact ⟨hc8ne, rfl⟩
          · rw [hgdi1 j hji hji1, getD_set_ne _ _ _ _ _ (fun he => hji1 he.symm)]
            exact hcac.2 j hj
      · rw [wfL_iff]
        intro c hc
        rcases List.mem_or_eq_of_mem_set hc with h | h
        · rcases List.mem_or_eq_of_mem_set h with h2 | h2
          · rcases List.mem_or_eq_of_mem_set h2 with h3 | h3
            · exact (wfL_iff max cs).mp hwl c h3
            · rw [h3]
              exact hch1w
          · rw [h2]
            exact hc2w
        · rw [h]
          exact hc3w
      · rw [alignedL_iff]
        intro c hc
        rcases List.mem_or_eq_of_mem_set hc with h | h
        · rcases List.mem_or_eq_of_mem_set h with h2 | h2
          · rcases List.mem_or_eq_of_mem_set h2 with h3 | h3
            · exact (alignedL_iff cs).mp hal c h3
            · rw [h3]
              exact hch1a
          · rw [h2]
            exact hc4a
        · rw [h]
          exact hc5a
      · intro x hx
        obtain ⟨j, hj1, hj2, hj3⟩ := mem_sortsOf_take _ _ _ hx
        by_cases hji1 : j = i - 1
        · subst hji1
          rw [hgdim] at hj3
          rcases hc9mem x hj3 with h | h
          · rw [hot] at h
            exact hwinL (i-1) (by omega) x h
          · have hg3 := hg1.2.2
            rw [cmpK] at hg3
            rw [hch1k] at h
            have hch0k : (cs.getD i dfltNode).getKeys.headD dfltKey =
                child1.getKeys.headD dfltKey := by rw [hch1k]
            rw [← hch1k] at h
            omega
        · rw [hgdi1 j (by omega) hji1] at hj3
          exact hwinL j hj1 x hj3
      · intro x hx
        obtain ⟨j, hj1, hj2, hj3⟩ := mem_sortsOf_drop _ _ _ hx
        rw [hkill, List.length_set, List.length_set] at hj2
        rw [hgdi1 j (by omega) (by omega)] at hj3
        exact hwinR j (by omega) hj2 x hj3
    · rw [if_neg hg1] at hss
      by_cases hg2 : i + 1 < (cs.set i child1).length ∧
          ((cs.set i child1).getD (i+1) dfltNode).getKeys.length < max ∧
          cmpK (BNode.maxKeyD child1) key < 0
      · exfalso
        have hg21 : i + 1 < cs.length := by
          have h1 := hg2.1
          rw [List.length_set] at h1
          exact h1
        have hieq : i = indexOf0 ks key := by
          rw [hi]
          omega
        have hbounds := ltCount_bounds ks key hks
        have hieq2 : i = ltCount ks key := by
          rw [hieq, indexOf0_eq ks key hks]
        have hile : i < ks.length := by omega
        have h2 := hbounds.2.2 i (by omega) hile
        have h3 := (hcac.2 i hilt).2
        have hg23 := hg2.2.2
        rw [cmpK, hch1m] at hg23
        have h4 : (ks.getD i dfltKey).sort = (BNode.maxKeyD (cs.getD i dfltNode)).sort := h3
        omega
      · rw [if_neg hg2] at hss
        injection hss with e1 e23
        injection e23 with e2 e3
        exact hidc e1 e2 e3
  · rw [if_neg hfull] at hss
    injection hss with e1 e23
    injection e23 with e2 e3
    exact hidc e1 e2 e3

theorem getKeys_ne_of_toList_ne (max : Nat) (n : BNode) (hwf : wfB max n = true)
    (ht : n.toList ≠ []) : n.getKeys ≠ [] := by
  cases n with
  | leaf ks vs s =>
    intro hk
    refine ht ?_
    rw [toList_leaf]
    simp only [BNode.getKeys] at hk
    rw [hk]
    rfl
  | internal ks cs s =>
    obtain ⟨hcs, hlen, _⟩ := (wfB_internal_iff max ks cs s).mp hwf
    intro hk
    simp only [BNode.getKeys] at hk
    rw [hk] at hlen
    have h1 := List.length_pos.mpr hcs
    simp at hlen
    omega

theorem maxKeyD_sort_eq_of_sorts (max1 max2 : Nat) (m n : BNode)
    (hw1 : wfB max1 m = true) (hw2 : wfB max2 n = true)
    (hk1 : m.getKeys ≠ []) (hk2 : n.getKeys ≠ [])
    (hs : sortsOf m.toList = sortsOf n.toList) :
    (BNode.maxKeyD m).sort = (BNode.maxKeyD n).sort := by
  have h1 := maxKey_last (m.height + 1) m max1 (by omega) hw1 hk1
  have h2 := maxKey_last (n.height + 1) n max2 (by omega) hw2 hk2
  rw [hs, h2] at h1
  injection h1 with h3
  exact h3.symm

theorem cacheOkL_insertIdx (k0 : Key) (c0 : BNode)
    (h0 : c0.getKeys ≠ []) (h0' : k0.sort = (BNode.maxKeyD c0).sort) :
    ∀ (m : Nat) (ks : List Key) (cs : List BNode), cacheOkL ks cs = true →
    cacheOkL (ks.insertIdx m k0) (cs.insertIdx m c0) = true := by
  intro m
  induction m with
  | zero =>
    intro ks cs hc
    rw [List.insertIdx_zero, List.insertIdx_zero]
    exact (cacheOkL_cons _ _ _ _).mpr ⟨h0, h0', hc⟩
  | succ m ih =>
    intro ks cs hc
    cases ks with
    | nil =>
      cases cs with
      | nil => rfl
      | cons c rest =>
        rw [cacheOkL.eq_def] at hc
        cases hc
    | cons k kt =>
      cases cs with
      | nil =>
        rw [cacheOkL.eq_def] at hc
        cases hc
      | cons c rest =>
        obtain ⟨h1, h2, h3⟩ := (cacheOkL_cons k kt c rest).mp hc
        rw [List.insertIdx_succ_cons, List.insertIdx_succ_cons]
        exact (cacheOkL_cons _ _ _ _).mpr ⟨h1, h2, ih kt rest h3⟩

theorem cacheOkL_take (m : Nat) :
    ∀ (ks : List Key) (cs : List BNode), cacheOkL ks cs = true →
    cacheOkL (ks.take m) (cs.take m) = true := by
  induction m with
  | zero => intro ks cs _; rfl
  | succ m ih =>
    intro ks cs hc
    cases ks with
    | nil =>
      cases cs with
      | nil => rfl
      | cons c rest =>
        rw [cacheOkL.eq_def] at hc
        cases hc
    | cons k kt =>
      cases cs with
      | nil =>
        rw [cacheOkL.eq_def] at hc
        cases hc
      | cons c rest =>
        obtain ⟨h1, h2, h3⟩ := (cacheOkL_cons k kt c rest).mp hc
        rw [List.take_succ_cons, List.take_succ_cons]
        exact (cacheOkL_cons _ _ _ _).mpr ⟨h1, h2, ih kt rest h3⟩

theorem cacheOkL_drop (m : Nat) :
    ∀ (ks : List Key) (cs : List BNode), cacheOkL ks cs = true →
    cacheOkL (ks.drop m) (cs.drop m) = true := by
  induction m with
  | zero => intro ks cs hc; exact hc
  | succ m ih =>
    intro ks cs hc
    cases ks with
    | nil =>
      cases cs with
      | nil => rfl
      | cons c rest =>
        rw [cacheOkL.eq_def] at hc
        cases hc
    | cons k kt =>
      cases cs with
      | nil =>
        rw [cacheOkL.eq_def] at hc
        cases hc
      | cons c rest =>
        obtain ⟨h1, h2, h3⟩ := (cacheOkL_cons k kt c rest).mp hc
        rw [List.drop_succ_cons, List.drop_succ_cons]
        exact ih kt rest h3

theorem toListL_insertIdx_split (l : List BNode) (m : Nat) (c : BNode)
    (hm : m ≤ l.length) :
    toListL (l.insertIdx m c) =
      toListL (l.take m) ++ c.toList ++ toListL (l.drop m) := by
  rw [insertIdx_eq_split c l m hm, toListL_append, toListL_cons, List.append_assoc]

theorem sortedB_of_sublist (l1 l2 : List Int) (h : List.Sublist l1 l2)
    (hs : sortedB l2 = true) : sortedB l1 = true := by
  rw [sortedB_iff] at hs ⊢
  exact List.Pairwise.sublist h hs

theorem getLast?_take_eq (l : List Key) (m : Nat) (h1 : 0 < m) (h2 : m ≤ l.length) :
    (l.take m).getLast? = some (l.getD (m - 1) dfltKey) := by
  rw [List.getLast?_eq_getElem?]
  have hlen : (l.take m).length = m := by simp; omega
  rw [hlen]
  have hlt : m - 1 < (l.take m).length := by omega
  rw [List.getElem?_eq_getElem hlt]
  congr 1
  rw [List.getElem_take, List.getD_eq_getElem _ _ (by omega)]

theorem setLeaf_split_left_ne (max : Nat) (ks : List Key) (vs : Option (List JSV))
    (s : Bool) (key : Key) (value : JSV) (ow : Option Bool) (hmax : 2 ≤ max) :
    ∀ sib, (setLeaf ks vs s key value ow max).2.1 = SetRes.split sib →
    (setLeaf ks vs s key value ow max).1.getKeys ≠ [] := by
  by_cases hneg : indexOfM ks key < 0
  · by_cases hroom : ks.length < max
    · rcases hins : insertInLeaf ks vs ((-indexOfM ks key - 1).toNat) key value with ⟨k', v'⟩
      have hout : setLeaf ks vs s key value ow max = (.leaf k' v' s, .done true, true) := by
        unfold setLeaf
        dsimp only
        rw [if_pos hneg, if_pos hroom, hins]
      rw [hout]
      intro sib hsib
      exact SetRes.noConfusion hsib
    · have hks2 : 2 ≤ ks.length := by omega
      have hhalf : 1 ≤ ks.length / 2 := by omega
      by_cases hside : (-indexOfM ks key - 1).toNat > (ks.take (ks.length / 2)).length
      · rcases hins : insertInLeaf (ks.drop (ks.length / 2))
            (vs.map (List.drop (ks.length / 2)))
            ((-indexOfM ks key - 1).toNat - (ks.take (ks.length / 2)).length)
            key value with ⟨rk', rv'⟩
        have hout : setLeaf ks vs s key value ow max =
            (.leaf (ks.take (ks.length / 2)) (vs.map (List.take (ks.length / 2))) s,
             .split (.leaf rk' rv' false), true) := by
          unfold setLeaf
          dsimp only [splitOffRightSide]
          rw [if_pos hneg, if_neg hroom, if_pos hside, hins]
        rw [hout]
        intro sib _
        simp only [BNode.getKeys]
        refine List.ne_nil_of_length_pos ?_
        simp
        omega
      · rcases hins : insertInLeaf (ks.take (ks.length / 2))
            (vs.map (List.take (ks.length / 2)))
            ((-indexOfM ks key - 1).toNat) key value with ⟨lk', lv'⟩
        have hout : setLeaf ks vs s key value ow max =
            (.leaf lk' lv' s,
             .split (.leaf (ks.drop (ks.length / 2))
               (vs.map (List.drop (ks.length / 2))) false), true) := by
          unfold setLeaf
          dsimp only [splitOffRightSide]
          rw [if_pos hneg, if_neg hroom, if_neg hside, hins]
        rw [hout]
        intro sib _
        simp only [BNode.getKeys]
        have hparts : lk' = (ks.take (ks.length / 2)).insertIdx
            ((-indexOfM ks key - 1).toNat) key := by
          unfold insertInLeaf at hins
          cases hv : vs.map (List.take (ks.length / 2)) with
          | none =>
            rw [hv] at hins
            dsimp only at hins
            by_cases hvu : value = JSV.undef
            · rw [if_pos hvu] at hins
              injection hins with h1 h2
              exact h1.symm
            · rw [if_neg hvu] at hins
              injection hins with h1 h2
              exact h1.symm
          | some l =>
            rw [hv] at hins
            dsimp only at hins
            injection hins with h1 h2
            exact h1.symm
        rw [hparts]
        refine List.ne_nil_of_length_pos ?_
        rcases Nat.lt_or_ge (ks.take (ks.length / 2)).length ((-indexOfM ks key - 1).toNat)
          with h | h
        · rw [List.insertIdx_of_length_lt _ _ _ h]
          simp
          omega
        · rw [List.length_insertIdx _ _ h]
          omega
  · by_cases how : ow = some false
    · have hout : setLeaf ks vs s key value ow max = (.leaf ks vs s, .done false, false) := by
        unfold setLeaf
        dsimp only
        rw [if_neg hneg, if_neg (by simp [how])]
      rw [hout]
      intro sib hsib
      exact SetRes.noConfusion hsib
    · by_cases hvu : value = JSV.undef
      · have hout : setLeaf ks vs s key value ow max =
            (.leaf (ks.set (indexOfM ks key).toNat key)
              (vs.map (fun l => l.set (indexOfM ks key).toNat value)) s,
             .done false, false) := by
          unfold setLeaf
          dsimp only
          rw [if_neg hneg, if_pos how, if_neg (by simp [hvu])]
        rw [hout]
        intro sib hsib
        exact SetRes.noConfusion hsib
      · have hout : setLeaf ks vs s key value ow max =
            (.leaf (ks.set (indexOfM ks key).toNat key)
              (some ((reifyValues vs ks.length).set (indexOfM ks key).toNat value)) s,
             .done false, false) := by
          unfold setLeaf
          dsimp only
          rw [if_neg hneg, if_pos how, if_pos hvu]
        rw [hout]
        intro sib hsib
        exact SetRes.noConfusion hsib

theorem getD_drop_add {α : Type} (l : List α) (i j : Nat) (d : α) (h : i + j < l.length) :
    (l.drop i).getD j d = l.getD (i + j) d := by
  rw [List.getD_eq_getElem _ _ (by rw [List.length_drop]; omega), List.getElem_drop,
    List.getD_eq_getElem _ _ h]

theorem getD_take_lt {α : Type} (l : List α) (m j : Nat) (d : α) (hj : j < m)
    (hl : j < l.length) :
    (l.take m).getD j d = l.getD j d := by
  rw [List.getD_eq_getElem _ _ (by rw [List.length_take]; omega), List.getElem_take,
    List.getD_eq_getElem _ _ hl]

theorem setNode_spec (key : Key) (value : JSV) (ow : Option Bool) (max : Nat)
    (hmax : 2 ≤ max) :
    ∀ (fuel : Nat) (n : BNode), wfB max n = true → alignedB n = true → n.height < fuel →
    (key.sort ∉ sortsOf n.toList →
      (setNode fuel n key value ow max).1.toList ++
          sibContent (setNode fuel n key value ow max).2.1 =
        insertKV n.toList key value ∧
      resBool (setNode fuel n key value ow max).2.1 = true ∧
      (setNode fuel n key value ow max).2.2 = true) ∧
    (key.sort ∈ sortsOf n.toList → ow = some false →
      (setNode fuel n key value ow max).1.toList = n.toList ∧
      (setNode fuel n key value ow max).2.1 = SetRes.done false ∧
      (setNode fuel n key value ow max).2.2 = false) ∧
    (key.sort ∈ sortsOf n.toList → ow ≠ some false →
      (setNode fuel n key value ow max).1.toList = replaceKV n.toList key value ∧
      (setNode fuel n key value ow max).2.1 = SetRes.done false ∧
      (setNode fuel n key value ow max).2.2 = false) ∧
    wfB max (setNode fuel n key value ow max).1 = true ∧
    alignedB (setNode fuel n key value ow max).1 = true ∧
    (∀ sib, (setNode fuel n key value ow max).2.1 = SetRes.split sib →
      wfB max sib = true ∧ alignedB sib = true ∧ sib.getKeys ≠ [] ∧
      (setNode fuel n key value ow max).1.getKeys ≠ []) := by
  intro fuel
  induction fuel with
  | zero =>
    intro n _ _ hh
    omega
  | succ fuel ih =>
    intro n hwf ha hh
    cases n with
    | leaf ks vs s =>
      have heq : setNode (fuel + 1) (BNode.leaf ks vs s) key value ow max =
          setLeaf ks vs s key value ow max := rfl
      rw [heq]
      have hsk := ((wfB_leaf_iff max ks vs s).mp hwf).1
      have hspec := setLeaf_spec max ks vs s key value ow hwf hmax
      have hj0 : (-indexOfM ks key - 1).toNat ≤ ks.length := by
        by_cases hmem : key.sort ∈ ks.map Key.sort
        · have h1 := (indexOfM_found ks key hsk hmem).1
          rw [h1]
          omega
        · have h1 := (indexOfM_miss ks key hsk hmem).1
          have h2 := (indexOfM_miss ks key hsk hmem).2
          rw [h1]
          omega
      have hjf : ¬indexOfM ks key < 0 → (indexOfM ks key).toNat < ks.length := by
        intro hneg
        have hmem : key.sort ∈ ks.map Key.sort := by
          by_contra hnk
          exact hneg (by rw [(indexOfM_miss ks key hsk hnk).1]; omega)
        have h1 := indexOfM_found ks key hsk hmem
        rw [h1.1]
        omega
      have halg := setLeaf_aligned max ks vs s key value ow ha hj0 hjf
      have hlne := setLeaf_split_left_ne max ks vs s key value ow hmax
      refine ⟨hspec.1, ?_, hspec.2.2.1, hspec.2.2.2.1, halg.1, ?_⟩
      · intro hm ho
        obtain ⟨h1, h2, h3⟩ := hspec.2.1 hm ho
        exact ⟨by rw [h1], h2, h3⟩
      · intro sib hsib
        exact ⟨(hspec.2.2.2.2 sib hsib).1, halg.2 sib hsib,
          (hspec.2.2.2.2 sib hsib).2, hlne sib hsib⟩
    | internal ks cs s =>
      obtain ⟨hcs, hlen, hmx, hcache, hwl, hsorted⟩ := (wfB_internal_iff max ks cs s).mp hwf
      obtain ⟨I, hI⟩ : ∃ I, min (indexOf0 ks key) (cs.length - 1) = I := ⟨_, rfl⟩
      have hlen0 : 0 < cs.length := List.length_pos.mpr hcs
      have hIlt : I < cs.length := by omega
      rcases hsh : shiftStep ks
          (cs.set I (if (cs.getD I dfltNode).isNodeShared then cloneNode (cs.getD I dfltNode)
            else cs.getD I dfltNode))
          (if (cs.getD I dfltNode).isNodeShared then cloneNode (cs.getD I dfltNode)
            else cs.getD I dfltNode) I key max with ⟨ks2, cs2, child2⟩
      obtain ⟨hs1, hs2, hs3, hs4, hs5, hs6, hs7, hs8, hs9, hs10, hs11, hs12⟩ :=
        shiftStep_spec (fuel + 1) max ks cs s key I hh hwf ha hmax hI.symm
          _ ks2 cs2 child2 rfl hsh
      have hIlt2 : I < cs2.length := by omega
      have hdec2 : toListL cs2 = toListL (cs2.take I) ++ child2.toList ++
          toListL (cs2.drop (I + 1)) := by
        rw [toListL_decompose cs2 I hIlt2, hs3]
      rcases hrec : setNode fuel child2 key value ow max with ⟨child', res, inc⟩
      have hch2h : child2.height < fuel := by
        have h1 := height_child_lt (cs.getD I dfltNode) ks cs s (getD_mem cs I hIlt)
        omega
      have ihc := ih child2 hs5 hs6 hch2h
      rw [hrec] at ihc
      dsimp only at ihc
      have htot : (BNode.internal ks cs s).toList = toListL cs := toList_internal ks cs s
      have hpres : key.sort ∈ sortsOf (toListL cs) ↔ key.sort ∈ sortsOf child2.toList := by
        rw [← hs4, hdec2, sortsOf_append, sortsOf_append]
        constructor
        · intro h
          rcases List.mem_append.mp h with h | h
          · rcases List.mem_append.mp h with h | h
            · have h2 := hs11 _ h
              omega
            · exact h
          · have h2 := hs12 _ h
            omega
        · intro h
          exact List.mem_append.mpr (Or.inl (List.mem_append.mpr (Or.inr h)))
      have hpA : ∀ p ∈ toListL (cs2.take I), p.1.sort < key.sort :=
        fun p hp => hs11 _ (List.mem_map_of_mem _ hp)
      have hpB : ∀ p ∈ toListL (cs2.drop (I + 1)), key.sort < p.1.sort :=
        fun p hp => hs12 _ (List.mem_map_of_mem _ hp)
      have hcs3get : ∀ c' : BNode, (cs2.set I c').getD I dfltNode = c' :=
        fun c' => getD_set_self _ _ _ _ hIlt2
      have hcs3dec : ∀ c' : BNode, toListL (cs2.set I c') =
          toListL (cs2.take I) ++ c'.toList ++ toListL (cs2.drop (I + 1)) :=
        fun c' => toListL_set cs2 I c' hIlt2
      have hcac2 := (cacheOkL_iff ks2 cs2).mp hs8
      have hwfpair := (wfL_iff max cs2).mp hs9
      have halpair := (alignedL_iff cs2).mp hs10
      cases res with
      | done b =>
        cases b with
        | false =>
          have hout : setNode (fuel + 1) (BNode.internal ks cs s) key value ow max =
              (BNode.internal ks2 (cs2.set I child') s, SetRes.done false, false) := by
            show setInternal (fun c => setNode fuel c key value ow max) ks cs s key max = _
            unfold setInternal
            dsimp only
            rw [hI, hsh]
            dsimp only
            rw [hrec]
          rw [hout]
          have hnabs : key.sort ∈ sortsOf (toListL cs) := by
            by_contra hnm
            have h2 := (ihc.1 (fun hm => hnm (hpres.mpr hm))).2.1
            simp [resBool] at h2
          have hsorts_eq : sortsOf child'.toList = sortsOf child2.toList := by
            by_cases how : ow = some false
            · rw [(ihc.2.1 (hpres.mp hnabs) how).1]
            · rw [(ihc.2.2.1 (hpres.mp hnabs) how).1, sortsOf_replaceKV]
          have hch2ne : child2.toList ≠ [] := by
            intro he
            have h2 := hpres.mp hnabs
            rw [he] at h2
            simp [sortsOf] at h2
          have hch2kne : child2.getKeys ≠ [] := getKeys_ne_of_toList_ne max child2 hs5 hch2ne
          have hchpne : child'.toList ≠ [] := by
            intro he
            have h3 : sortsOf child'.toList = [] := by rw [he]; rfl
            rw [hsorts_eq] at h3
            refine hch2ne ?_
            have h4 : child2.toList.length = 0 := by
              have h5 : (sortsOf child2.toList).length = 0 := by rw [h3]; rfl
              simpa [sortsOf] using h5
            exact List.length_eq_zero.mp h4
          have hchpkne : child'.getKeys ≠ [] :=
            getKeys_ne_of_toList_ne max child' ihc.2.2.2.1 hchpne
          have hmaxeq : (BNode.maxKeyD child').sort = (BNode.maxKeyD child2).sort :=
            maxKeyD_sort_eq_of_sorts max max child' child2 ihc.2.2.2.1 hs5
              hchpkne hch2kne hsorts_eq
          have hsortsnew : sortsOf (toListL (cs2.set I child')) = sortsOf (toListL cs) := by
            rw [hcs3dec child', sortsOf_append, sortsOf_append, hsorts_eq,
              ← sortsOf_append, ← sortsOf_append, ← hdec2, hs4]
          refine ⟨?_, ?_, ?_, ?_, ?_, ?_⟩
          · intro hnm
            rw [htot] at hnm
            exact absurd hnabs hnm
          · intro hm how
            rw [htot] at hm
            obtain ⟨h1, _, _⟩ := ihc.2.1 (hpres.mp hm) how
            refine ⟨?_, rfl, rfl⟩
            rw [toList_internal, htot, hcs3dec child', h1, ← hdec2, hs4]
          · intro hm how
            rw [htot] at hm
            obtain ⟨h1, _, _⟩ := ihc.2.2.1 (hpres.mp hm) how
            refine ⟨?_, rfl, rfl⟩
            have hAne : ∀ p ∈ toListL (cs2.take I), p.1.sort ≠ key.sort :=
              fun p hp => by have h2 := hpA p hp; omega
            have hBne : ∀ p ∈ toListL (cs2.drop (I + 1)), p.1.sort ≠ key.sort :=
              fun p hp => by have h2 := hpB p hp; omega
            rw [toList_internal, htot, hcs3dec child', h1,
              ← replaceKV_append _ _ _ key value hAne hBne, ← hdec2, hs4]
          · rw [wfB_internal_iff]
            refine ⟨?_, ?_, ?_, ?_, ?_, ?_⟩
            · refine List.ne_nil_of_length_pos ?_
              simp
              omega
            · simp
              omega
            · simp
              omega
            · rw [cacheOkL_iff]
              refine ⟨by simp; omega, ?_⟩
              intro j hj
              rw [List.length_set] at hj
              by_cases hji : j = I
              · subst hji
                rw [hcs3get child']
                refine ⟨hchpkne, ?_⟩
                have h3 := (hcac2.2 j hj).2
                rw [hs3] at h3
                rw [hmaxeq]
                exact h3
              · rw [getD_set_ne _ _ _ _ _ (fun he => hji he.symm)]
                exact hcac2.2 j hj
            · rw [wfL_iff]
              intro c hc
              rcases List.mem_or_eq_of_mem_set hc with h | h
              · exact hwfpair c h
              · rw [h]
                exact ihc.2.2.2.1
            · rw [hsortsnew]
              exact hsorted
          · rw [alignedB_internal_iff, alignedL_iff]
            intro c hc
            rcases List.mem_or_eq_of_mem_set hc with h | h
            · exact halpair c h
            · rw [h]
              exact ihc.2.2.2.2.1
          · intro sib hsib
            exact SetRes.noConfusion hsib
        | true =>
          have hout : setNode (fuel + 1) (BNode.internal ks cs s) key value ow max =
              (BNode.internal (ks2.set I (BNode.maxKeyD child')) (cs2.set I child') s,
               SetRes.done true, inc) := by
            show setInternal (fun c => setNode fuel c key value ow max) ks cs s key max = _
            unfold setInternal
            dsimp only
            rw [hI, hsh]
            dsimp only
            rw [hrec]
          rw [hout]
          have habs : key.sort ∉ sortsOf (toListL cs) := by
            intro hm
            by_cases how : ow = some false
            · have h2 := (ihc.2.1 (hpres.mp hm) how).2.1
              simp at h2
            · have h2 := (ihc.2.2.1 (hpres.mp hm) how).2.1
              simp at h2
          have habs2 : key.sort ∉ sortsOf child2.toList := fun hm => habs (hpres.mpr hm)
          obtain ⟨hcont, _, hinc⟩ := ihc.1 habs2
          rw [show sibContent (SetRes.done true) = [] from rfl, List.append_nil] at hcont
          have hchpne : child'.toList ≠ [] := by
            rw [hcont]
            refine List.ne_nil_of_length_pos ?_
            rw [length_insertKV]
            omega
          have hchpkne : child'.getKeys ≠ [] :=
            getKeys_ne_of_toList_ne max child' ihc.2.2.2.1 hchpne
          have hcontnew : toListL (cs2.set I child') = insertKV (toListL cs) key value := by
            rw [hcs3dec child', hcont, ← hs4, hdec2]
            rw [insertKV_append _ _ _ _ _ hpA hpB]
          refine ⟨?_, ?_, ?_, ?_, ?_, ?_⟩
          · intro _
            refine ⟨?_, rfl, by exact hinc⟩
            rw [show sibContent (SetRes.done true) = [] from rfl, List.append_nil,
              toList_internal, htot, hcontnew]
          · intro hm _
            rw [htot] at hm
            exact absurd hm habs
          · intro hm _
            rw [htot] at hm
            exact absurd hm habs
          · rw [wfB_internal_iff]
            refine ⟨?_, ?_, ?_, ?_, ?_, ?_⟩
            · refine List.ne_nil_of_length_pos ?_
              simp
              omega
            · simp
              omega
            · simp
              omega
            · rw [cacheOkL_iff]
              refine ⟨by simp; omega, ?_⟩
              intro j hj
              rw [List.length_set] at hj
              by_cases hji : j = I
              · subst hji
                rw [hcs3get child', getD_set_self _ _ _ _ (by omega)]
                exact ⟨hchpkne, rfl⟩
              · rw [getD_set_ne _ _ _ _ _ (fun he => hji he.symm),
                  getD_set_ne _ _ _ _ _ (fun he => hji he.symm)]
                exact hcac2.2 j hj
            · rw [wfL_iff]
              intro c hc
              rcases List.mem_or_eq_of_mem_set hc with h | h
              · exact hwfpair c h
              · rw [h]
                exact ihc.2.2.2.1
            · rw [hcontnew]
              exact insertKV_sorted _ _ _ hsorted habs
          · rw [alignedB_internal_iff, alignedL_iff]
            intro c hc
            rcases List.mem_or_eq_of_mem_set hc with h | h
            · exact halpair c h
            · rw [h]
              exact ihc.2.2.2.2.1
          · intro sib hsib
            exact SetRes.noConfusion hsib
      | split sib =>
        have habs : key.sort ∉ sortsOf (toListL cs) := by
          intro hm
          by_cases how : ow = some false
          · have h2 := (ihc.2.1 (hpres.mp hm) how).2.1
            exact SetRes.noConfusion h2
          · have h2 := (ihc.2.2.1 (hpres.mp hm) how).2.1
            exact SetRes.noConfusion h2
        have habs2 : key.sort ∉ sortsOf child2.toList := fun hm => habs (hpres.mpr hm)
        obtain ⟨hcont, _, hinc⟩ := ihc.1 habs2
        rw [show sibContent (SetRes.split sib) = sib.toList from rfl] at hcont
        obtain ⟨hwsib, hasib, hksib, hkchp⟩ := ihc.2.2.2.2.2 sib rfl
        have hwchp : wfB max child' = true := ihc.2.2.2.1
        have hachp : alignedB child' = true := ihc.2.2.2.2.1
        have hcs3len : (cs2.set I child').length = cs.length := by
          simp
          omega
        have hks3len : (ks2.set I (BNode.maxKeyD child')).length = ks.length := by
          simp
          omega
        have hcok3 : cacheOkL (ks2.set I (BNode.maxKeyD child')) (cs2.set I child') = true := by
          rw [cacheOkL_iff]
          refine ⟨by simp; omega, ?_⟩
          intro j hj
          rw [List.length_set] at hj
          by_cases hji : j = I
          · subst hji
            rw [hcs3get child', getD_set_self _ _ _ _ (by omega)]
            exact ⟨hkchp, rfl⟩
          · rw [getD_set_ne _ _ _ _ _ (fun he => hji he.symm),
              getD_set_ne _ _ _ _ _ (fun he => hji he.symm)]
            exact hcac2.2 j hj
        have hwl3 : wfL max (cs2.set I child') = true := by
          rw [wfL_iff]
          intro c hc
          rcases List.mem_or_eq_of_mem_set hc with h | h
          · exact hwfpair c h
          · rw [h]
            exact hwchp
        have hal3 : alignedL (cs2.set I child') = true := by
          rw [alignedL_iff]
          intro c hc
          rcases List.mem_or_eq_of_mem_set hc with h | h
          · exact halpair c h
          · rw [h]
            exact hachp
        have hIlt3 : I < (cs2.set I child').length := by
          rw [hcs3len]
          exact hIlt
        have hINS : toListL ((cs2.set I child').insertIdx (I + 1) sib) =
            insertKV (toListL cs) key value := by
          rw [toListL_insertIdx_split _ (I + 1) sib (by omega)]
          have h1 : (cs2.set I child').take (I + 1) = (cs2.take (I + 1)).set I child' :=
            List.set_take
          have h2 : (cs2.set I child').drop (I + 1) = cs2.drop (I + 1) := by
            rw [List.drop_set, if_pos (by omega)]
          rw [h1, h2]
          rw [toListL_set (cs2.take (I + 1)) I child' (by simp; omega)]
          have h3 : (cs2.take (I + 1)).take I = cs2.take I := by
            rw [List.take_take]
            congr 1
            omega
          have h4 : (cs2.take (I + 1)).drop (I + 1) = [] :=
            List.drop_eq_nil_of_le (by simp)
          rw [h3, h4, show toListL ([] : List BNode) = [] from rfl, List.append_nil]
          rw [← hs4, hdec2]
          rw [insertKV_append _ _ _ _ _ hpA hpB]
          simp only [List.append_assoc]
          rw [← hcont]
          simp [List.append_assoc]
        have hsortINS : sortedB (sortsOf (insertKV (toListL cs) key value)) = true :=
          insertKV_sorted _ _ _ hsorted habs
        have hTL3dec : toListL (cs2.set I child') =
            toListL ((cs2.set I child').take ((cs2.set I child').length / 2)) ++
              toListL ((cs2.set I child').drop ((cs2.set I child').length / 2)) := by
          conv_lhs => rw [← List.take_append_drop ((cs2.set I child').length / 2)
            (cs2.set I child')]
          rw [toListL_append]
        have hsub3 : List.Sublist (toListL (cs2.set I child'))
            (insertKV (toListL cs) key value) := by
          rw [← hINS, toListL_insertIdx_split _ (I + 1) sib (by omega)]
          have h5 : toListL (cs2.set I child') =
              toListL ((cs2.set I child').take (I + 1)) ++
                toListL ((cs2.set I child').drop (I + 1)) := by
            conv_lhs => rw [← List.take_append_drop (I + 1) (cs2.set I child')]
            rw [toListL_append]
          rw [h5, List.append_assoc]
          refine (List.append_sublist_append_left _).mpr ?_
          exact List.sublist_append_right _ _
        have hsort3 : sortedB (sortsOf (toListL (cs2.set I child'))) = true :=
          sortedB_of_sublist _ _ (List.Sublist.map _ hsub3) hsortINS
        by_cases hroomp : (ks2.set I (BNode.maxKeyD child')).length < max
        · -- the new sibling fits in this node
          have hout : setNode (fuel + 1) (BNode.internal ks cs s) key value ow max =
              (BNode.internal
                ((ks2.set I (BNode.maxKeyD child')).insertIdx (I + 1) (BNode.maxKeyD sib))
                ((cs2.set I child').insertIdx (I + 1) sib) s,
               SetRes.done true, inc) := by
            show setInternal (fun c => setNode fuel c key value ow max) ks cs s key max = _
            unfold setInternal
            dsimp only
            rw [hI, hsh]
            dsimp only
            rw [hrec]
            dsimp only
            rw [if_pos hroomp]
            dsimp only [insertN]
          rw [hout]
          refine ⟨?_, ?_, ?_, ?_, ?_, ?_⟩
          · intro _
            refine ⟨?_, rfl, by exact hinc⟩
            rw [show sibContent (SetRes.done true) = [] from rfl, List.append_nil,
              toList_internal, htot, hINS]
          · intro hm _
            rw [htot] at hm
            exact absurd hm habs
          · intro hm _
            rw [htot] at hm
            exact absurd hm habs
          · rw [wfB_internal_iff]
            refine ⟨?_, ?_, ?_, ?_, ?_, ?_⟩
            · refine List.ne_nil_of_length_pos ?_
              rw [List.length_insertIdx _ _ (by omega)]
              omega
            · rw [List.length_insertIdx _ _ (by omega),
                List.length_insertIdx _ _ (by omega)]
              omega
            · rw [List.length_insertIdx _ _ (by omega)]
              omega
            · exact cacheOkL_insertIdx (BNode.maxKeyD sib) sib hksib rfl (I + 1) _ _ hcok3
            · rw [wfL_iff]
              intro c hc
              rw [List.mem_insertIdx (by omega)] at hc
              rcases hc with h | h
              · rw [h]
                exact hwsib
              · exact (wfL_iff max _).mp hwl3 c h
            · rw [hINS]
              exact hsortINS
          · rw [alignedB_internal_iff, alignedL_iff]
            intro c hc
            rw [List.mem_insertIdx (by omega)] at hc
            rcases hc with h | h
            · rw [h]
              exact hasib
            · exact (alignedL_iff _).mp hal3 c h
          · intro sib2 hsib2
            exact SetRes.noConfusion hsib2
        · -- this node is full too: split it
          have hkfull : ks.length = max := by omega
          have hcfull : cs.length = max := by omega
          have hhalf1 : 1 ≤ (cs2.set I child').length / 2 := by
            rw [hcs3len]
            omega
          have hhalfle : (cs2.set I child').length / 2 < cs.length := by
            rw [hcs3len]
            omega
          -- the guard compares the new sibling's max with the left half's last cache
          have hlkslast : ((ks2.set I (BNode.maxKeyD child')).take
              ((cs2.set I child').length / 2)).getLast?.getD dfltKey =
              (ks2.set I (BNode.maxKeyD child')).getD
                ((cs2.set I child').length / 2 - 1) dfltKey := by
            rw [getLast?_take_eq _ _ hhalf1 (by omega)]
            rfl
          have hcok3' := (cacheOkL_iff _ _).mp hcok3
          have hmaxS_mem : (BNode.maxKeyD sib).sort ∈
              sortsOf (insertKV child2.toList key value) := by
            rw [← hcont, sortsOf_append]
            refine List.mem_append_right _ ?_
            exact maxKey_mem_sorts (sib.height + 1) sib max (by omega) hwsib hksib
          have hW_split : ∀ x ∈ sortsOf (insertKV child2.toList key value),
              x ∈ sortsOf child2.toList ∨ x = key.sort := by
            intro x hx
            rw [insertKV_eq_insertIdx, sortsOf] at hx
            rw [map_insertIdx] at hx
            rw [List.mem_insertIdx (by
              rw [List.length_map]
              exact List.countP_le_length _)] at hx
            rcases hx with h | h
            · exact Or.inr h
            · exact Or.inl h
          have hmaxchild : ∀ j, j < cs.length → j ≠ I →
              (BNode.maxKeyD (cs2.getD j dfltNode)).sort ∈
                sortsOf (cs2.getD j dfltNode).toList := by
            intro j hj hji
            refine maxKey_mem_sorts ((cs2.getD j dfltNode).height + 1) _ max (by omega)
              (hwfpair _ (getD_mem cs2 j (by omega))) (hcac2.2 j (by omega)).1
          have hpair2 : (sortsOf (toListL cs2)).Pairwise (· < ·) := by
            rw [hs4]
            exact (sortedB_iff _).mp hsorted
          -- contents of any child strictly left of I lie below the key
          have hguard_dir : ∀ hg : 0 < cmpK (BNode.maxKeyD sib)
              (((ks2.set I (BNode.maxKeyD child')).take
                ((cs2.set I child').length / 2)).getLast?.getD dfltKey),
              (cs2.set I child').length / 2 ≤ I + 1 := by
            intro hg
            by_contra hcon
            push_neg at hcon
            -- half - 1 > I: the (half-1)-th child lies right of the key
            have hj : (cs2.set I child').length / 2 - 1 > I := by omega
            have hjlt : (cs2.set I child').length / 2 - 1 < cs.length := by omega
            have hcache_h := hcok3'.2 ((cs2.set I child').length / 2 - 1) (by
              rw [hcs3len]
              omega)
            rw [getD_set_ne _ _ _ _ _ (by omega), getD_set_ne _ _ _ _ _ (by omega)]
              at hcache_h
            have hmm := hmaxchild _ hjlt (by omega)
            have hwin := hs12 _ (by
              rw [mem_sortsOf_toListL]
              refine ⟨(cs2.set I child').length / 2 - 1 - (I + 1), by simp; omega, ?_⟩
              have hgd : (cs2.drop (I + 1)).getD ((cs2.set I child').length / 2 - 1 - (I + 1))
                  dfltNode = cs2.getD ((cs2.set I child').length / 2 - 1) dfltNode := by
                rw [getD_drop_add _ _ _ _ (by omega)]
                congr 1
                omega
              rw [hgd]
              exact hmm)
            rw [cmpK, hlkslast, getD_set_ne _ _ _ _ _ (by omega), hcache_h.2] at hg
            -- the sibling's max lies in the inserted child's window, hence below
            rcases hW_split _ hmaxS_mem with h | h
            · have hcross2 := cross_lt cs2 hpair2 I ((cs2.set I child').length / 2 - 1)
                (by omega) (by omega) _ (by rw [hs3]; exact h) _ hmm
              omega
            · omega
          have hguard_dir2 : ¬(0 < cmpK (BNode.maxKeyD sib)
              (((ks2.set I (BNode.maxKeyD child')).take
                ((cs2.set I child').length / 2)).getLast?.getD dfltKey)) →
              I + 1 ≤ (cs2.set I child').length / 2 := by
            intro hg
            by_contra hcon
            push_neg at hcon
            -- half ≤ I: the (half-1)-th child lies left of the key
            have hj : (cs2.set I child').length / 2 - 1 < I := by omega
            have hjlt : (cs2.set I child').length / 2 - 1 < cs.length := by omega
            have hcache_h := hcok3'.2 ((cs2.set I child').length / 2 - 1) (by
              rw [hcs3len]
              omega)
            rw [getD_set_ne _ _ _ _ _ (by omega), getD_set_ne _ _ _ _ _ (by omega)]
              at hcache_h
            have hmm := hmaxchild _ hjlt (by omega)
            have hwin := hs11 _ (by
              rw [mem_sortsOf_toListL]
              refine ⟨(cs2.set I child').length / 2 - 1, by simp; omega, ?_⟩
              have hgd : (cs2.take I).getD ((cs2.set I child').length / 2 - 1)
                  dfltNode = cs2.getD ((cs2.set I child').length / 2 - 1) dfltNode :=
                getD_take_lt _ _ _ _ (by omega) (by omega)
              rw [hgd]
              exact hmm)
            rw [cmpK, hlkslast, getD_set_ne _ _ _ _ _ (by omega), hcache_h.2] at hg
            rcases hW_split _ hmaxS_mem with h | h
            · have hcross2 := cross_lt cs2 hpair2 ((cs2.set I child').length / 2 - 1) I
                (by omega) (by omega) _ hmm _ (by rw [hs3]; exact h)
              omega
            · omega
          by_cases hguard : 0 < cmpK (BNode.maxKeyD sib)
              (((ks2.set I (BNode.maxKeyD child')).take
                ((cs2.set I child').length / 2)).getLast?.getD dfltKey)
          · -- the new sibling goes to the right half
            have hple := hguard_dir hguard
            have hout : setNode (fuel + 1) (BNode.internal ks cs s) key value ow max =
                (BNode.internal
                  ((ks2.set I (BNode.maxKeyD child')).take ((cs2.set I child').length / 2))
                  ((cs2.set I child').take ((cs2.set I child').length / 2)) s,
                 SetRes.split (BNode.internal
                  (((ks2.set I (BNode.maxKeyD child')).drop
                      ((cs2.set I child').length / 2)).insertIdx
                    (I + 1 - ((ks2.set I (BNode.maxKeyD child')).take
                      ((cs2.set I child').length / 2)).length)
                    (BNode.maxKeyD sib))
                  (((cs2.set I child').drop ((cs2.set I child').length / 2)).insertIdx
                    (I + 1 - ((ks2.set I (BNode.maxKeyD child')).take
                      ((cs2.set I child').length / 2)).length) sib) false),
                 inc) := by
              show setInternal (fun c => setNode fuel c key value ow max) ks cs s key max = _
              unfold setInternal
              dsimp only
              rw [hI, hsh]
              dsimp only
              rw [hrec]
              dsimp only
              rw [if_neg hroomp, if_pos hguard]
              dsimp only [insertN]
            rw [hout]
            have hlkstake : ((ks2.set I (BNode.maxKeyD child')).take
                ((cs2.set I child').length / 2)).length = (cs2.set I child').length / 2 := by
              simp
              omega
            have hcontsplit :
                toListL ((cs2.set I child').take ((cs2.set I child').length / 2)) ++
                toListL (((cs2.set I child').drop ((cs2.set I child').length / 2)).insertIdx
                  (I + 1 - ((ks2.set I (BNode.maxKeyD child')).take
                    ((cs2.set I child').length / 2)).length) sib) =
                insertKV (toListL cs) key value := by
              rw [← hINS, ← toListL_append, hlkstake]
              congr 1
              exact insert_concat_right _ _ _ _ (by omega) (by omega)
            refine ⟨?_, ?_, ?_, ?_, ?_, ?_⟩
            · intro _
              refine ⟨?_, rfl, by exact hinc⟩
              rw [show sibContent (SetRes.split (BNode.internal
                (((ks2.set I (BNode.maxKeyD child')).drop
                    ((cs2.set I child').length / 2)).insertIdx
                  (I + 1 - ((ks2.set I (BNode.maxKeyD child')).take
                    ((cs2.set I child').length / 2)).length)
                  (BNode.maxKeyD sib))
                (((cs2.set I child').drop ((cs2.set I child').length / 2)).insertIdx
                  (I + 1 - ((ks2.set I (BNode.maxKeyD child')).take
                    ((cs2.set I child').length / 2)).length) sib) false)) =
                (BNode.internal
                  (((ks2.set I (BNode.maxKeyD child')).drop
                      ((cs2.set I child').length / 2)).insertIdx
                    (I + 1 - ((ks2.set I (BNode.maxKeyD child')).take
                      ((cs2.set I child').length / 2)).length)
                    (BNode.maxKeyD sib))
                  (((cs2.set I child').drop ((cs2.set I child').length / 2)).insertIdx
                    (I + 1 - ((ks2.set I (BNode.maxKeyD child')).take
                      ((cs2.set I child').length / 2)).length) sib) false).toList from rfl]
              rw [toList_internal, toList_internal, htot]
              exact hcontsplit
            · intro hm _
              rw [htot] at hm
              exact absurd hm habs
            · intro hm _
              rw [htot] at hm
              exact absurd hm habs
            · rw [wfB_internal_iff]
              refine ⟨?_, ?_, ?_, ?_, ?_, ?_⟩
              · refine List.ne_nil_of_length_pos ?_
                simp
                omega
              · simp
                omega
              · simp
                omega
              · exact cacheOkL_take _ _ _ hcok3
              · rw [wfL_iff]
                intro c hc
                exact (wfL_iff max _).mp hwl3 c (List.mem_of_mem_take hc)
              · refine sortedB_of_sublist _ _ ?_ hsort3
                refine List.Sublist.map _ ?_
                rw [hTL3dec]
                exact List.sublist_append_left _ _
            · rw [alignedB_internal_iff, alignedL_iff]
              intro c hc
              exact (alignedL_iff _).mp hal3 c (List.mem_of_mem_take hc)
            · intro sib2 hsib2
              injection hsib2 with hsib3
              subst hsib3
              have hidxle : I + 1 - ((ks2.set I (BNode.maxKeyD child')).take
                  ((cs2.set I child').length / 2)).length ≤
                  ((cs2.set I child').drop ((cs2.set I child').length / 2)).length := by
                rw [hlkstake]
                simp
                omega
              have hidxle2 : I + 1 - ((ks2.set I (BNode.maxKeyD child')).take
                  ((cs2.set I child').length / 2)).length ≤
                  ((ks2.set I (BNode.maxKeyD child')).drop
                    ((cs2.set I child').length / 2)).length := by
                rw [hlkstake]
                simp
                omega
              refine ⟨?_, ?_, ?_, ?_⟩
              · rw [wfB_internal_iff]
                refine ⟨?_, ?_, ?_, ?_, ?_, ?_⟩
                · refine List.ne_nil_of_length_pos ?_
                  rw [List.length_insertIdx _ _ hidxle]
                  simp
                · rw [List.length_insertIdx _ _ hidxle,
                    List.length_insertIdx _ _ hidxle2]
                  simp
                  omega
                · rw [List.length_insertIdx _ _ hidxle]
                  simp
                  omega
                · refine cacheOkL_insertIdx (BNode.maxKeyD sib) sib hksib rfl _ _ _ ?_
                  exact cacheOkL_drop _ _ _ hcok3
                · rw [wfL_iff]
                  intro c hc
                  rw [List.mem_insertIdx hidxle] at hc
                  rcases hc with h | h
                  · rw [h]
                    exact hwsib
                  · exact (wfL_iff max _).mp hwl3 c (List.mem_of_mem_drop h)
                · have hsfx : List.Sublist
                      (toListL (((cs2.set I child').drop
                        ((cs2.set I child').length / 2)).insertIdx
                        (I + 1 - ((ks2.set I (BNode.maxKeyD child')).take
                          ((cs2.set I child').length / 2)).length) sib))
                      (insertKV (toListL cs) key value) := by
                    rw [← hcontsplit]
                    exact List.sublist_append_right _ _
                  exact sortedB_of_sublist _ _ (List.Sublist.map _ hsfx) hsortINS
              · rw [alignedB_internal_iff, alignedL_iff]
                intro c hc
                rw [List.mem_insertIdx hidxle] at hc
                rcases hc with h | h
                · rw [h]
                  exact hasib
                · exact (alignedL_iff _).mp hal3 c (List.mem_of_mem_drop h)
              · simp only [BNode.getKeys]
                refine List.ne_nil_of_length_pos ?_
                rw [List.length_insertIdx _ _ hidxle2]
                omega
              · simp only [BNode.getKeys]
                refine List.ne_nil_of_length_pos ?_
                simp
                omega
          · -- the new sibling stays in the left half
            have hple := hguard_dir2 hguard
            have hout : setNode (fuel + 1) (BNode.internal ks cs s) key value ow max =
                (BNode.internal
                  (((ks2.set I (BNode.maxKeyD child')).take
                      ((cs2.set I child').length / 2)).insertIdx (I + 1)
                    (BNode.maxKeyD sib))
                  (((cs2.set I child').take ((cs2.set I child').length / 2)).insertIdx
                    (I + 1) sib) s,
                 SetRes.split (BNode.internal
                  ((ks2.set I (BNode.maxKeyD child')).drop ((cs2.set I child').length / 2))
                  ((cs2.set I child').drop ((cs2.set I child').length / 2)) false),
                 inc) := by
              show setInternal (fun c => setNode fuel c key value ow max) ks cs s key max = _
              unfold setInternal
              dsimp only
              rw [hI, hsh]
              dsimp only
              rw [hrec]
              dsimp only
              rw [if_neg hroomp, if_neg hguard]
              dsimp only [insertN]
            rw [hout]
            have hidxle : I + 1 ≤ ((cs2.set I child').take
                ((cs2.set I child').length / 2)).length := by
              simp
              omega
            have hidxle2 : I + 1 ≤ ((ks2.set I (BNode.maxKeyD child')).take
                ((cs2.set I child').length / 2)).length := by
              simp
              omega
            have hcontsplit :
                toListL (((cs2.set I child').take
                  ((cs2.set I child').length / 2)).insertIdx (I + 1) sib) ++
                toListL ((cs2.set I child').drop ((cs2.set I child').length / 2)) =
                insertKV (toListL cs) key value := by
              rw [← hINS, ← toListL_append]
              congr 1
              exact insert_concat_left _ _ _ _ (by omega) (by omega)
            refine ⟨?_, ?_, ?_, ?_, ?_, ?_⟩
            · intro _
              refine ⟨?_, rfl, by exact hinc⟩
              rw [show sibContent (SetRes.split (BNode.internal
                  ((ks2.set I (BNode.maxKeyD child')).drop ((cs2.set I child').length / 2))
                  ((cs2.set I child').drop ((cs2.set I child').length / 2)) false)) =
                (BNode.internal
                  ((ks2.set I (BNode.maxKeyD child')).drop ((cs2.set I child').length / 2))
                  ((cs2.set I child').drop ((cs2.set I child').length / 2))
                  false).toList from rfl]
              rw [toList_internal, toList_internal, htot]
              exact hcontsplit
            · intro hm _
              rw [htot] at hm
              exact absurd hm habs
            · intro hm _
              rw [htot] at hm
              exact absurd hm habs
            · rw [wfB_internal_iff]
              refine ⟨?_, ?_, ?_, ?_, ?_, ?_⟩
              · refine List.ne_nil_of_length_pos ?_
                rw [List.length_insertIdx _ _ (by omega)]
                simp
              · rw [List.length_insertIdx _ _ (by omega),
                  List.length_insertIdx _ _ (by omega)]
                simp
                omega
              · rw [List.length_insertIdx _ _ (by omega)]
                simp
                omega
              · refine cacheOkL_insertIdx (BNode.maxKeyD sib) sib hksib rfl _ _ _ ?_
                exact cacheOkL_take _ _ _ hcok3
              · rw [wfL_iff]
                intro c hc
                rw [List.mem_insertIdx (by omega)] at hc
                rcases hc with h | h
                · rw [h]
                  exact hwsib
                · exact (wfL_iff max _).mp hwl3 c (List.mem_of_mem_take h)
              · have hpfx : List.Sublist
                    (toListL (((cs2.set I child').take
                      ((cs2.set I child').length / 2)).insertIdx (I + 1) sib))
                    (insertKV (toListL cs) key value) := by
                  rw [← hcontsplit]
                  exact List.sublist_append_left _ _
                exact sortedB_of_sublist _ _ (List.Sublist.map _ hpfx) hsortINS
            · rw [alignedB_internal_iff, alignedL_iff]
              intro c hc
              rw [List.mem_insertIdx (by omega)] at hc
              rcases hc with h | h
              · rw [h]
                exact hasib
              · exact (alignedL_iff _).mp hal3 c (List.mem_of_mem_take h)
            · intro sib2 hsib2
              injection hsib2 with hsib3
              subst hsib3
              refine ⟨?_, ?_, ?_, ?_⟩
              · rw [wfB_internal_iff]
                refine ⟨?_, ?_, ?_, ?_, ?_, ?_⟩
                · refine List.ne_nil_of_length_pos ?_
                  simp
                  omega
                · simp
                  omega
                · simp
                  omega
                · exact cacheOkL_drop _ _ _ hcok3
                · rw [wfL_iff]
                  intro c hc
                  exact (wfL_iff max _).mp hwl3 c (List.mem_of_mem_drop hc)
                · refine sortedB_of_sublist _ _ ?_ hsort3
                  refine List.Sublist.map _ ?_
                  rw [hTL3dec]
                  exact List.sublist_append_right _ _
              · rw [alignedB_internal_iff, alignedL_iff]
                intro c hc
                exact (alignedL_iff _).mp hal3 c (List.mem_of_mem_drop hc)
              · simp only [BNode.getKeys]
                refine List.ne_nil_of_length_pos ?_
                simp
                omega
              · simp only [BNode.getKeys]
                refine List.ne_nil_of_length_pos ?_
                rw [List.length_insertIdx _ _ (by omega)]
                omega

/-- Counterexample to C1: a well-formed tree whose left leaf carries a
surplus value slot (one more value than keys, as produced by the merge
path's slice bound) violates the claim: with `overwrite = false` and an
*existing* key `3`, the call returns `false` as claimed but does NOT leave
the tree unchanged — the pre-descent shift into the surplus leaf pairs the
moved key `2` with the surplus value `99` instead of its own value `20`. -/
theorem C1_counterexample :
    wfB 4 (BNode.internal [⟨1, 0⟩, ⟨5, 0⟩]
      [.leaf [⟨1, 0⟩] (some [JSV.num 10, JSV.num 99]) false,
       .leaf [⟨2, 0⟩, ⟨3, 0⟩, ⟨4, 0⟩, ⟨5, 0⟩]
         (some [JSV.num 20, JSV.num 30, JSV.num 40, JSV.num 50]) false] false) = true ∧
    (⟨3, 0⟩ : Key).sort ∈ sortsOf (BNode.internal [⟨1, 0⟩, ⟨5, 0⟩]
      [.leaf [⟨1, 0⟩] (some [JSV.num 10, JSV.num 99]) false,
       .leaf [⟨2, 0⟩, ⟨3, 0⟩, ⟨4, 0⟩, ⟨5, 0⟩]
         (some [JSV.num 20, JSV.num 30, JSV.num 40, JSV.num 50]) false] false).toList ∧
    (treeSet 3 ⟨BNode.internal [⟨1, 0⟩, ⟨5, 0⟩]
      [.leaf [⟨1, 0⟩] (some [JSV.num 10, JSV.num 99]) false,
       .leaf [⟨2, 0⟩, ⟨3, 0⟩, ⟨4, 0⟩, ⟨5, 0⟩]
         (some [JSV.num 20, JSV.num 30, JSV.num 40, JSV.num 50]) false] false, 5, 4⟩
      ⟨3, 0⟩ (JSV.num 77) (some false)).2 = false ∧
    (treeSet 3 ⟨BNode.internal [⟨1, 0⟩, ⟨5, 0⟩]
      [.leaf [⟨1, 0⟩] (some [JSV.num 10, JSV.num 99]) false,
       .leaf [⟨2, 0⟩, ⟨3, 0⟩, ⟨4, 0⟩, ⟨5, 0⟩]
         (some [JSV.num 20, JSV.num 30, JSV.num 40, JSV.num 50]) false] false, 5, 4⟩
      ⟨3, 0⟩ (JSV.num 77) (some false)).1.root.toList ≠
    (BNode.internal [⟨1, 0⟩, ⟨5, 0⟩]
      [.leaf [⟨1, 0⟩] (some [JSV.num 10, JSV.num 99]) false,
       .leaf [⟨2, 0⟩, ⟨3, 0⟩, ⟨4, 0⟩, ⟨5, 0⟩]
         (some [JSV.num 20, JSV.num 30, JSV.num 40, JSV.num 50]) false] false).toList := by
  refine ⟨by decide, by decide, by decide, by decide⟩

/-- C1 (amended): on a well-formed tree whose leaves are *aligned* (exactly
one value slot per key — the invariant every pure insert path preserves, but
which the delete-path merge can break), `set(key, value, overwrite)` behaves
as claimed: the returned boolean is `true` exactly when the key was absent
(and then the pair is inserted at its sorted position and the size grows by
one); with `overwrite = false` on a present key the content and size are
unchanged and the call returns `false`; otherwise a present key has its
stored pair replaced by the arguments, the call returns `false`, and the
size is unchanged. -/
theorem C1_set_semantics (t : TreeS) (key : Key) (value : JSV) (ow : Option Bool)
    (fuel : Nat) (hwf : wfB t.maxNodeSize t.root = true) (ha : alignedB t.root = true)
    (hmax : 2 ≤ t.maxNodeSize) (hfuel : t.root.height < fuel) :
    ((treeSet fuel t key value ow).2 = true ↔ key.sort ∉ sortsOf t.root.toList) ∧
    (key.sort ∉ sortsOf t.root.toList →
      (treeSet fuel t key value ow).1.root.toList = insertKV t.root.toList key value ∧
      (treeSet fuel t key value ow).1.size = t.size + 1) ∧
    (key.sort ∈ sortsOf t.root.toList → ow = some false →
      (treeSet fuel t key value ow).1.root.toList = t.root.toList ∧
      (treeSet fuel t key value ow).2 = false ∧
      (treeSet fuel t key value ow).1.size = t.size) ∧
    (key.sort ∈ sortsOf t.root.toList → ow ≠ some false →
      (treeSet fuel t key value ow).1.root.toList = replaceKV t.root.toList key value ∧
      (treeSet fuel t key value ow).2 = false ∧
      (treeSet fuel t key value ow).1.size = t.size) := by
  obtain ⟨R0, hR0def⟩ : ∃ r, (if t.root.isNodeShared then cloneNode t.root
      else t.root) = r := ⟨_, rfl⟩
  have hR0t : R0.toList = t.root.toList := by
    rw [← hR0def]
    by_cases h : t.root.isNodeShared
    · rw [if_pos h, toList_clone]
    · rw [if_neg h]
  have hR0w : wfB t.maxNodeSize R0 = true := by
    rw [← hR0def]
    by_cases h : t.root.isNodeShared
    · rw [if_pos h]
      exact wf_clone _ _ hwf
    · rw [if_neg h]
      exact hwf
  have hR0a : alignedB R0 = true := by
    rw [← hR0def]
    by_cases h : t.root.isNodeShared
    · rw [if_pos h]
      exact aligned_clone _ ha
    · rw [if_neg h]
      exact ha
  have hR0h : R0.height = t.root.height := by
    rw [← hR0def]
    by_cases h : t.root.isNodeShared
    · rw [if_pos h, height_clone]
    · rw [if_neg h]
  have spec := setNode_spec key value ow t.maxNodeSize hmax fuel R0 hR0w hR0a
    (by omega)
  rcases hsn : setNode fuel R0 key value ow t.maxNodeSize with ⟨root1, res, inc⟩
  rw [hsn] at spec
  dsimp only at spec
  rw [hR0t] at spec
  cases res with
  | done b =>
    have hout : treeSet fuel t key value ow =
        (⟨root1, (if inc then t.size + 1 else t.size), t.maxNodeSize⟩, b) := by
      unfold treeSet
      dsimp only
      rw [hR0def, hsn]
    rw [hout]
    refine ⟨?_, ?_, ?_, ?_⟩
    · constructor
      · intro hb hm
        by_cases how : ow = some false
        · have h2 := (spec.2.1 hm how).2.1
          injection h2 with h3
          rw [h3] at hb
          exact Bool.noConfusion hb
        · have h2 := (spec.2.2.1 hm how).2.1
          injection h2 with h3
          rw [h3] at hb
          exact Bool.noConfusion hb
      · intro habs
        have h2 := (spec.1 habs).2.1
        simpa [resBool] using h2
    · intro habs
      obtain ⟨h1, _, h3⟩ := spec.1 habs
      simp only [sibContent, List.append_nil] at h1
      exact ⟨h1, by simp [h3]⟩
    · intro hm how
      obtain ⟨h1, h2, h3⟩ := spec.2.1 hm how
      injection h2 with h4
      exact ⟨h1, h4, by simp [h3]⟩
    · intro hm how
      obtain ⟨h1, h2, h3⟩ := spec.2.2.1 hm how
      injection h2 with h4
      exact ⟨h1, h4, by simp [h3]⟩
  | split sib =>
    have hout : treeSet fuel t key value ow =
        (⟨BNode.internal (applyMaxKeys [] [root1, sib]) [root1, sib] false,
          (if inc then t.size + 1 else t.size), t.maxNodeSize⟩, true) := by
      unfold treeSet
      dsimp only
      rw [hR0def, hsn]
    rw [hout]
    have habs : key.sort ∉ sortsOf t.root.toList := by
      intro hm
      by_cases how : ow = some false
      · exact SetRes.noConfusion (spec.2.1 hm how).2.1
      · exact SetRes.noConfusion (spec.2.2.1 hm how).2.1
    obtain ⟨h1, _, h3⟩ := spec.1 habs
    refine ⟨⟨fun _ => habs, fun _ => rfl⟩, ?_, ?_, ?_⟩
    · intro _
      refine ⟨?_, by simp [h3]⟩
      show (BNode.internal (applyMaxKeys [] [root1, sib]) [root1, sib] false).toList = _
      rw [toList_internal, toListL_cons, toListL_cons]
      rw [show toListL ([] : List BNode) = [] from rfl, List.append_nil]
      exact h1
    · intro hm _
      exact absurd hm habs
    · intro hm _
      exact absurd hm habs

/-- Instantiation of the amended C1 theorem: inserting key `2` into the
singleton aligned tree `{1 ↦ 10}` with fanout 4 returns `true`, yields
content `[(1,10),(2,20)]`, and grows the size to 2. -/
theorem C1_set_semantics_witness :
    (2 ≤ 4 ∧ wfB 4 (BNode.leaf [⟨1, 0⟩] (some [JSV.num 10]) false) = true) ∧
    (((treeSet 2 ⟨BNode.leaf [⟨1, 0⟩] (some [JSV.num 10]) false, 1, 4⟩
        ⟨2, 0⟩ (JSV.num 20) none).2 = true ↔
      (⟨2, 0⟩ : Key).sort ∉
        sortsOf (BNode.leaf [⟨1, 0⟩] (some [JSV.num 10]) false).toList) ∧
     ((⟨2, 0⟩ : Key).sort ∉
        sortsOf (BNode.leaf [⟨1, 0⟩] (some [JSV.num 10]) false).toList →
      (treeSet 2 ⟨BNode.leaf [⟨1, 0⟩] (some [JSV.num 10]) false, 1, 4⟩
        ⟨2, 0⟩ (JSV.num 20) none).1.root.toList =
        insertKV (BNode.leaf [⟨1, 0⟩] (some [JSV.num 10]) false).toList
          ⟨2, 0⟩ (JSV.num 20) ∧
      (treeSet 2 ⟨BNode.leaf [⟨1, 0⟩] (some [JSV.num 10]) false, 1, 4⟩
        ⟨2, 0⟩ (JSV.num 20) none).1.size = 1 + 1) ∧
     ((⟨2, 0⟩ : Key).sort ∈
        sortsOf (BNode.leaf [⟨1, 0⟩] (some [JSV.num 10]) false).toList →
      (none : Option Bool) = some false →
      (treeSet 2 ⟨BNode.leaf [⟨1, 0⟩] (some [JSV.num 10]) false, 1, 4⟩
        ⟨2, 0⟩ (JSV.num 20) none).1.root.toList =
        (BNode.leaf [⟨1, 0⟩] (some [JSV.num 10]) false).toList ∧
      (treeSet 2 ⟨BNode.leaf [⟨1, 0⟩] (some [JSV.num 10]) false, 1, 4⟩
        ⟨2, 0⟩ (JSV.num 20) none).2 = false ∧
      (treeSet 2 ⟨BNode.leaf [⟨1, 0⟩] (some [JSV.num 10]) false, 1, 4⟩
        ⟨2, 0⟩ (JSV.num 20) none).1.size = 1) ∧
     ((⟨2, 0⟩ : Key).sort ∈
        sortsOf (BNode.leaf [⟨1, 0⟩] (some [JSV.num 10]) false).toList →
      (none : Option Bool) ≠ some false →
      (treeSet 2 ⟨BNode.leaf [⟨1, 0⟩] (some [JSV.num 10]) false, 1, 4⟩
        ⟨2, 0⟩ (JSV.num 20) none).1.root.toList =
        replaceKV (BNode.leaf [⟨1, 0⟩] (some [JSV.num 10]) false).toList
          ⟨2, 0⟩ (JSV.num 20) ∧
      (treeSet 2 ⟨BNode.leaf [⟨1, 0⟩] (some [JSV.num 10]) false, 1, 4⟩
        ⟨2, 0⟩ (JSV.num 20) none).2 = false ∧
      (treeSet 2 ⟨BNode.leaf [⟨1, 0⟩] (some [JSV.num 10]) false, 1, 4⟩
        ⟨2, 0⟩ (JSV.num 20) none).1.size = 1)) := by
  refine ⟨⟨by decide, by decide⟩, ?_⟩
  have h := C1_set_semantics
    ⟨BNode.leaf [⟨1, 0⟩] (some [JSV.num 10]) false, 1, 4⟩ ⟨2, 0⟩ (JSV.num 20) none 2
    (by decide) (by decide) (by decide) (by decide)
  exact ⟨h.1, h.2.1, h.2.2.1, h.2.2.2⟩

/-! ## Persistence: `commit()` / `load()` (persistence/util/proxyUtil.ts) -/

/-- JSON round trip of a single stored value inside an array:
`JSON.stringify` writes an `undefined` array element as `null`, so parsing
the stored string gives back `null`; every other modeled value survives. -/
def jsonV : JSV → JSV
  | .undef => .jnull
  | v => v

/-- `INodeContent`: the serialized form of one node — a leaf stores its keys
and (JSON round-tripped) values; a branch stores its cached max-keys and the
content ids of its children (`computeContent`). -/
inductive NodeContent where
  | leafC (keys : List Key) (values : List JSV)
  | branchC (keys : List Key) (children : List Nat)
deriving DecidableEq, Repr

mutual

/-- `computeContent` composed with the JSON round trip performed by
`serializeBNode`/`loadSync`.  `h` models the sha256 content hash of
`computeId`; `U` is the current length of the module-global `undefVals`
array: a leaf still holding the sentinel serializes that whole global
array, whose `undefined` slots parse back as `null`.  A branch's
(sentinel) `values` field is dropped here: `loadSync` never reads it and
it is the same for every branch of one commit, so it contributes nothing
that could distinguish two contents. -/
def contentB (h : NodeContent → Nat) (U : Nat) : BNode → NodeContent
  | .leaf ks none _ => .leafC ks (List.replicate U JSV.jnull)
  | .leaf ks (some l) _ => .leafC ks (l.map jsonV)
  | .internal ks cs _ => .branchC ks (idsL h U cs)

/-- `computeId` of each child, in order. -/
def idsL (h : NodeContent → Nat) (U : Nat) : List BNode → List Nat
  | [] => []
  | c :: r => h (contentB h U c) :: idsL h U r

end

/-- `computeId`: the content hash of a (loaded) node. -/
def nodeId (h : NodeContent → Nat) (U : Nat) (n : BNode) : Nat :=
  h (contentB h U n)

mutual

/-- `saveTreeSync`: save all children first, then `putSync` the node itself
under its content id.  The result is the list of (id, content) writes. -/
def storeB (h : NodeContent → Nat) (U : Nat) : BNode → List (Nat × NodeContent)
  | .leaf ks vs s =>
    [(nodeId h U (.leaf ks vs s), contentB h U (.leaf ks vs s))]
  | .internal ks cs s =>
    storeL h U cs ++
      [(nodeId h U (.internal ks cs s), contentB h U (.internal ks cs s))]

/-- The writes performed for a list of children, left to right. -/
def storeL (h : NodeContent → Nat) (U : Nat) : List BNode → List (Nat × NodeContent)
  | [] => []
  | c :: r => storeB h U c ++ storeL h U r

end

/-- `getSync`: the first stored entry carrying the requested id. -/
def lookupS (st : List (Nat × NodeContent)) (i : Nat) : Option NodeContent :=
  (st.find? (fun p => p.1 == i)).map (fun p => p.2)

/-- Rebuild a list of children by loading each stored id with `f`. -/
def loadL (f : Nat → Option BNode) : List Nat → Option (List BNode)
  | [] => some []
  | i :: rest =>
    match f i, loadL f rest with
    | some c, some cs => some (c :: cs)
    | _, _ => none

/-- `load()` + the lazy `loadSync` of every proxy, forced by a full scan:
fetch the content stored under an id and rebuild the node; a branch
rebuilds each child from its stored id.  `fuel` bounds the depth. -/
def loadTree (st : List (Nat × NodeContent)) : Nat → Nat → Option BNode
  | 0, _ => none
  | fuel + 1, i =>
    match lookupS st i with
    | none => none
    | some (.leafC ks vs) => some (.leaf ks (some vs) false)
    | some (.branchC ks cids) =>
      match loadL (fun j => loadTree st fuel j) cids with
      | none => none
      | some cs => some (.internal ks cs false)

mutual

/-- `noUndefB n`: no stored value of the tree is `undefined` (and a leaf
still on the `undefVals` sentinel carries no keys). -/
def noUndefB : BNode → Bool
  | .leaf ks none _ => ks.isEmpty
  | .leaf _ (some l) _ => decide (JSV.undef ∉ l)
  | .internal _ cs _ => noUndefL cs

/-- `noUndefB` over a list of children. -/
def noUndefL : List BNode → Bool
  | [] => true
  | c :: r => noUndefB c && noUndefL r

end

theorem map_jsonV_eq (l : List JSV) (hl : JSV.undef ∉ l) : l.map jsonV = l := by
  induction l with
  | nil => rfl
  | cons v r ih =>
    rw [List.map_cons, ih (fun hm => hl (List.mem_cons_of_mem _ hm))]
    congr 1
    cases v with
    | undef => exact absurd (List.mem_cons_self _ _) hl
    | jnull => rfl
    | num n => rfl

theorem mem_storeB_self (h : NodeContent → Nat) (U : Nat) (n : BNode) :
    (nodeId h U n, contentB h U n) ∈ storeB h U n := by
  cases n with
  | leaf ks vs s =>
    simp only [storeB]
    exact List.mem_cons_self _ _
  | internal ks cs s =>
    simp only [storeB]
    exact List.mem_append_right _ (List.mem_cons_self _ _)

theorem store_consistent (h : NodeContent → Nat) (U : Nat) :
    ∀ H : Nat, ∀ n : BNode, n.height < H → ∀ p ∈ storeB h U n, p.1 = h p.2 := by
  intro H
  induction H with
  | zero => intro n hn; omega
  | succ H ih =>
    intro n hn p hp
    cases n with
    | leaf ks vs s =>
      simp only [storeB] at hp
      rw [List.mem_singleton.mp hp]
      rfl
    | internal ks cs s =>
      simp only [storeB] at hp
      rcases List.mem_append.mp hp with h1 | h1
      · have hlist : ∀ cs' : List BNode, (∀ c ∈ cs', c.height < H) →
            ∀ q ∈ storeL h U cs', q.1 = h q.2 := by
          intro cs'
          induction cs' with
          | nil =>
            intro _ q hq
            simp only [storeL] at hq
            exact absurd hq (List.not_mem_nil q)
          | cons c r ihr =>
            intro hhts q hq
            simp only [storeL] at hq
            rcases List.mem_append.mp hq with h2 | h2
            · exact ih c (hhts c (List.mem_cons_self _ _)) q h2
            · exact ihr (fun c' hc' => hhts c' (List.mem_cons_of_mem _ hc')) q h2
        refine hlist cs ?_ p h1
        intro c hc
        have h3 := height_child_lt c ks cs s hc
        omega
      · rw [List.mem_singleton.mp h1]
        rfl

theorem lookupS_eq (h : NodeContent → Nat) (c0 : NodeContent) :
    ∀ st : List (Nat × NodeContent), (∀ p ∈ st, p.1 = h p.2) →
    (∀ p ∈ st, ∀ q ∈ st, h p.2 = h q.2 → p.2 = q.2) →
    (h c0, c0) ∈ st → lookupS st (h c0) = some c0 := by
  intro st
  induction st with
  | nil => intro _ _ hmem; exact absurd hmem (List.not_mem_nil _)
  | cons p rest ih =>
    intro hcons hcoll hmem
    by_cases hpe : (p.1 == h c0) = true
    · have h4 : p.1 = h c0 := by simpa using hpe
      have h2 : p.2 = c0 := by
        refine hcoll p (List.mem_cons_self _ _) (h c0, c0) hmem ?_
        have h3 := hcons p (List.mem_cons_self _ _)
        rw [← h3, h4]
      rw [lookupS]
      simp only [List.find?_cons, hpe]
      simp [h2]
    · have hmem2 : (h c0, c0) ∈ rest := by
        rcases List.mem_cons.mp hmem with h2 | h2
        · rw [← h2] at hpe
          simp at hpe
        · exact h2
      have hpe3 : (p.1 == h c0) = false := by simpa using hpe
      rw [lookupS]
      simp only [List.find?_cons, hpe3]
      exact ih (fun q hq => hcons q (List.mem_cons_of_mem _ hq))
        (fun q hq r hr => hcoll q (List.mem_cons_of_mem _ hq) r (List.mem_cons_of_mem _ hr))
        hmem2

theorem loadTree_sound (h : NodeContent → Nat) (U : Nat)
    (st : List (Nat × NodeContent))
    (hcons : ∀ p ∈ st, p.1 = h p.2)
    (hcoll : ∀ p ∈ st, ∀ q ∈ st, h p.2 = h q.2 → p.2 = q.2) :
    ∀ fuel n, noUndefB n = true → n.height < fuel →
    (∀ q ∈ storeB h U n, q ∈ st) →
    ∃ m, loadTree st fuel (nodeId h U n) = some m ∧ m.toList = n.toList := by
  intro fuel
  induction fuel with
  | zero => intro n _ hh; omega
  | succ fuel ih =>
    intro n hnu hh hsub
    have hlk : lookupS st (h (contentB h U n)) = some (contentB h U n) :=
      lookupS_eq h (contentB h U n) st hcons hcoll (hsub _ (mem_storeB_self h U n))
    cases n with
    | leaf ks vs s =>
      cases vs with
      | none =>
        have hks : ks = [] := List.isEmpty_iff.mp (by simpa [noUndefB] using hnu)
        have hc : contentB h U (BNode.leaf ks none s) =
            .leafC ks (List.replicate U JSV.jnull) := by
          simp only [contentB]
        rw [hc] at hlk
        refine ⟨.leaf ks (some (List.replicate U JSV.jnull)) false, ?_, ?_⟩
        · rw [nodeId, hc]
          simp only [loadTree]
          rw [hlk]
        · rw [hks]
          rfl
      | some l =>
        have hl : JSV.undef ∉ l := by simpa [noUndefB] using hnu
        have hc : contentB h U (BNode.leaf ks (some l) s) = .leafC ks l := by
          simp only [contentB]
          rw [map_jsonV_eq l hl]
        rw [hc] at hlk
        refine ⟨.leaf ks (some l) false, ?_, ?_⟩
        · rw [nodeId, hc]
          simp only [loadTree]
          rw [hlk]
        · rfl
    | internal ks cs s =>
      have hnl : noUndefL cs = true := by simpa [noUndefB] using hnu
      have hch : ∀ cs' : List BNode, noUndefL cs' = true →
          (∀ c ∈ cs', c.height < fuel) →
          (∀ q ∈ storeL h U cs', q ∈ st) →
          ∃ ms, loadL (fun j => loadTree st fuel j) (idsL h U cs') = some ms ∧
            toListL ms = toListL cs' := by
        intro cs'
        induction cs' with
        | nil =>
          intro _ _ _
          refine ⟨[], ?_, rfl⟩
          simp only [idsL, loadL]
        | cons c r ihr =>
          intro hnu2 hhts hsub2
          have hsplit : noUndefB c = true ∧ noUndefL r = true := by
            simp only [noUndefL, Bool.and_eq_true] at hnu2
            exact hnu2
          obtain ⟨m, hm1, hm2⟩ := ih c hsplit.1 (hhts c (List.mem_cons_self _ _))
            (fun q hq => hsub2 q (by
              simp only [storeL]
              exact List.mem_append_left _ hq))
          obtain ⟨ms, hms1, hms2⟩ := ihr hsplit.2
            (fun c' hc' => hhts c' (List.mem_cons_of_mem _ hc'))
            (fun q hq => hsub2 q (by
              simp only [storeL]
              exact List.mem_append_right _ hq))
          rw [nodeId] at hm1
          refine ⟨m :: ms, ?_, ?_⟩
          · simp only [idsL, loadL]
            rw [hm1, hms1]
          · rw [toListL_cons, toListL_cons, hm2, hms2]
      obtain ⟨ms, hms1, hms2⟩ := hch cs hnl
        (fun c hc => by
          have h3 := height_child_lt c ks cs s hc
          omega)
        (fun q hq => hsub q (by
          simp only [storeB]
          exact List.mem_append_left _ hq))
      have hc : contentB h U (BNode.internal ks cs s) = .branchC ks (idsL h U cs) := by
        simp only [contentB]
      rw [hc] at hlk
      refine ⟨.internal ks ms false, ?_, ?_⟩
      · rw [nodeId, hc]
        simp only [loadTree]
        rw [hlk]
        dsimp only
        rw [hms1]
      · rw [toList_internal ks ms false, toList_internal ks cs s, hms2]

/-- Counterexample to C3: content is NOT always preserved by a commit/load
round trip.  A well-formed leaf storing the pair `(2, undefined)` serializes
its values array through `JSON.stringify`, which writes `undefined` as
`null`; the reloaded tree reports `(2, null)` instead, so the full-scan
contents of the two trees differ.  (The store is a single node, so the
trivial hash suffices.) -/
theorem C3_counterexample :
    wfB 32 (BNode.leaf [⟨1, 0⟩, ⟨2, 0⟩] (some [JSV.num 10, JSV.undef]) false) = true ∧
    alignedB (BNode.leaf [⟨1, 0⟩, ⟨2, 0⟩] (some [JSV.num 10, JSV.undef]) false) = true ∧
    (loadTree (storeB (fun _ => 0) 0
        (BNode.leaf [⟨1, 0⟩, ⟨2, 0⟩] (some [JSV.num 10, JSV.undef]) false)) 2
      (nodeId (fun _ => 0) 0
        (BNode.leaf [⟨1, 0⟩, ⟨2, 0⟩] (some [JSV.num 10, JSV.undef]) false))).map
        BNode.toList =
      some [(⟨1, 0⟩, JSV.num 10), (⟨2, 0⟩, JSV.jnull)] ∧
    (BNode.leaf [⟨1, 0⟩, ⟨2, 0⟩]
        (some [JSV.num 10, JSV.undef]) false).toList ≠
      [(⟨1, 0⟩, JSV.num 10), (⟨2, 0⟩, JSV.jnull)] := by
  refine ⟨by decide, by decide, by decide, by decide⟩

/-- C3 (amended): the commit/load round trip preserves the full-scan content
provided (a) the content hash is collision-free on the committed store and
(b) the tree stores no `undefined` values (a leaf still on the shared
sentinel array must be empty) — otherwise the JSON serialization rewrites
`undefined` to `null` and the reloaded content differs. -/
theorem C3_commit_load (h : NodeContent → Nat) (U : Nat) (n : BNode) (fuel : Nat)
    (hcoll : ∀ p ∈ storeB h U n, ∀ q ∈ storeB h U n, h p.2 = h q.2 → p.2 = q.2)
    (hnu : noUndefB n = true) (hf : n.height < fuel) :
    ∃ m, loadTree (storeB h U n) fuel (nodeId h U n) = some m ∧
      m.toList = n.toList :=
  loadTree_sound h U (storeB h U n)
    (fun p hp => store_consistent h U (n.height + 1) n (by omega) p hp)
    hcoll fuel n hnu hf (fun q hq => hq)

/-- Instantiation of the amended C3 theorem at a two-leaf tree with an
injective-on-the-store hash. -/
theorem C3_commit_load_witness :
    ((∀ p ∈ storeB (fun c => if c = NodeContent.leafC [⟨1, 0⟩] [JSV.num 10] then 1
          else if c = NodeContent.leafC [⟨2, 0⟩] [JSV.num 20] then 2 else 3) 0
        (BNode.internal [⟨1, 0⟩, ⟨2, 0⟩]
          [.leaf [⟨1, 0⟩] (some [JSV.num 10]) false,
           .leaf [⟨2, 0⟩] (some [JSV.num 20]) false] false),
      ∀ q ∈ storeB (fun c => if c = NodeContent.leafC [⟨1, 0⟩] [JSV.num 10] then 1
          else if c = NodeContent.leafC [⟨2, 0⟩] [JSV.num 20] then 2 else 3) 0
        (BNode.internal [⟨1, 0⟩, ⟨2, 0⟩]
          [.leaf [⟨1, 0⟩] (some [JSV.num 10]) false,
           .leaf [⟨2, 0⟩] (some [JSV.num 20]) false] false),
      (if p.2 = NodeContent.leafC [⟨1, 0⟩] [JSV.num 10] then 1
          else if p.2 = NodeContent.leafC [⟨2, 0⟩] [JSV.num 20] then 2 else 3) =
        (if q.2 = NodeContent.leafC [⟨1, 0⟩] [JSV.num 10] then 1
          else if q.2 = NodeContent.leafC [⟨2, 0⟩] [JSV.num 20] then 2 else 3) →
        p.2 = q.2) ∧
     noUndefB (BNode.internal [⟨1, 0⟩, ⟨2, 0⟩]
        [.leaf [⟨1, 0⟩] (some [JSV.num 10]) false,
         .leaf [⟨2, 0⟩] (some [JSV.num 20]) false] false) = true) ∧
    ∃ m, loadTree (storeB (fun c => if c = NodeContent.leafC [⟨1, 0⟩] [JSV.num 10] then 1
          else if c = NodeContent.leafC [⟨2, 0⟩] [JSV.num 20] then 2 else 3) 0
        (BNode.internal [⟨1, 0⟩, ⟨2, 0⟩]
          [.leaf [⟨1, 0⟩] (some [JSV.num 10]) false,
           .leaf [⟨2, 0⟩] (some [JSV.num 20]) false] false)) 2
        (nodeId (fun c => if c = NodeContent.leafC [⟨1, 0⟩] [JSV.num 10] then 1
          else if c = NodeContent.leafC [⟨2, 0⟩] [JSV.num 20] then 2 else 3) 0
        (BNode.internal [⟨1, 0⟩, ⟨2, 0⟩]
          [.leaf [⟨1, 0⟩] (some [JSV.num 10]) false,
           .leaf [⟨2, 0⟩] (some [JSV.num 20]) false] false)) = some m ∧
      m.toList = (BNode.internal [⟨1, 0⟩, ⟨2, 0⟩]
          [.leaf [⟨1, 0⟩] (some [JSV.num 10]) false,
           .leaf [⟨2, 0⟩] (some [JSV.num 20]) false] false).toList := by
  refine ⟨⟨by decide, by decide⟩, ?_⟩
  exact C3_commit_load
    (fun c => if c = NodeContent.leafC [⟨1, 0⟩] [JSV.num 10] then 1
      else if c = NodeContent.leafC [⟨2, 0⟩] [JSV.num 20] then 2 else 3) 0
    (BNode.internal [⟨1, 0⟩, ⟨2, 0⟩]
      [.leaf [⟨1, 0⟩] (some [JSV.num 10]) false,
       .leaf [⟨2, 0⟩] (some [JSV.num 20]) false] false) 2
    (by decide) (by decide) (by decide)

/-! ## Freezing (`freeze` / `unfreeze` / `isFrozen`, lines 1268-1294) -/

/-- A `BTree` object together with its freeze state: `freeze()` installs
instance-level `clear`/`set`/`editRange` properties that throw, `unfreeze()`
deletes all three, and nothing else ever installs them, so one flag captures
exactly whether the thrower triple is present. -/
structure TreeF where
  data : TreeS
  frozen : Bool
deriving Repr

/-- `freeze()`. -/
def freezeT (t : TreeF) : TreeF := { t with frozen := true }

/-- `unfreeze()`. -/
def unfreezeT (t : TreeF) : TreeF := { t with frozen := false }

/-- `isFrozen()`: `this.hasOwnProperty("editRange")` — the own property
exists exactly while the thrower triple is installed. -/
def isFrozenT (t : TreeF) : Bool := t.frozen

/-- The message of the error thrown by the frozen mutators. -/
def frozenErr : String := "Attempted to modify a frozen BTree"

/-- `set` as dispatched through the instance: the frozen thrower if present,
otherwise the real `BTree.set`. -/
def setT (fuel : Nat) (t : TreeF) (key : Key) (value : JSV) (ow : Option Bool) :
    TreeF × Except String Bool :=
  if t.frozen then (t, .error frozenErr)
  else (⟨(treeSet fuel t.data key value ow).1, t.frozen⟩,
    .ok (treeSet fuel t.data key value ow).2)

/-- `clear` as dispatched through the instance (line 285: root becomes the
shared `EmptyLeaf`, size 0). -/
def clearT (t : TreeF) : TreeF × Except String Unit :=
  if t.frozen then (t, .error frozenErr)
  else (⟨⟨EmptyLeaf, 0, t.data.maxNodeSize⟩, t.frozen⟩, .ok ())

/-- `editRange` as dispatched through the instance.  The underlying scan
(`forRange` in edit mode plus the root-collapse epilogue) is abstracted as
`er`, since the freeze dispatch is independent of it. -/
def editRangeT (er : TreeS → TreeS × Nat) (t : TreeF) : TreeF × Except String Nat :=
  if t.frozen then (t, .error frozenErr)
  else (⟨(er t.data).1, t.frozen⟩, .ok (er t.data).2)

/-- `delete(key)` = `editRange(key, key, true, DeleteRange) !== 0`
(line 394). -/
def deleteT (er : TreeS → TreeS × Nat) (t : TreeF) : TreeF × Except String Bool :=
  ((editRangeT er t).1, (editRangeT er t).2.map (fun n => decide (n ≠ 0)))

/-- `deleteRange(low, high, includeHigh)` = `editRange(..., DeleteRange)`
(line 1234). -/
def deleteRangeT (er : TreeS → TreeS × Nat) (t : TreeF) : TreeF × Except String Nat :=
  editRangeT er t

/-- The loop of `setPairs` (lines 1093-1098): set each pair in order,
counting the additions; a thrown error aborts the loop and propagates. -/
def setPairsGo (fuel : Nat) (ow : Option Bool) :
    TreeF → List (Key × JSV) → Nat → TreeF × Except String Nat
  | t, [], acc => (t, .ok acc)
  | t, (k, v) :: rest, acc =>
    match setT fuel t k v ow with
    | (t', .error e) => (t', .error e)
    | (t', .ok b) => setPairsGo fuel ow t' rest (if b then acc + 1 else acc)

/-- `setPairs(pairs, overwrite)`. -/
def setPairsT (fuel : Nat) (t : TreeF) (pairs : List (Key × JSV))
    (ow : Option Bool) : TreeF × Except String Nat :=
  setPairsGo fuel ow t pairs 0

/-- C6: while a tree is frozen (frozen and not yet unfrozen), `set`,
`clear`, `editRange` and the operations built on them (`delete`,
`deleteRange`, and `setPairs` on a nonempty list) all throw the explicit
"Attempted to modify a frozen BTree" error and leave the tree unchanged;
after `unfreeze()` each of them dispatches to its real body again; and
`isFrozen()` reports exactly the current freeze state. -/
theorem C6_freeze_dispatch (t : TreeF) (fuel : Nat) (key : Key) (value : JSV)
    (ow : Option Bool) (er : TreeS → TreeS × Nat) (pairs : List (Key × JSV)) :
    (isFrozenT (freezeT t) = true ∧ isFrozenT (unfreezeT t) = false ∧
      isFrozenT t = t.frozen) ∧
    ((setT fuel (freezeT t) key value ow).1 = freezeT t ∧
      (setT fuel (freezeT t) key value ow).2 = .error frozenErr) ∧
    ((clearT (freezeT t)).1 = freezeT t ∧
      (clearT (freezeT t)).2 = .error frozenErr) ∧
    ((editRangeT er (freezeT t)).1 = freezeT t ∧
      (editRangeT er (freezeT t)).2 = .error frozenErr) ∧
    ((deleteT er (freezeT t)).1 = freezeT t ∧
      (deleteT er (freezeT t)).2 = .error frozenErr) ∧
    ((deleteRangeT er (freezeT t)).1 = freezeT t ∧
      (deleteRangeT er (freezeT t)).2 = .error frozenErr) ∧
    ((setPairsT fuel (freezeT t) pairs ow).1 = freezeT t ∧
      (pairs ≠ [] → (setPairsT fuel (freezeT t) pairs ow).2 = .error frozenErr)) ∧
    (setT fuel (unfreezeT (freezeT t)) key value ow =
      (⟨(treeSet fuel t.data key value ow).1, false⟩,
        .ok (treeSet fuel t.data key value ow).2)) ∧
    (clearT (unfreezeT (freezeT t)) =
      (⟨⟨EmptyLeaf, 0, t.data.maxNodeSize⟩, false⟩, .ok ())) ∧
    (editRangeT er (unfreezeT (freezeT t)) =
      (⟨(er t.data).1, false⟩, .ok (er t.data).2)) := by
  refine ⟨⟨rfl, rfl, rfl⟩, ⟨rfl, rfl⟩, ⟨rfl, rfl⟩, ⟨rfl, rfl⟩, ⟨rfl, rfl⟩,
    ⟨rfl, rfl⟩, ⟨?_, ?_⟩, rfl, rfl, rfl⟩
  · cases pairs with
    | nil => rfl
    | cons p rest => cases p; rfl
  · intro hp
    cases pairs with
    | nil => exact absurd rfl hp
    | cons p rest => cases p; rfl

/-- Instantiation of the C6 theorem: freezing the empty tree with fanout 4,
a `set` and a nonempty `setPairs` throw the frozen error, and the same `set`
succeeds after `unfreeze`. -/
theorem C6_freeze_dispatch_witness :
    ([((⟨1, 0⟩ : Key), JSV.num 1)] ≠ ([] : List (Key × JSV))) ∧
    isFrozenT (freezeT ⟨⟨EmptyLeaf, 0, 4⟩, false⟩) = true ∧
    (setT 2 (freezeT ⟨⟨EmptyLeaf, 0, 4⟩, false⟩) ⟨1, 0⟩ (JSV.num 1) none).2 =
      .error frozenErr ∧
    (setPairsT 2 (freezeT ⟨⟨EmptyLeaf, 0, 4⟩, false⟩)
      [(⟨1, 0⟩, JSV.num 1)] none).2 = .error frozenErr ∧
    (setT 2 (unfreezeT (freezeT ⟨⟨EmptyLeaf, 0, 4⟩, false⟩)) ⟨1, 0⟩
      (JSV.num 1) none).2 = .ok true := by
  have h := C6_freeze_dispatch ⟨⟨EmptyLeaf, 0, 4⟩, false⟩ 2 ⟨1, 0⟩ (JSV.num 1)
    none (fun s => (s, 0)) [(⟨1, 0⟩, JSV.num 1)]
  refine ⟨by decide, h.1.1, h.2.1.2, h.2.2.2.2.2.2.1.2 (by decide), ?_⟩
  rw [h.2.2.2.2.2.2.2.1]
  rfl

/-! ## The exact (object-level) cache invariant of C4 -/

mutual

/-- The literal claim: every internal node's cached entry `keys[i]` *equals*
`children[i].maxKey()` — equality of keys, not merely comparator
equivalence. -/
def cacheExactB : BNode → Bool
  | .leaf _ _ _ => true
  | .internal ks cs _ => cacheExactL ks cs && cacheExactSubL cs

/-- Pointwise exact equality of cache entries and child max keys. -/
def cacheExactL : List Key → List BNode → Bool
  | [], [] => true
  | k :: kt, c :: ct => decide (k = BNode.maxKeyD c) && cacheExactL kt ct
  | _, _ => false

/-- `cacheExactB` for every node of a child list. -/
def cacheExactSubL : List BNode → Bool
  | [] => true
  | c :: ct => cacheExactB c && cacheExactSubL ct

end

/-- Counterexample to C4: a completed public `set` can leave a cached entry
different from the child's max key.  `set` permits key edits that preserve
sort order: overwriting key `(2, tag 0)` with the distinct key `(2, tag 7)`
rewrites the stored key inside the leaf, but `BNodeInternal.set` returns
early (`if (result === false) return false`) *before* its `keys[i] =
child.maxKey()` refresh, so the parent cache still holds the old key
object. -/
theorem C4_counterexample :
    wfB 4 (BNode.internal [⟨2, 0⟩, ⟨4, 0⟩]
      [.leaf [⟨1, 0⟩, ⟨2, 0⟩] (some [JSV.num 1, JSV.num 2]) false,
       .leaf [⟨3, 0⟩, ⟨4, 0⟩] (some [JSV.num 3, JSV.num 4]) false] false) = true ∧
    alignedB (BNode.internal [⟨2, 0⟩, ⟨4, 0⟩]
      [.leaf [⟨1, 0⟩, ⟨2, 0⟩] (some [JSV.num 1, JSV.num 2]) false,
       .leaf [⟨3, 0⟩, ⟨4, 0⟩] (some [JSV.num 3, JSV.num 4]) false] false) = true ∧
    cacheExactB (BNode.internal [⟨2, 0⟩, ⟨4, 0⟩]
      [.leaf [⟨1, 0⟩, ⟨2, 0⟩] (some [JSV.num 1, JSV.num 2]) false,
       .leaf [⟨3, 0⟩, ⟨4, 0⟩] (some [JSV.num 3, JSV.num 4]) false] false) = true ∧
    (treeSet 3 ⟨BNode.internal [⟨2, 0⟩, ⟨4, 0⟩]
      [.leaf [⟨1, 0⟩, ⟨2, 0⟩] (some [JSV.num 1, JSV.num 2]) false,
       .leaf [⟨3, 0⟩, ⟨4, 0⟩] (some [JSV.num 3, JSV.num 4]) false] false, 4, 4⟩
      ⟨2, 7⟩ (JSV.num 20) none).2 = false ∧
    cacheExactB (treeSet 3 ⟨BNode.internal [⟨2, 0⟩, ⟨4, 0⟩]
      [.leaf [⟨1, 0⟩, ⟨2, 0⟩] (some [JSV.num 1, JSV.num 2]) false,
       .leaf [⟨3, 0⟩, ⟨4, 0⟩] (some [JSV.num 3, JSV.num 4]) false] false, 4, 4⟩
      ⟨2, 7⟩ (JSV.num 20) none).1.root = false := by
  refine ⟨by decide, by decide, by decide, by decide, by decide⟩

/-- C4 (amended): after a completed `set` on a well-formed aligned tree, the
cache invariant holds at every internal node *up to the comparator*: the
tree stays well-formed, and well-formedness (`wfB`) contains, at every
internal node and every index `i`, that `keys[i]` compares equal to
`children[i].maxKey()` (and each child is nonempty).  Exact key equality is
not maintained: a key-editing overwrite returns `false` through
`BNodeInternal.set`'s early exit, skipping the `keys[i]` refresh. -/
theorem C4_cache_after_set (t : TreeS) (key : Key) (value : JSV) (ow : Option Bool)
    (fuel : Nat) (hwf : wfB t.maxNodeSize t.root = true) (ha : alignedB t.root = true)
    (hmax : 2 ≤ t.maxNodeSize) (hfuel : t.root.height < fuel) :
    wfB t.maxNodeSize (treeSet fuel t key value ow).1.root = true ∧
    alignedB (treeSet fuel t key value ow).1.root = true := by
  obtain ⟨R0, hR0def⟩ : ∃ r, (if t.root.isNodeShared then cloneNode t.root
      else t.root) = r := ⟨_, rfl⟩
  have hR0t : R0.toList = t.root.toList := by
    rw [← hR0def]
    by_cases h : t.root.isNodeShared
    · rw [if_pos h, toList_clone]
    · rw [if_neg h]
  have hR0w : wfB t.maxNodeSize R0 = true := by
    rw [← hR0def]
    by_cases h : t.root.isNodeShared
    · rw [if_pos h]
      exact wf_clone _ _ hwf
    · rw [if_neg h]
      exact hwf
  have hR0a : alignedB R0 = true := by
    rw [← hR0def]
    by_cases h : t.root.isNodeShared
    · rw [if_pos h]
      exact aligned_clone _ ha
    · rw [if_neg h]
      exact ha
  have hR0h : R0.height = t.root.height := by
    rw [← hR0def]
    by_cases h : t.root.isNodeShared
    · rw [if_pos h, height_clone]
    · rw [if_neg h]
  have spec := setNode_spec key value ow t.maxNodeSize hmax fuel R0 hR0w hR0a
    (by omega)
  rcases hsn : setNode fuel R0 key value ow t.maxNodeSize with ⟨root1, res, inc⟩
  rw [hsn] at spec
  dsimp only at spec
  cases res with
  | done b =>
    have hout : treeSet fuel t key value ow =
        (⟨root1, (if inc then t.size + 1 else t.size), t.maxNodeSize⟩, b) := by
      unfold treeSet
      dsimp only
      rw [hR0def, hsn]
    rw [hout]
    exact ⟨spec.2.2.2.1, spec.2.2.2.2.1⟩
  | split sib =>
    have hout : treeSet fuel t key value ow =
        (⟨BNode.internal (applyMaxKeys [] [root1, sib]) [root1, sib] false,
          (if inc then t.size + 1 else t.size), t.maxNodeSize⟩, true) := by
      unfold treeSet
      dsimp only
      rw [hR0def, hsn]
    rw [hout]
    have habs : key.sort ∉ sortsOf R0.toList := by
      intro hm
      by_cases how : ow = some false
      · exact SetRes.noConfusion (spec.2.1 hm how).2.1
      · exact SetRes.noConfusion (spec.2.2.1 hm how).2.1
    obtain ⟨h1, _, _⟩ := spec.1 habs
    rw [show sibContent (SetRes.split sib) = sib.toList from rfl] at h1
    obtain ⟨hwsib, hasib, hksib, hkr1⟩ := spec.2.2.2.2.2 sib rfl
    have hamk : applyMaxKeys [] [root1, sib] =
        [BNode.maxKeyD root1, BNode.maxKeyD sib] := by
      rw [applyMaxKeys]
      simp
    rw [hamk]
    constructor
    · rw [wfB_internal_iff]
      refine ⟨by simp, by simp, by simp; omega, ?_, ?_, ?_⟩
      · exact (cacheOkL_cons _ _ _ _).mpr ⟨hkr1, rfl,
          (cacheOkL_cons _ _ _ _).mpr ⟨hksib, rfl, rfl⟩⟩
      · rw [wfL_iff]
        intro c hc
        rcases List.mem_cons.mp hc with h2 | h2
        · rw [h2]
          exact spec.2.2.2.1
        · rw [List.mem_singleton.mp h2]
          exact hwsib
      · have h3 : toListL [root1, sib] = root1.toList ++ sib.toList := by
          rw [toListL_cons, toListL_cons,
            show toListL ([] : List BNode) = [] from rfl, List.append_nil]
        rw [h3, h1]
        exact insertKV_sorted _ _ _ (toList_sorted R0 t.maxNodeSize hR0w) habs
    · rw [alignedB_internal_iff, alignedL_iff]
      intro c hc
      rcases List.mem_cons.mp hc with h2 | h2
      · rw [h2]
        exact spec.2.2.2.2.1
      · rw [List.mem_singleton.mp h2]
        exact hasib

/-- Instantiation of the amended C4 theorem: after inserting key `2` into
the singleton aligned tree `{1 ↦ 10}` with fanout 4, the resulting root is
well-formed (hence every cache entry compares equal to its child's max key)
and aligned. -/
theorem C4_cache_after_set_witness :
    ((2 : Nat) ≤ 4 ∧
      wfB 4 (BNode.leaf [⟨1, 0⟩] (some [JSV.num 10]) false) = true ∧
      alignedB (BNode.leaf [⟨1, 0⟩] (some [JSV.num 10]) false) = true ∧
      (BNode.leaf [⟨1, 0⟩] (some [JSV.num 10]) false).height < 2) ∧
    (wfB 4 (treeSet 2 ⟨BNode.leaf [⟨1, 0⟩] (some [JSV.num 10]) false, 1, 4⟩
        ⟨2, 0⟩ (JSV.num 20) none).1.root = true ∧
      alignedB (treeSet 2 ⟨BNode.leaf [⟨1, 0⟩] (some [JSV.num 10]) false, 1, 4⟩
        ⟨2, 0⟩ (JSV.num 20) none).1.root = true) :=
  ⟨⟨by decide, by decide, by decide, by decide⟩,
    C4_cache_after_set ⟨BNode.leaf [⟨1, 0⟩] (some [JSV.num 10]) false, 1, 4⟩
      ⟨2, 0⟩ (JSV.num 20) none 2 (by decide) (by decide) (by decide) (by decide)⟩
